import Mathlib

/-!
Verification of the `modular-async-di` wiring engine.

This file gives a shallow embedding of the `Wiring` / `WiringBuilder` engine of
`src/wiring.js` and proves properties of it.

Modelling conventions:

* Adjuster functions (container adjusters and wiring adjusters) are identified by their
  reference identity, modelled as a natural number.  The behaviour of a wiring adjuster
  (the sequence of `Wiring` objects it passes to its `addWiring` callback when invoked)
  is given by an external environment `Env`; container adjusters are opaque: applying one
  is recorded as an event, they do not act back on the wiring.
* A container-type string is modelled by its list of dot-separated segments, i.e. by the
  result of `containerType.split('.')` (segments are dot-free, so `split` / `join('.')`
  are mutually inverse and `s.startsWith(t + ".")` corresponds to strict list prefix).
  The root key `''` of `_containerAdjusters` and the base key `''` of `_wiringAdjusters`
  are both the one-segment key `[""]`; the dot-prepended key `` `.${t}` `` is `"" :: t`.
* A JavaScript object used as a dictionary is modelled as an association list in key
  insertion order (the container-type keys used here are non-numeric strings, for which
  JavaScript object iteration order is insertion order); a JavaScript `Map` likewise.
* Mutation is modelled by explicit state passing: a method that mutates `this` becomes a
  function returning the updated `Wiring`.  A method that only reads `this` (such as
  `createContainer`, which clones `this` and mutates the private clone) returns the
  public instance unchanged.
* Asynchrony is sequentialised: every `await` of an adjuster is modelled as a direct
  (pure) call, matching the strictly sequential processing in the source.
* The two loops whose JavaScript counterparts can diverge (the consume-while-growing
  expansion loop of `_gatherWiringSuppliedByWiringAdjusters` and the recursion of
  `_getFlattenedContainerAdjusters` through supplied wiring) take explicit fuel and
  return `none` when the fuel is exhausted.
-/

namespace ModularAsyncDI

/-- Reference identity of an adjuster function. -/
abbrev Adjuster := Nat

/-- A container-type key: the dot-separated segments of the key string. -/
abbrev Key := List String

/-- An ordered list of adjusters (one value of `_containerAdjusters`/`_wiringAdjusters`). -/
abbrev AdjList := List Adjuster

/-- A JavaScript object keyed by container type, in key insertion order. -/
abbrev Coll := List (Key × AdjList)

/-- Object property read `coll[key]` (`none` models `undefined`). -/
def Coll.find? : Coll → Key → Option AdjList
  | [], _ => none
  | (k, l) :: rest, key => if k = key then some l else Coll.find? rest key

/-- Object property write `coll[key] = v`: updates an existing key in place, otherwise
appends the key (JavaScript insertion order). -/
def Coll.set : Coll → Key → AdjList → Coll
  | [], key, v => [(key, v)]
  | (k, l) :: rest, key, v =>
      if k = key then (k, v) :: rest else (k, l) :: Coll.set rest key v

/-- `Object.keys(coll)`, in insertion order. -/
def Coll.keys (c : Coll) : List Key := c.map Prod.fst

/-- `key` names a strict descendant `d` exactly when the key string `d` starts with
`key + "."`; on segment lists this is the strict prefix test. -/
def isStrictAncestor (key d : Key) : Bool := key.isPrefixOf d && !(key == d)

/-- The ancestor walk of `_getAncestorAdjusters`, indexed by the number of remaining
`pop` steps (the segment count, so the counter never runs out). -/
def getAncestorAdjustersGo (coll : Coll) : Nat → Key → AdjList
  | 0, _ => []
  | n + 1, k =>
    if k.length ≤ 1 then []
    else
      match coll.find? k.dropLast with
      | some l => l
      | none => getAncestorAdjustersGo coll n k.dropLast

/-- `Wiring.prototype._getAncestorAdjusters`: walk up the hierarchy by repeatedly
dropping the last dot-segment, returning a copy of the first ancestor list found
(the empty list when no ancestor is known). -/
def getAncestorAdjusters (coll : Coll) (key : Key) : AdjList :=
  getAncestorAdjustersGo coll key.length key

/-- The walk does not depend on the exact counter, as long as it is large enough. -/
theorem getAncestorAdjustersGo_congr (coll : Coll) :
    ∀ n m k, k.length ≤ n → k.length ≤ m →
      getAncestorAdjustersGo coll n k = getAncestorAdjustersGo coll m k := by
  intro n
  induction n with
  | zero =>
    intro m k hn _
    have hk : k = [] := List.length_eq_zero.mp (Nat.le_zero.mp hn)
    subst hk
    cases m with
    | zero => rfl
    | succ m' => simp [getAncestorAdjustersGo]
  | succ n ih =>
    intro m k hn hm
    cases m with
    | zero =>
      have hk : k = [] := List.length_eq_zero.mp (Nat.le_zero.mp hm)
      subst hk
      simp [getAncestorAdjustersGo]
    | succ m' =>
      simp only [getAncestorAdjustersGo]
      by_cases hlen : k.length ≤ 1
      · rw [if_pos hlen, if_pos hlen]
      · rw [if_neg hlen, if_neg hlen]
        cases hd : coll.find? k.dropLast with
        | some l => rfl
        | none =>
          exact ih m' k.dropLast
            (by rw [List.length_dropLast]; omega)
            (by rw [List.length_dropLast]; omega)

/-- The recursive unfolding of the ancestor walk. -/
theorem getAncestorAdjusters_unfold (coll : Coll) (k : Key) :
    getAncestorAdjusters coll k =
      (if k.length ≤ 1 then []
      else
        match coll.find? k.dropLast with
        | some l => l
        | none => getAncestorAdjusters coll k.dropLast) := by
  unfold getAncestorAdjusters
  by_cases hlen : k.length ≤ 1
  · rw [if_pos hlen]
    cases hk : k.length with
    | zero =>
      have hknil : k = [] := List.length_eq_zero.mp hk
      subst hknil
      rfl
    | succ n =>
      simp only [getAncestorAdjustersGo]
      rw [if_pos hlen]
  · rw [if_neg hlen]
    obtain ⟨n, hn⟩ : ∃ n, k.length = n + 1 := ⟨k.length - 1, by omega⟩
    rw [hn]
    simp only [getAncestorAdjustersGo]
    rw [if_neg (hn ▸ hlen)]
    cases hd : coll.find? k.dropLast with
    | some l => rfl
    | none =>
      exact getAncestorAdjustersGo_congr coll n k.dropLast.length k.dropLast
        (by rw [List.length_dropLast]; omega) (le_refl _)

/-- `Wiring.prototype._ensureContainerTypeExists`. -/
def ensureContainerTypeExists (coll : Coll) (key : Key) : Coll :=
  match coll.find? key with
  | some _ => coll
  | none => coll.set key (getAncestorAdjusters coll key)

/-- `Wiring.prototype._pushAdjusters` (pushing `adjusters` onto the list stored at some
key is list append). -/
def pushAdjusters (adjusterList : AdjList) (adjusters : AdjList) : AdjList :=
  adjusterList ++ adjusters

/-- `Wiring.prototype._pushAdjustersIntoDescendants`. -/
def pushAdjustersIntoDescendants (coll : Coll) (key : Key) (adjusters : AdjList) : Coll :=
  coll.map fun e => if isStrictAncestor key e.1 then (e.1, pushAdjusters e.2 adjusters) else e

/-- `Wiring.prototype._pushAdjustersIntoUnknownDescendants`. -/
def pushAdjustersIntoUnknownDescendants (coll : Coll) (key : Key) (adjusters : AdjList)
    (reference : Coll) : Coll :=
  coll.map fun e =>
    if isStrictAncestor key e.1 && (reference.find? e.1).isNone then
      (e.1, pushAdjusters e.2 adjusters)
    else e

/-- `Wiring.prototype._addAdjuster`. -/
def addAdjuster (coll : Coll) (key : Key) (adjuster : Adjuster) : Coll :=
  let c1 := ensureContainerTypeExists coll key
  let c2 := c1.set key (pushAdjusters ((c1.find? key).getD []) [adjuster])
  pushAdjustersIntoDescendants c2 key [adjuster]

/-- One `Object.entries(sourceCollection).forEach` step of
`Wiring.prototype._addAdjusters`. -/
def addAdjustersEntry (coll : Coll) (source : Coll) (entry : Key × AdjList) : Coll :=
  let c1 := ensureContainerTypeExists coll entry.1
  let c2 := c1.set entry.1 (pushAdjusters ((c1.find? entry.1).getD []) entry.2)
  pushAdjustersIntoUnknownDescendants c2 entry.1 entry.2 source

/-- `Wiring.prototype._addAdjusters`. -/
def addAdjusters (coll : Coll) (source : Coll) : Coll :=
  source.foldl (fun c e => addAdjustersEntry c source e) coll

/-- `Wiring.isValidContainerType`: a non-empty string that neither starts nor ends with
a dot; on segment lists: non-empty, first and last segments non-empty.  (Interior empty
segments, i.e. `".."` inside the string, are allowed by the source check.) -/
def isValidContainerType (t : Key) : Bool :=
  !(t == []) && !(t.headI == "") && !(t.getLastI == "")

/-- The key under which `_containerAdjusters` stores container type `t`, i.e.
`` `.${t}` `` (prepending a dot prepends an empty segment). -/
def dotted (t : Key) : Key := "" :: t

/-- The root key `''` of `_containerAdjusters`, which is also the base key `''` of
`_wiringAdjusters`: the one-segment key of the empty string (`''.split('.') === ['']`). -/
def rootKey : Key := [""]

/-- The state of a `Wiring` object:

* `_containerAdjusters` — lists of container adjusters keyed by dot-prepended container
  type (`Coll`);
* `_wiringAdjusters` — lists of wiring adjusters keyed by container type, with `''`
  (here `rootKey`) for base wiring adjusters;
* `_wiringSuppliedByWiringAdjusters` — a `Map` from adjuster identity to `null`
  (modelled `none`) or the supplied `Wiring` (modelled `some`);
* `ctorTag` — the identity of the concrete class (`this.constructor`), so that
  subclass-preserving cloning (`new this.constructor(this)`) can be expressed. -/
inductive Wiring : Type where
  | mk : Coll → Coll → List (Adjuster × Option Wiring) → Nat → Wiring

/-- The `_wiringSuppliedByWiringAdjusters` map, in insertion order. -/
abbrev SuppliedMap := List (Adjuster × Option Wiring)

def Wiring.containerAdjusters : Wiring → Coll
  | .mk ca _ _ _ => ca

def Wiring.wiringAdjusters : Wiring → Coll
  | .mk _ wa _ _ => wa

def Wiring.supplied : Wiring → SuppliedMap
  | .mk _ _ m _ => m

def Wiring.ctorTag : Wiring → Nat
  | .mk _ _ _ tag => tag

def Wiring.setContainerAdjusters (w : Wiring) (ca : Coll) : Wiring :=
  .mk ca w.wiringAdjusters w.supplied w.ctorTag

def Wiring.setWiringAdjusters (w : Wiring) (wa : Coll) : Wiring :=
  .mk w.containerAdjusters wa w.supplied w.ctorTag

def Wiring.setSupplied (w : Wiring) (m : SuppliedMap) : Wiring :=
  .mk w.containerAdjusters w.wiringAdjusters m w.ctorTag

/-- `map.get(a)`: `none` models `undefined` (key absent), `some none` models `null`. -/
def SuppliedMap.get : SuppliedMap → Adjuster → Option (Option Wiring)
  | [], _ => none
  | (k, v) :: rest, a => if k = a then some v else SuppliedMap.get rest a

/-- `map.set(a, v)`: update in place or append (Map insertion order). -/
def SuppliedMap.set : SuppliedMap → Adjuster → Option Wiring → SuppliedMap
  | [], a, v => [(a, v)]
  | (k, v') :: rest, a, v =>
      if k = a then (k, v) :: rest else (k, v') :: SuppliedMap.set rest a v

/-- `map.has(a)`. -/
def SuppliedMap.has (m : SuppliedMap) (a : Adjuster) : Bool := (m.get a).isSome

/-- `Wiring.prototype._addSuppliedWiring`: copy every entry of the source map whose key
is not already present. -/
def addSuppliedWiring (dest src : SuppliedMap) : SuppliedMap :=
  src.foldl (fun d e => if d.has e.1 then d else d.set e.1 e.2) dest

/-- `Wiring.prototype._ensureSuppliedWiringKeyExists`. -/
def ensureSuppliedWiringKeyExists (m : SuppliedMap) (a : Adjuster) : SuppliedMap :=
  if m.has a then m else m.set a none

/-- `new Wiring()`: all collections empty.  The base class carries tag `0`. -/
def Wiring.empty (tag : Nat := 0) : Wiring := .mk [] [] [] tag

/-- `new this.constructor(wiring)` / `new Wiring(wiring)`: the copy constructor.  It
copies both adjuster collections entry-wise (`slice()`), copies the supplied-wiring map
(`new Map(...)`), and constructs through the source's own constructor, preserving the
concrete class. -/
def Wiring.clone (w : Wiring) : Wiring :=
  .mk w.containerAdjusters w.wiringAdjusters w.supplied w.ctorTag

/-- Cloning reproduces the source state exactly (the copies are entry-wise). -/
theorem Wiring.clone_eq (w : Wiring) : w.clone = w := by
  cases w
  rfl

/-- `Wiring.prototype._adjustContainer` (the container type `t` is assumed valid, as
guaranteed by the `WiringBuilder.adjustContainer` guard). -/
def Wiring.adjustContainer (w : Wiring) (t : Key) (a : Adjuster) : Wiring :=
  let w1 := w.setContainerAdjusters (addAdjuster w.containerAdjusters (dotted t) a)
  w1.setWiringAdjusters (ensureContainerTypeExists w1.wiringAdjusters t)

/-- `Wiring.prototype._adjustWiringAfter`; the scope key `t` is either a valid container
type or `rootKey` (the `''` used by `_adjustBaseWiring`). -/
def Wiring.adjustWiringAfter (w : Wiring) (t : Key) (a : Adjuster) : Wiring :=
  let w1 := w.setWiringAdjusters (addAdjuster w.wiringAdjusters t a)
  let w2 :=
    if t ≠ rootKey then
      w1.setContainerAdjusters (ensureContainerTypeExists w1.containerAdjusters (dotted t))
    else w1
  let w3 := w2.setContainerAdjusters (addAdjuster w2.containerAdjusters rootKey a)
  w3.setSupplied (ensureSuppliedWiringKeyExists w3.supplied a)

/-- `Wiring.prototype._adjustBaseWiring`. -/
def Wiring.adjustBaseWiring (w : Wiring) (a : Adjuster) : Wiring :=
  w.adjustWiringAfter rootKey a

/-- `Wiring.prototype._addWiring` (importing the content of a built wiring). -/
def Wiring.addWiring (w src : Wiring) : Wiring :=
  let w1 := w.setContainerAdjusters
    (addAdjusters w.containerAdjusters src.containerAdjusters)
  let w2 := w1.setWiringAdjusters (addAdjusters w1.wiringAdjusters src.wiringAdjusters)
  w2.setSupplied (addSuppliedWiring w2.supplied src.supplied)

/-- The external behaviour of the wiring-adjuster functions: for each adjuster identity,
the sequence of (built) `Wiring` objects it passes to its `addWiring` callback when it is
invoked. -/
structure Env where
  script : Adjuster → List Wiring

/-- The body of the `addWiring` callback created in
`Wiring.prototype._gatherWiringSuppliedByWiringAdjusters`, acting on the pair
(the gathering wiring `this`, the in-progress supplied wiring). -/
def wiringAdjusterCallback (st : Wiring × Wiring) (wta : Wiring) : Wiring × Wiring :=
  let this0 := st.1
  let sw0 := st.2
  let sw1 := sw0.setContainerAdjusters
    (addAdjusters sw0.containerAdjusters wta.containerAdjusters)
  let this1 := this0.setWiringAdjusters
    (addAdjusters this0.wiringAdjusters wta.wiringAdjusters)
  let this2 := this1.setSupplied (addSuppliedWiring this1.supplied wta.supplied)
  (this2, sw1)

/-- The `while ((wiringAdjuster = this._wiringAdjusters[containerType].shift()))` loop of
`_gatherWiringSuppliedByWiringAdjusters`, with explicit fuel (one unit per iteration).
`hasCtx` records whether a just-created container was passed as the context argument;
the returned log lists the wiring adjusters actually invoked, in order, each with the
context flag it received. -/
def gatherLoop (env : Env) (key : Key) (hasCtx : Bool) :
    Nat → Wiring → List (Adjuster × Bool) → Option (Wiring × List (Adjuster × Bool))
  | fuel, w, log =>
    match (w.wiringAdjusters.find? key).getD [] with
    | [] => some (w, log)
    | wa :: rest =>
      match fuel with
      | 0 => none
      | fuel + 1 =>
        let w1 := w.setWiringAdjusters (w.wiringAdjusters.set key rest)
        match w1.supplied.get wa with
        | some (some _) => gatherLoop env key hasCtx fuel w1 log
        | _ =>
          let w2 := w1.setSupplied (w1.supplied.set wa (some (Wiring.empty 0)))
          let p := (env.script wa).foldl wiringAdjusterCallback (w2, Wiring.empty 0)
          let caSynced := p.2.containerAdjusters.keys.foldl ensureContainerTypeExists
            p.1.containerAdjusters
          let swSynced := p.2.setContainerAdjusters
            (caSynced.keys.foldl ensureContainerTypeExists p.2.containerAdjusters)
          let w3 := ((p.1.setContainerAdjusters caSynced).setSupplied
            (p.1.supplied.set wa (some swSynced)))
          gatherLoop env key hasCtx fuel w3 (log ++ [(wa, hasCtx)])

/-- `Wiring.prototype._gatherWiringSuppliedByWiringAdjusters`: returns immediately when
the scope key has no pending list, otherwise runs the consume loop. -/
def gather (env : Env) (key : Key) (hasCtx : Bool) (fuel : Nat) (w : Wiring) :
    Option (Wiring × List (Adjuster × Bool)) :=
  match w.wiringAdjusters.find? key with
  | none => some (w, [])
  | some _ => gatherLoop env key hasCtx fuel w []

/-- The `forEach` of `Wiring.prototype._getFlattenedContainerAdjusters`, processing one
raw adjuster list.  An entry absent from the supplied map is a true container adjuster;
an entry mapped to `null` is an uncalled wiring adjuster and is dropped; an entry mapped
to a supplied wiring is replaced by the recursive flattening of that wiring's list for
the same container type (when it has one).  Fuel bounds the recursion depth through
supplied wirings. -/
def flattenList (supplied : SuppliedMap) (key : Key)
    (deep : Option (AdjList → Option AdjList)) : AdjList → Option AdjList
  | [] => some []
  | a :: rest =>
    match supplied.get a with
    | none => (flattenList supplied key deep rest).map (a :: ·)
    | some none => flattenList supplied key deep rest
    | some (some sw) =>
      match sw.containerAdjusters.find? key with
      | none => flattenList supplied key deep rest
      | some l =>
        match deep with
        | none => none
        | some d => do
          let inner ← d l
          let tail ← flattenList supplied key deep rest
          pure (inner ++ tail)

def flattenGo (supplied : SuppliedMap) : Nat → Key → AdjList → Option AdjList
  | 0, key, l => flattenList supplied key none l
  | fuel + 1, key, l => flattenList supplied key (some (flattenGo supplied fuel key)) l

theorem flattenGo_nil (supplied : SuppliedMap) (fuel : Nat) (key : Key) :
    flattenGo supplied fuel key [] = some [] := by
  cases fuel with
  | zero => rfl
  | succ f => rfl

/-- The recursive unfolding of flattening at one list entry, in the shape of the
source's `forEach` body. -/
theorem flattenGo_cons (supplied : SuppliedMap) (fuel : Nat) (key : Key) (a : Adjuster)
    (rest : AdjList) :
    flattenGo supplied fuel key (a :: rest) =
      (match supplied.get a with
      | none => (flattenGo supplied fuel key rest).map (a :: ·)
      | some none => flattenGo supplied fuel key rest
      | some (some sw) =>
        match sw.containerAdjusters.find? key with
        | none => flattenGo supplied fuel key rest
        | some l =>
          match fuel with
          | 0 => none
          | f + 1 => do
            let inner ← flattenGo supplied f key l
            let tail ← flattenGo supplied (f + 1) key rest
            pure (inner ++ tail)) := by
  cases fuel with
  | zero => rfl
  | succ f => rfl

/-- `Wiring.prototype._getFlattenedContainerAdjusters`. -/
def getFlattenedContainerAdjusters (supplied : SuppliedMap) (fuel : Nat) (coll : Coll)
    (key : Key) : Option AdjList :=
  flattenGo supplied fuel key ((coll.find? key).getD [])

/-- First-occurrence deduplication by identity: the effect of the
`appliedContainerAdjusters` set in the apply loop of `_createContainer`. -/
def dedupFirstGo (seen : List Adjuster) : AdjList → AdjList
  | [] => []
  | a :: rest =>
      if a ∈ seen then dedupFirstGo seen rest else a :: dedupFirstGo (a :: seen) rest

/-- The sequence of adjusters actually invoked when applying a flattened list. -/
def dedupFirst : AdjList → AdjList := dedupFirstGo []

/-- An observable event on a created container, in occurrence order. -/
inductive CEvent where
  | wiringBean (tag : Nat)
  | applied (a : Adjuster) (args : List Nat)
deriving DecidableEq

/-- A created container: its registration/adjustment events in order, and its `wiring`
bean — the private working `Wiring` this creation threaded (the source registers the
private instance itself, so the bean reflects all mutation up to the end of the call). -/
structure Container where
  events : List CEvent
  wiring : Wiring

/-- The errors `createContainer`/`createContainerFactory` can reject with. -/
inductive CreateError where
  /-- `TypeError("invalid container type")`. -/
  | invalidType
  /-- `RangeError("container type ... unknown")`. -/
  | unknownType
deriving DecidableEq

/-- The outcome of a successful `_createContainer` call, instrumented with the list of
adjusters invoked and the wiring-adjuster invocation logs of the two expansion steps. -/
structure CreateResult where
  container : Container
  appliedAdjusters : AdjList
  baseLog : List (Adjuster × Bool)
  afterLog : List (Adjuster × Bool)

/-- `Wiring.prototype._createContainer` (acting on the private clone): expand base
wiring adjusters, validate the type, construct the container with the `wiring` bean
registered first, apply the flattened identity-deduplicated adjuster list in order, then
expand the wiring adjusters pending for the created type.  `none` models divergence
(fuel exhaustion). -/
def createContainerCore (env : Env) (fuel : Nat) (w : Wiring) (t : Key)
    (args : List Nat) : Option (Except CreateError CreateResult) :=
  match gather env rootKey false fuel w with
  | none => none
  | some (w1, baseLog) =>
    match w1.containerAdjusters.find? (dotted t) with
    | none => some (.error .unknownType)
    | some _ =>
      match getFlattenedContainerAdjusters w1.supplied fuel w1.containerAdjusters
          (dotted t) with
      | none => none
      | some raw =>
        let appliedList := dedupFirst raw
        let events := CEvent.wiringBean w1.ctorTag ::
          appliedList.map (fun a => CEvent.applied a args)
        match gather env t true fuel w1 with
        | none => none
        | some (w2, afterLog) =>
          some (.ok ⟨⟨events, w2⟩, appliedList, baseLog, afterLog⟩)

/-- `Wiring.prototype.createContainer`: validate the type string, clone `this`, run the
creation on the private clone.  The second component is the public instance after the
call — unchanged, because the method only reads `this` to clone it. -/
def Wiring.createContainer (env : Env) (fuel : Nat) (w : Wiring) (t : Key)
    (args : List Nat) : Option (Except CreateError CreateResult) × Wiring :=
  if isValidContainerType t then (createContainerCore env fuel w.clone t args, w)
  else (some (.error .invalidType), w)

/-- The callable returned by `_createContainerFactory`: it captures the private
(already base-expanded) wiring, the container type and the factory arguments. -/
structure ContainerFactory where
  capturedWiring : Wiring
  containerType : Key
  factoryArgs : List Nat

/-- `Wiring.prototype._createContainerFactory` (acting on the private clone): expand
base wiring adjusters and validate the type eagerly, then return the callable. -/
def createContainerFactoryCore (env : Env) (fuel : Nat) (w : Wiring) (t : Key)
    (factoryArgs : List Nat) : Option (Except CreateError ContainerFactory) :=
  match gather env rootKey false fuel w with
  | none => none
  | some (w1, _) =>
    match w1.containerAdjusters.find? (dotted t) with
    | none => some (.error .unknownType)
    | some _ => some (.ok ⟨w1, t, factoryArgs⟩)

/-- `Wiring.prototype.createContainerFactory` (public entry, cloning `this`). -/
def Wiring.createContainerFactory (env : Env) (fuel : Nat) (w : Wiring) (t : Key)
    (factoryArgs : List Nat) : Option (Except CreateError ContainerFactory) × Wiring :=
  if isValidContainerType t then
    (createContainerFactoryCore env fuel w.clone t factoryArgs, w)
  else (some (.error .invalidType), w)

/-- One invocation of the factory callable: clone the captured wiring afresh and run the
full creation sequence with the factory arguments followed by the caller arguments. -/
def ContainerFactory.invoke (env : Env) (fuel : Nat) (f : ContainerFactory)
    (callerArgs : List Nat) : Option (Except CreateError CreateResult) :=
  createContainerCore env fuel f.capturedWiring.clone f.containerType
    (f.factoryArgs ++ callerArgs)

/-- A `WiringBuilder`: it owns a private definition-phase wiring. -/
structure WiringBuilder where
  wiring : Wiring

/-- `new WiringBuilder(wiring?)`: start from a copy of the imported wiring (constructed
through the imported wiring's own class), or from a fresh base-class `Wiring`. -/
def WiringBuilder.make (imported : Option Wiring) : WiringBuilder :=
  ⟨match imported with
    | some w => w.clone
    | none => Wiring.empty 0⟩

/-- `WiringBuilder.prototype.adjustContainer`; an invalid container type throws before
any mutation, leaving the builder state unchanged. -/
def WiringBuilder.adjustContainer (b : WiringBuilder) (t : Key) (a : Adjuster) :
    WiringBuilder :=
  if isValidContainerType t then ⟨b.wiring.adjustContainer t a⟩ else b

/-- `WiringBuilder.prototype.adjustBaseWiring`. -/
def WiringBuilder.adjustBaseWiring (b : WiringBuilder) (a : Adjuster) : WiringBuilder :=
  ⟨b.wiring.adjustBaseWiring a⟩

/-- `WiringBuilder.prototype.adjustWiringAfter`; invalid types throw before mutating. -/
def WiringBuilder.adjustWiringAfter (b : WiringBuilder) (t : Key) (a : Adjuster) :
    WiringBuilder :=
  if isValidContainerType t then ⟨b.wiring.adjustWiringAfter t a⟩ else b

/-- `WiringBuilder.prototype.addWiring` (the argument is a genuine wiring by type). -/
def WiringBuilder.addWiring (b : WiringBuilder) (src : Wiring) : WiringBuilder :=
  ⟨b.wiring.addWiring src⟩

/-- `WiringBuilder.prototype.build`: return a copy of the wiring (through its own
constructor) so further use of the builder does not mutate it. -/
def WiringBuilder.build (b : WiringBuilder) : Wiring := b.wiring.clone

/-- One definition-phase builder operation. -/
inductive BOp where
  | adjContainer (t : Key) (a : Adjuster)
  | adjBaseWiring (a : Adjuster)
  | adjWiringAfter (t : Key) (a : Adjuster)
  | addWiring (src : Wiring)

/-- Apply one builder operation to a definition-phase wiring (invalid container types
throw at the builder guard before mutating, so they leave the state unchanged). -/
def runOp (w : Wiring) : BOp → Wiring
  | .adjContainer t a => if isValidContainerType t then w.adjustContainer t a else w
  | .adjBaseWiring a => w.adjustBaseWiring a
  | .adjWiringAfter t a => if isValidContainerType t then w.adjustWiringAfter t a else w
  | .addWiring src => w.addWiring src

/-- Run a sequence of builder operations from a starting state. -/
def runOps (w : Wiring) (ops : List BOp) : Wiring := ops.foldl runOp w

/-! ## Basic lemmas about the collection operations -/

theorem Coll.find?_set_self (c : Coll) (k : Key) (v : AdjList) :
    (c.set k v).find? k = some v := by
  induction c with
  | nil => simp [Coll.set, Coll.find?]
  | cons e rest ih =>
    cases e with
    | mk k1 l1 =>
      simp only [Coll.set]
      split
      next h => simp [Coll.find?, h]
      next h => simp [Coll.find?, h, ih]

theorem Coll.find?_set_ne (c : Coll) (k k' : Key) (v : AdjList) (h : k' ≠ k) :
    (c.set k v).find? k' = c.find? k' := by
  induction c with
  | nil => simp [Coll.set, Coll.find?, Ne.symm h]
  | cons e rest ih =>
    cases e with
    | mk k1 l1 =>
      simp only [Coll.set]
      split
      next he =>
        subst he
        simp [Coll.find?, Ne.symm h]
      next he => simp [Coll.find?, ih]

/-- Key-preserving value transformations commute with lookup. -/
theorem Coll.find?_mapVal (g : Key → AdjList → AdjList) (c : Coll) (k : Key) :
    Coll.find? (c.map (fun e => (e.1, g e.1 e.2))) k = (c.find? k).map (g k) := by
  induction c with
  | nil => simp [Coll.find?]
  | cons e rest ih =>
    cases e with
    | mk k1 l1 =>
      simp only [List.map_cons, Coll.find?]
      split
      next h => subst h; simp
      next h => simpa using ih

theorem pushAdjustersIntoDescendants_eq_mapVal (c : Coll) (key : Key) (adj : AdjList) :
    pushAdjustersIntoDescendants c key adj =
      c.map (fun e => (e.1, if isStrictAncestor key e.1 then e.2 ++ adj else e.2)) := by
  unfold pushAdjustersIntoDescendants
  apply List.map_congr_left
  intro e _
  by_cases h : isStrictAncestor key e.1
  · simp [h, pushAdjusters]
  · simp [h]

theorem pushAdjustersIntoDescendants_find? (c : Coll) (key : Key) (adj : AdjList)
    (k : Key) :
    (pushAdjustersIntoDescendants c key adj).find? k =
      (c.find? k).map (fun l => if isStrictAncestor key k then l ++ adj else l) := by
  rw [pushAdjustersIntoDescendants_eq_mapVal]
  exact Coll.find?_mapVal (fun k1 l => if isStrictAncestor key k1 then l ++ adj else l) c k

theorem pushAdjustersIntoUnknownDescendants_eq_mapVal (c : Coll) (key : Key)
    (adj : AdjList) (ref : Coll) :
    pushAdjustersIntoUnknownDescendants c key adj ref =
      c.map (fun e =>
        (e.1, if isStrictAncestor key e.1 && (ref.find? e.1).isNone then e.2 ++ adj
          else e.2)) := by
  unfold pushAdjustersIntoUnknownDescendants
  apply List.map_congr_left
  intro e _
  by_cases h : (isStrictAncestor key e.1 && (ref.find? e.1).isNone : Bool)
  · simp [h, pushAdjusters]
  · simp [h]

theorem pushAdjustersIntoUnknownDescendants_find? (c : Coll) (key : Key) (adj : AdjList)
    (ref : Coll) (k : Key) :
    (pushAdjustersIntoUnknownDescendants c key adj ref).find? k =
      (c.find? k).map
        (fun l => if isStrictAncestor key k && (ref.find? k).isNone then l ++ adj
          else l) := by
  rw [pushAdjustersIntoUnknownDescendants_eq_mapVal]
  exact Coll.find?_mapVal
    (fun k1 l => if isStrictAncestor key k1 && (ref.find? k1).isNone then l ++ adj else l)
    c k

theorem ensureContainerTypeExists_find?_self (c : Coll) (k : Key) :
    (ensureContainerTypeExists c k).find? k =
      some ((c.find? k).getD (getAncestorAdjusters c k)) := by
  unfold ensureContainerTypeExists
  cases h : c.find? k with
  | none => simp [h, Coll.find?_set_self]
  | some l => simp [h]

theorem ensureContainerTypeExists_find?_ne (c : Coll) (k k' : Key) (h : k' ≠ k) :
    (ensureContainerTypeExists c k).find? k' = c.find? k' := by
  unfold ensureContainerTypeExists
  cases hf : c.find? k with
  | none => simp [Coll.find?_set_ne _ _ _ _ h]
  | some l => rfl

theorem isStrictAncestor_self (key : Key) : isStrictAncestor key key = false := by
  simp [isStrictAncestor]

theorem addAdjuster_find?_self (c : Coll) (key : Key) (a : Adjuster) :
    (addAdjuster c key a).find? key =
      some (((c.find? key).getD (getAncestorAdjusters c key)) ++ [a]) := by
  simp only [addAdjuster]
  rw [pushAdjustersIntoDescendants_find?, Coll.find?_set_self,
    ensureContainerTypeExists_find?_self]
  simp [isStrictAncestor_self, pushAdjusters]

theorem addAdjuster_find?_ne (c : Coll) (key : Key) (a : Adjuster) (k : Key)
    (h : k ≠ key) :
    (addAdjuster c key a).find? k =
      (c.find? k).map (fun l => if isStrictAncestor key k then l ++ [a] else l) := by
  simp only [addAdjuster]
  rw [pushAdjustersIntoDescendants_find?, Coll.find?_set_ne _ _ _ _ h,
    ensureContainerTypeExists_find?_ne _ _ _ h]

/-! ## Lemmas about first-occurrence deduplication -/

theorem mem_dedupFirstGo (seen : List Adjuster) (l : AdjList) (a : Adjuster) :
    a ∈ dedupFirstGo seen l ↔ a ∈ l ∧ a ∉ seen := by
  induction l generalizing seen with
  | nil => simp [dedupFirstGo]
  | cons b rest ih =>
    simp only [dedupFirstGo]
    split
    next hb =>
      rw [ih, List.mem_cons]
      constructor
      · rintro ⟨h1, h2⟩
        exact ⟨Or.inr h1, h2⟩
      · rintro ⟨h1 | h1, h2⟩
        · subst h1
          exact absurd hb h2
        · exact ⟨h1, h2⟩
    next hb =>
      rw [List.mem_cons, List.mem_cons, ih, List.mem_cons]
      constructor
      · rintro (h | ⟨h1, h2⟩)
        · subst h
          exact ⟨Or.inl rfl, hb⟩
        · push_neg at h2
          exact ⟨Or.inr h1, h2.2⟩
      · rintro ⟨h1 | h1, h2⟩
        · exact Or.inl h1
        · by_cases hab : a = b
          · exact Or.inl hab
          · exact Or.inr ⟨h1, by simp [hab, h2]⟩

theorem nodup_dedupFirstGo (seen : List Adjuster) (l : AdjList) :
    (dedupFirstGo seen l).Nodup := by
  induction l generalizing seen with
  | nil => simp [dedupFirstGo]
  | cons b rest ih =>
    simp only [dedupFirstGo]
    split
    · exact ih _
    · refine List.Nodup.cons ?_ (ih _)
      rw [mem_dedupFirstGo]
      rintro ⟨_, h2⟩
      exact h2 (List.mem_cons_self _ _)

theorem dedupFirstGo_congr (s1 s2 : List Adjuster) (l : AdjList)
    (h : ∀ x, x ∈ s1 ↔ x ∈ s2) : dedupFirstGo s1 l = dedupFirstGo s2 l := by
  induction l generalizing s1 s2 with
  | nil => rfl
  | cons b rest ih =>
    simp only [dedupFirstGo]
    by_cases hb : b ∈ s1
    · rw [if_pos hb, if_pos ((h b).mp hb)]
      exact ih _ _ h
    · rw [if_neg hb, if_neg (fun hb2 => hb ((h b).mpr hb2))]
      congr 1
      apply ih
      intro x
      simp only [List.mem_cons]
      rw [h x]

theorem dedupFirstGo_append (s : List Adjuster) (l1 l2 : AdjList) :
    dedupFirstGo s (l1 ++ l2) = dedupFirstGo s l1 ++ dedupFirstGo (l1 ++ s) l2 := by
  induction l1 generalizing s with
  | nil => simp [dedupFirstGo]
  | cons b rest ih =>
    rw [List.cons_append]
    simp only [dedupFirstGo]
    by_cases hb : b ∈ s
    · rw [if_pos hb, if_pos hb, ih]
      congr 1
      apply dedupFirstGo_congr
      intro x
      simp only [List.mem_append, List.mem_cons, List.cons_append]
      by_cases hxb : x = b
      · subst hxb
        tauto
      · tauto
    · rw [if_neg hb, if_neg hb, ih, List.cons_append]
      congr 2
      apply dedupFirstGo_congr
      intro x
      simp only [List.mem_append, List.mem_cons, List.cons_append]
      tauto

theorem mem_dedupFirst (l : AdjList) (a : Adjuster) : a ∈ dedupFirst l ↔ a ∈ l := by
  simp [dedupFirst, mem_dedupFirstGo]

theorem nodup_dedupFirst (l : AdjList) : (dedupFirst l).Nodup := nodup_dedupFirstGo [] l

/-- Appending the same tail to lists with equal deduplications keeps the
deduplications equal. -/
theorem dedupFirst_append_congr (l l' m : AdjList) (h : dedupFirst l = dedupFirst l') :
    dedupFirst (l ++ m) = dedupFirst (l' ++ m) := by
  unfold dedupFirst
  rw [dedupFirstGo_append, dedupFirstGo_append]
  unfold dedupFirst at h
  rw [h]
  congr 1
  apply dedupFirstGo_congr
  intro x
  have hx : x ∈ dedupFirstGo [] l ↔ x ∈ dedupFirstGo [] l' := by rw [h]
  simp only [mem_dedupFirstGo, List.not_mem_nil, not_false_iff, and_true] at hx
  simpa using hx

/-! ## Lemmas about flattening -/

/-- When every supplied-map entry is still `null` (no wiring adjuster has been called),
flattening keeps exactly the adjusters that are not wiring adjusters, in order. -/
theorem flattenGo_allNone (supplied : SuppliedMap) (fuel : Nat) (key : Key) (l : AdjList)
    (h : ∀ a v, supplied.get a = some v → v = none) :
    flattenGo supplied fuel key l = some (l.filter fun a => (supplied.get a).isNone) := by
  induction l with
  | nil => exact flattenGo_nil supplied fuel key
  | cons a rest ih =>
    rw [flattenGo_cons]
    cases hg : supplied.get a with
    | none => simp [hg, List.filter_cons, ih]
    | some v =>
      have hv := h a v hg
      subst hv
      simp [hg, List.filter_cons, ih]

/-- Flattening with an empty supplied map is the identity. -/
theorem flattenGo_nil_supplied (fuel : Nat) (key : Key) (l : AdjList) :
    flattenGo [] fuel key l = some l := by
  rw [flattenGo_allNone]
  · simp [SuppliedMap.get]
  · intro a v h
    simp [SuppliedMap.get] at h

/-- Inversion principle for flattening one list entry. -/
theorem flattenGo_cons_inv (supplied : SuppliedMap) (fuel : Nat) (key : Key)
    (b : Adjuster) (rest res : AdjList)
    (h : flattenGo supplied fuel key (b :: rest) = some res) :
    (supplied.get b = none ∧
      ∃ tail, flattenGo supplied fuel key rest = some tail ∧ res = b :: tail) ∨
    (supplied.get b = some none ∧ flattenGo supplied fuel key rest = some res) ∨
    (∃ sw, supplied.get b = some (some sw) ∧
      sw.containerAdjusters.find? key = none ∧
      flattenGo supplied fuel key rest = some res) ∨
    (∃ sw l' f inner tail, supplied.get b = some (some sw) ∧
      sw.containerAdjusters.find? key = some l' ∧ fuel = f + 1 ∧
      flattenGo supplied f key l' = some inner ∧
      flattenGo supplied fuel key rest = some tail ∧ res = inner ++ tail) := by
  cases hg : supplied.get b with
  | none =>
    left
    simp only [flattenGo_cons, hg] at h
    cases hr : flattenGo supplied fuel key rest with
    | none => rw [hr] at h; cases h
    | some tail =>
      rw [hr] at h
      refine ⟨rfl, tail, rfl, ?_⟩
      simpa using h.symm
  | some v =>
    cases v with
    | none =>
      right; left
      simp only [flattenGo_cons, hg] at h
      exact ⟨rfl, h⟩
    | some sw =>
      cases hf : sw.containerAdjusters.find? key with
      | none =>
        right; right; left
        simp only [flattenGo_cons, hg, hf] at h
        exact ⟨sw, rfl, hf, h⟩
      | some l' =>
        right; right; right
        cases fuel with
        | zero => simp [flattenGo_cons, hg, hf] at h
        | succ f =>
          simp only [flattenGo_cons, hg, hf] at h
          cases hin : flattenGo supplied f key l' with
          | none => rw [hin] at h; cases h
          | some inner =>
            rw [hin] at h
            cases htl : flattenGo supplied (f + 1) key rest with
            | none => rw [htl] at h; cases h
            | some tail =>
              rw [htl] at h
              refine ⟨sw, l', f, inner, tail, rfl, hf, rfl, hin, rfl, ?_⟩
              simpa using h.symm

/-- A true container adjuster present in the raw list survives flattening. -/
theorem flattenGo_mem_of_none (supplied : SuppliedMap) (fuel : Nat) (key : Key)
    (l res : AdjList) (a : Adjuster) (h : flattenGo supplied fuel key l = some res)
    (ha : a ∈ l) (hn : supplied.get a = none) : a ∈ res := by
  induction l generalizing res fuel with
  | nil => cases ha
  | cons b rest ih =>
    rcases flattenGo_cons_inv supplied fuel key b rest res h with
      ⟨hb, tail, htl, hres⟩ | ⟨hb, htl⟩ | ⟨sw, hb, hf, htl⟩ |
      ⟨sw, l', f, inner, tail, hb, hf, hfuel, hin, htl, hres⟩
    · subst hres
      rcases List.mem_cons.mp ha with hab | hmem
      · subst hab
        exact List.mem_cons_self _ _
      · exact List.mem_cons_of_mem _ (ih fuel tail htl hmem)
    · rcases List.mem_cons.mp ha with hab | hmem
      · subst hab
        rw [hn] at hb
        cases hb
      · exact ih fuel res htl hmem
    · rcases List.mem_cons.mp ha with hab | hmem
      · subst hab
        rw [hn] at hb
        cases hb
      · exact ih fuel res htl hmem
    · subst hres
      rcases List.mem_cons.mp ha with hab | hmem
      · subst hab
        rw [hn] at hb
        cases hb
      · exact List.mem_append_right _ (ih fuel tail htl hmem)

/-- A container adjuster contributed by a resolved wiring adjuster's supplied wiring
survives flattening of a list containing that wiring adjuster. -/
theorem flattenGo_mem_of_supplied (supplied : SuppliedMap) (fuel : Nat) (key : Key)
    (l res l' : AdjList) (wa a : Adjuster) (sw : Wiring)
    (h : flattenGo supplied fuel key l = some res) (hwa : wa ∈ l)
    (hsw : supplied.get wa = some (some sw))
    (hl' : sw.containerAdjusters.find? key = some l') (ha : a ∈ l')
    (hn : supplied.get a = none) : a ∈ res := by
  induction l generalizing res fuel with
  | nil => cases hwa
  | cons b rest ih =>
    rcases flattenGo_cons_inv supplied fuel key b rest res h with
      ⟨hb, tail, htl, hres⟩ | ⟨hb, htl⟩ | ⟨sw', hb, hf, htl⟩ |
      ⟨sw', l'', f, inner, tail, hb, hf, hfuel, hin, htl, hres⟩
    · subst hres
      rcases List.mem_cons.mp hwa with hab | hmem
      · subst hab
        rw [hsw] at hb
        cases hb
      · exact List.mem_cons_of_mem _ (ih fuel tail htl hmem)
    · rcases List.mem_cons.mp hwa with hab | hmem
      · subst hab
        rw [hsw] at hb
        cases hb
      · exact ih fuel res htl hmem
    · rcases List.mem_cons.mp hwa with hab | hmem
      · subst hab
        rw [hsw] at hb
        injection hb with hb'
        injection hb' with hb''
        subst hb''
        rw [hl'] at hf
        cases hf
      · exact ih fuel res htl hmem
    · subst hres
      rcases List.mem_cons.mp hwa with hab | hmem
      · subst hab
        rw [hsw] at hb
        injection hb with hb'
        injection hb' with hb''
        subst hb''
        rw [hl'] at hf
        injection hf with hf'
        subst hf'
        exact List.mem_append_left _
          (flattenGo_mem_of_none supplied f key l' inner a hin ha hn)
      · exact List.mem_append_right _ (ih fuel tail htl hmem)

/-! ## The registry state after a sequence of direct registrations -/

theorem Wiring.containerAdjusters_mk (ca wa : Coll) (m : SuppliedMap) (tag : Nat) :
    (Wiring.mk ca wa m tag).containerAdjusters = ca := rfl

theorem Wiring.wiringAdjusters_mk (ca wa : Coll) (m : SuppliedMap) (tag : Nat) :
    (Wiring.mk ca wa m tag).wiringAdjusters = wa := rfl

theorem Wiring.supplied_mk (ca wa : Coll) (m : SuppliedMap) (tag : Nat) :
    (Wiring.mk ca wa m tag).supplied = m := rfl

theorem Wiring.ctorTag_mk (ca wa : Coll) (m : SuppliedMap) (tag : Nat) :
    (Wiring.mk ca wa m tag).ctorTag = tag := rfl

/-- `_adjustContainer`, written out as a single state construction. -/
theorem Wiring.adjustContainer_def (w : Wiring) (t : Key) (a : Adjuster) :
    w.adjustContainer t a = Wiring.mk (addAdjuster w.containerAdjusters (dotted t) a)
      (ensureContainerTypeExists w.wiringAdjusters t) w.supplied w.ctorTag := rfl

/-- `_adjustWiringAfter`, written out as a single state construction. -/
theorem Wiring.adjustWiringAfter_def (w : Wiring) (t : Key) (a : Adjuster) :
    w.adjustWiringAfter t a = Wiring.mk
      (addAdjuster
        (if t ≠ rootKey then ensureContainerTypeExists w.containerAdjusters (dotted t)
          else w.containerAdjusters) rootKey a)
      (addAdjuster w.wiringAdjusters t a)
      (ensureSuppliedWiringKeyExists w.supplied a) w.ctorTag := by
  by_cases h : t ≠ rootKey
  · simp only [Wiring.adjustWiringAfter, if_pos h]
    rfl
  · simp only [Wiring.adjustWiringAfter, if_neg h]
    rfl

theorem isValidContainerType_ne_rootKey (t : Key) (h : isValidContainerType t) :
    t ≠ rootKey := by
  intro heq
  subst heq
  simp [isValidContainerType, rootKey] at h

theorem isValidContainerType_ne_nil (t : Key) (h : isValidContainerType t) : t ≠ [] := by
  intro heq
  subst heq
  simp [isValidContainerType] at h

theorem isStrictAncestor_iff (a k : Key) :
    isStrictAncestor a k = true ↔ a <+: k ∧ a ≠ k := by
  simp [isStrictAncestor, List.isPrefixOf_iff_prefix]

/-- A proper prefix is a prefix of the list with its last element dropped. -/
theorem IsPrefix.prefix_dropLast (p k : Key) (h : p <+: k) (hne : p ≠ k) :
    p <+: k.dropLast := by
  have hlen : p.length < k.length := by
    rcases Nat.lt_or_ge p.length k.length with h' | h'
    · exact h'
    · exact absurd (h.eq_of_length (Nat.le_antisymm h.length_le h')) hne
  have hp : p = k.take p.length := List.prefix_iff_eq_take.mp h
  rw [hp, List.dropLast_eq_take]
  exact List.take_prefix_take_left k (by omega)

/-- The adjuster identities used by the (valid) `adjustContainer` registrations of a
sequence of builder operations. -/
def caIds (ops : List BOp) : List Adjuster :=
  ops.filterMap fun op => match op with
    | .adjContainer t a => if isValidContainerType t then some a else none
    | _ => none

/-- The adjuster identities used by the (valid, non-base) `adjustWiringAfter`
registrations of a sequence of builder operations. -/
def waIds (ops : List BOp) : List Adjuster :=
  ops.filterMap fun op => match op with
    | .adjWiringAfter t a => if isValidContainerType t then some a else none
    | _ => none

/-- The container-adjuster registration sequence inlined top-to-bottom for the
dot-prepended container-type key `k`: the adjuster of every valid `adjustContainer`
registration whose target type is `k` or an ancestor of `k`, in registration order. -/
def inlineOrder (ops : List BOp) (k : Key) : AdjList :=
  ops.filterMap fun op => match op with
    | .adjContainer t a =>
        if isValidContainerType t && (dotted t).isPrefixOf k then some a else none
    | _ => none

/-- The `_containerAdjusters` keys introduced by a sequence of direct registrations. -/
def regCAKeys (ops : List BOp) : List Key :=
  ops.flatMap fun op => match op with
    | .adjContainer t _ => if isValidContainerType t then [dotted t] else []
    | .adjWiringAfter t _ => if isValidContainerType t then [dotted t, rootKey] else []
    | _ => []

/-- A direct registration: `adjustContainer` or (non-base) `adjustWiringAfter`. -/
def BOp.isDirectRegistration : BOp → Bool
  | .adjContainer _ _ => true
  | .adjWiringAfter _ _ => true
  | _ => false

/-- The invariant maintained by direct registrations: (1) the known container-type keys
are exactly the registered ones; (2) each stored list, filtered to the entries that are
not wiring-adjuster sentinels, deduplicates to the inlined registration order; (3) the
supplied-wiring map has exactly the registered wiring adjusters as keys; (4) all map
entries are still `null`; (5) no base wiring adjusters are pending; (6) stored lists
mention only registered adjuster identities. -/
def directInvariant (ops : List BOp) (S : Wiring) : Prop :=
  (∀ k, S.containerAdjusters.find? k = none ↔ k ∉ regCAKeys ops) ∧
  (∀ k l, S.containerAdjusters.find? k = some l →
    dedupFirst (l.filter fun a => (S.supplied.get a).isNone) =
      dedupFirst (inlineOrder ops k)) ∧
  (∀ a, (S.supplied.get a).isSome ↔ a ∈ waIds ops) ∧
  (∀ a v, S.supplied.get a = some v → v = none) ∧
  S.wiringAdjusters.find? rootKey = none ∧
  (∀ k l, S.containerAdjusters.find? k = some l → ∀ x ∈ l, x ∈ caIds ops ∨ x ∈ waIds ops)

/-- A registration targeting an ancestor of `k` also targets the same ancestors as
`k.dropLast` when no registration targets `k` itself. -/
theorem inlineOrder_eq_dropLast (ops : List BOp) (k : Key)
    (hreg : ∀ t a, BOp.adjContainer t a ∈ ops → isValidContainerType t → dotted t ≠ k) :
    inlineOrder ops k = inlineOrder ops k.dropLast := by
  apply List.filterMap_congr
  intro op hop
  cases op with
  | adjContainer t a =>
    by_cases hv : isValidContainerType t
    · simp only [hv, Bool.true_and]
      have hne := hreg t a hop hv
      by_cases hp : (dotted t).isPrefixOf k
      · have hp' : dotted t <+: k := List.isPrefixOf_iff_prefix.mp hp
        have hd : dotted t <+: k.dropLast := IsPrefix.prefix_dropLast _ _ hp' hne
        rw [if_pos hp, if_pos (List.isPrefixOf_iff_prefix.mpr hd)]
      · have hnd : ¬ ((dotted t).isPrefixOf k.dropLast = true) := by
          intro hq
          exact hp (List.isPrefixOf_iff_prefix.mpr
            ((List.isPrefixOf_iff_prefix.mp hq).trans (List.dropLast_prefix k)))
        rw [if_neg hp, if_neg hnd]
    · simp [hv]
  | adjBaseWiring a => rfl
  | adjWiringAfter t a => rfl
  | addWiring src => rfl

/-- No registration can target a key of length at most one (registered keys are
dot-prepended valid types, of length at least two). -/
theorem inlineOrder_short (ops : List BOp) (k : Key) (hlen : k.length ≤ 1) :
    inlineOrder ops k = [] := by
  rw [show ([] : AdjList) = List.filterMap (fun _ => none) ops by simp]
  apply List.filterMap_congr
  intro op _
  cases op with
  | adjContainer t a =>
    by_cases hv : isValidContainerType t
    · simp only [hv, Bool.true_and]
      have : ¬ ((dotted t).isPrefixOf k = true) := by
        intro hp
        have := (List.isPrefixOf_iff_prefix.mp hp).length_le
        have ht := isValidContainerType_ne_nil t hv
        have : 1 ≤ t.length := List.length_pos.mpr ht
        simp only [dotted, List.length_cons] at *
        omega
      rw [if_neg this]
    · simp [hv]
  | adjBaseWiring a => rfl
  | adjWiringAfter t a => rfl
  | addWiring src => rfl

/-- Seeding a newly referenced container type from its nearest known ancestor produces
a list whose (non-sentinel) deduplication is the inlined registration order for the new
type. -/
theorem seed_dedup (ops : List BOp) (S : Wiring) (p : Adjuster → Bool)
    (hI1 : ∀ k, S.containerAdjusters.find? k = none ↔ k ∉ regCAKeys ops)
    (hI2 : ∀ k l, S.containerAdjusters.find? k = some l →
      dedupFirst (l.filter p) = dedupFirst (inlineOrder ops k))
    (hops : ∀ t a, BOp.adjContainer t a ∈ ops → isValidContainerType t →
      dotted t ∈ regCAKeys ops)
    (k : Key) (hk : S.containerAdjusters.find? k = none) :
    dedupFirst ((getAncestorAdjusters S.containerAdjusters k).filter p) =
      dedupFirst (inlineOrder ops k) := by
  have hreg : ∀ t a, BOp.adjContainer t a ∈ ops → isValidContainerType t →
      dotted t ≠ k := by
    intro t a hop hv heq
    exact ((hI1 k).mp hk) (heq ▸ hops t a hop hv)
  rw [getAncestorAdjusters_unfold]
  by_cases hlen : k.length ≤ 1
  · rw [if_pos hlen, inlineOrder_short ops k hlen]
    simp
  · rw [if_neg hlen]
    rw [inlineOrder_eq_dropLast ops k hreg]
    cases hd : S.containerAdjusters.find? k.dropLast with
    | some l => exact hI2 k.dropLast l hd
    | none => exact seed_dedup ops S p hI1 hI2 hops k.dropLast hd
termination_by k.length
decreasing_by
  simp only [List.length_dropLast]
  omega

theorem SuppliedMap.get_set_self (m : SuppliedMap) (a : Adjuster) (v : Option Wiring) :
    (m.set a v).get a = some v := by
  induction m with
  | nil => simp [SuppliedMap.set, SuppliedMap.get]
  | cons e rest ih =>
    cases e with
    | mk k1 v1 =>
      simp only [SuppliedMap.set]
      split
      next h => simp [SuppliedMap.get, h]
      next h => simp [SuppliedMap.get, h, ih]

theorem SuppliedMap.get_set_ne (m : SuppliedMap) (a a' : Adjuster) (v : Option Wiring)
    (h : a' ≠ a) : (m.set a v).get a' = m.get a' := by
  induction m with
  | nil => simp [SuppliedMap.set, SuppliedMap.get, Ne.symm h]
  | cons e rest ih =>
    cases e with
    | mk k1 v1 =>
      simp only [SuppliedMap.set]
      split
      next he =>
        subst he
        simp [SuppliedMap.get, Ne.symm h]
      next he => simp [SuppliedMap.get, ih]

theorem ensureSuppliedWiringKeyExists_get_self (m : SuppliedMap) (a : Adjuster) :
    (ensureSuppliedWiringKeyExists m a).get a = some ((m.get a).getD none) := by
  unfold ensureSuppliedWiringKeyExists
  by_cases h : m.has a
  · rw [if_pos h]
    unfold SuppliedMap.has at h
    cases hg : m.get a with
    | none => rw [hg] at h; cases h
    | some v => simp [hg]
  · rw [if_neg h]
    unfold SuppliedMap.has at h
    cases hg : m.get a with
    | none => simp [SuppliedMap.get_set_self]
    | some v => rw [hg] at h; simp at h

theorem ensureSuppliedWiringKeyExists_get_ne (m : SuppliedMap) (a a' : Adjuster)
    (h : a' ≠ a) : (ensureSuppliedWiringKeyExists m a).get a' = m.get a' := by
  unfold ensureSuppliedWiringKeyExists
  by_cases hh : m.has a
  · rw [if_pos hh]
  · rw [if_neg hh]
    exact SuppliedMap.get_set_ne m a a' none h

/-- Every element of a seeded list is an element of some stored list. -/
theorem getAncestorAdjusters_mem (coll : Coll) (k : Key) (x : Adjuster)
    (hx : x ∈ getAncestorAdjusters coll k) :
    ∃ k' l', coll.find? k' = some l' ∧ x ∈ l' := by
  rw [getAncestorAdjusters_unfold] at hx
  by_cases hlen : k.length ≤ 1
  · rw [if_pos hlen] at hx
    cases hx
  · rw [if_neg hlen] at hx
    revert hx
    cases hd : coll.find? k.dropLast with
    | some l =>
      intro hx
      exact ⟨k.dropLast, l, hd, hx⟩
    | none =>
      intro hx
      exact getAncestorAdjusters_mem coll k.dropLast x hx
termination_by k.length
decreasing_by
  simp only [List.length_dropLast]
  omega

theorem mem_regCAKeys_of_adjContainer (ops : List BOp) (t : Key) (a : Adjuster)
    (hop : BOp.adjContainer t a ∈ ops) (hv : isValidContainerType t) :
    dotted t ∈ regCAKeys ops := by
  unfold regCAKeys
  rw [List.mem_flatMap]
  exact ⟨BOp.adjContainer t a, hop, by simp [hv]⟩

theorem dotted_ne_rootKey (t : Key) (hv : isValidContainerType t) :
    dotted t ≠ rootKey := by
  intro h
  have := isValidContainerType_ne_nil t hv
  simp only [dotted, rootKey] at h
  injection h with h1 h2
  exact this h2

theorem isStrictAncestor_rootKey_dotted (t : Key) (ht : t ≠ []) :
    isStrictAncestor rootKey (dotted t) = true := by
  rw [isStrictAncestor_iff]
  constructor
  · exact ⟨t, rfl⟩
  · intro h
    simp only [rootKey, dotted] at h
    injection h with h1 h2
    exact ht h2.symm

theorem runOps_append_one (w : Wiring) (ops : List BOp) (op : BOp) :
    runOps w (ops ++ [op]) = runOp (runOps w ops) op := by
  simp [runOps, List.foldl_append]

theorem regCAKeys_append_one (ops : List BOp) (op : BOp) :
    regCAKeys (ops ++ [op]) = regCAKeys ops ++ regCAKeys [op] := by
  simp [regCAKeys]

theorem caIds_append_one (ops : List BOp) (op : BOp) :
    caIds (ops ++ [op]) = caIds ops ++ caIds [op] := by
  simp [caIds]

theorem waIds_append_one (ops : List BOp) (op : BOp) :
    waIds (ops ++ [op]) = waIds ops ++ waIds [op] := by
  simp [waIds]

theorem inlineOrder_append_one (ops : List BOp) (op : BOp) (k : Key) :
    inlineOrder (ops ++ [op]) k = inlineOrder ops k ++ inlineOrder [op] k := by
  simp [inlineOrder]

theorem directInvariant_nil (tag : Nat) : directInvariant [] (Wiring.empty tag) := by
  refine ⟨?_, ?_, ?_, ?_, ?_, ?_⟩
  · intro k
    simp [Wiring.empty, Wiring.containerAdjusters, Coll.find?, regCAKeys]
  · intro k l hl
    simp [Wiring.empty, Wiring.containerAdjusters, Coll.find?] at hl
  · intro a
    simp [Wiring.empty, Wiring.supplied, SuppliedMap.get, waIds]
  · intro a v hv
    simp [Wiring.empty, Wiring.supplied, SuppliedMap.get] at hv
  · simp [Wiring.empty, Wiring.wiringAdjusters, Coll.find?]
  · intro k l hl
    simp [Wiring.empty, Wiring.containerAdjusters, Coll.find?] at hl

theorem directInvariant_congr (ops ops' : List BOp) (S : Wiring)
    (h1 : regCAKeys ops' = regCAKeys ops)
    (h2 : ∀ k, inlineOrder ops' k = inlineOrder ops k)
    (h3 : caIds ops' = caIds ops) (h4 : waIds ops' = waIds ops)
    (hinv : directInvariant ops S) : directInvariant ops' S := by
  obtain ⟨hI1, hI2, hI3, hI4, hI5, hI6⟩ := hinv
  refine ⟨?_, ?_, ?_, hI4, hI5, ?_⟩
  · intro k
    rw [h1]
    exact hI1 k
  · intro k l hl
    rw [h2]
    exact hI2 k l hl
  · intro a
    rw [h4]
    exact hI3 a
  · intro k l hl x hx
    rw [h3, h4]
    exact hI6 k l hl x hx

theorem directInvariant_adjContainer (ops : List BOp) (S : Wiring) (t : Key)
    (a : Adjuster) (hv : isValidContainerType t) (hinv : directInvariant ops S)
    (hfresh : a ∉ waIds ops) :
    directInvariant (ops ++ [.adjContainer t a]) (S.adjustContainer t a) := by
  obtain ⟨hI1, hI2, hI3, hI4, hI5, hI6⟩ := hinv
  have hops : ∀ t' a', BOp.adjContainer t' a' ∈ ops → isValidContainerType t' →
      dotted t' ∈ regCAKeys ops := fun t' a' h h' =>
    mem_regCAKeys_of_adjContainer ops t' a' h h'
  have hrk : regCAKeys [BOp.adjContainer t a] = [dotted t] := by
    simp [regCAKeys, hv]
  have hca : caIds [BOp.adjContainer t a] = [a] := by
    simp [caIds, hv]
  have hwa : waIds [BOp.adjContainer t a] = [] := by
    simp [waIds]
  have hin : ∀ k, inlineOrder [BOp.adjContainer t a] k =
      if (dotted t).isPrefixOf k then [a] else [] := by
    intro k
    by_cases hp : (dotted t).isPrefixOf k
    · rw [if_pos hp]
      simp [inlineOrder, hv, List.isPrefixOf_iff_prefix.mp hp]
    · rw [if_neg hp]
      have hnp : ¬ dotted t <+: k := fun hc => hp (List.isPrefixOf_iff_prefix.mpr hc)
      simp [inlineOrder, hv, hnp]
  have hpa : (S.supplied.get a).isNone = true := by
    cases hg : S.supplied.get a with
    | none => rfl
    | some v =>
      exact absurd ((hI3 a).mp (by simp [hg])) hfresh
  have hfa : List.filter (fun x => (S.supplied.get x).isNone) [a] = [a] := by
    simp [hpa]
  rw [Wiring.adjustContainer_def]
  refine ⟨?_, ?_, ?_, ?_, ?_, ?_⟩
  · -- I1: known keys
    intro k
    simp only [Wiring.containerAdjusters_mk]
    rw [regCAKeys_append_one, hrk]
    by_cases hk : k = dotted t
    · subst hk
      rw [addAdjuster_find?_self]
      simp
    · rw [addAdjuster_find?_ne _ _ _ _ hk]
      simp only [List.mem_append, List.mem_singleton, Option.map_eq_none']
      rw [hI1 k]
      constructor
      · intro h
        push_neg
        exact ⟨h, hk⟩
      · intro h
        push_neg at h
        exact h.1
  · -- I2: filtered dedup is the inlined order
    intro k l hl
    simp only [Wiring.containerAdjusters_mk, Wiring.supplied_mk] at *
    rw [inlineOrder_append_one, hin k]
    by_cases hk : k = dotted t
    · subst hk
      rw [addAdjuster_find?_self] at hl
      injection hl with hl
      subst hl
      rw [if_pos (List.isPrefixOf_iff_prefix.mpr (List.prefix_refl _))]
      rw [List.filter_append, hfa]
      apply dedupFirst_append_congr
      cases hfind : S.containerAdjusters.find? (dotted t) with
      | some l0 => simpa [hfind] using hI2 _ l0 hfind
      | none =>
        simpa [hfind] using
          seed_dedup ops S (fun x => (S.supplied.get x).isNone) hI1 hI2 hops
            (dotted t) hfind
    · rw [addAdjuster_find?_ne _ _ _ _ hk] at hl
      cases hfind : S.containerAdjusters.find? k with
      | none => rw [hfind] at hl; cases hl
      | some l0 =>
        rw [hfind] at hl
        simp only [Option.map_some'] at hl
        injection hl with hl
        subst hl
        by_cases hpre : (dotted t).isPrefixOf k
        · have hsa : isStrictAncestor (dotted t) k = true :=
            (isStrictAncestor_iff _ _).mpr ⟨List.isPrefixOf_iff_prefix.mp hpre, Ne.symm hk⟩
          rw [if_pos hsa, if_pos hpre, List.filter_append, hfa]
          exact dedupFirst_append_congr _ _ _ (hI2 k l0 hfind)
        · have hsa : isStrictAncestor (dotted t) k = false := by
            rw [Bool.eq_false_iff]
            intro hc
            exact hpre (List.isPrefixOf_iff_prefix.mpr ((isStrictAncestor_iff _ _).mp hc).1)
          rw [hsa, if_neg hpre]
          simpa using hI2 k l0 hfind
  · -- I3: supplied keys unchanged
    intro x
    simp only [Wiring.supplied_mk]
    rw [waIds_append_one, hwa, List.append_nil]
    exact hI3 x
  · -- I4: all map values still null
    intro x v hx
    simp only [Wiring.supplied_mk] at hx
    exact hI4 x v hx
  · -- I5: no base wiring adjusters pending
    simp only [Wiring.wiringAdjusters_mk]
    rw [ensureContainerTypeExists_find?_ne _ _ _
      (Ne.symm (isValidContainerType_ne_rootKey t hv))]
    exact hI5
  · -- I6: stored lists mention only registered identities
    intro k l hl x hx
    simp only [Wiring.containerAdjusters_mk] at hl
    rw [caIds_append_one, hca, waIds_append_one, hwa]
    simp only [List.mem_append, List.mem_singleton, List.append_nil]
    have hold : ∀ k0 l0, S.containerAdjusters.find? k0 = some l0 → x ∈ l0 →
        (x ∈ caIds ops ∨ x = a) ∨ x ∈ waIds ops := by
      intro k0 l0 h0 hx0
      rcases hI6 k0 l0 h0 x hx0 with h | h
      · exact Or.inl (Or.inl h)
      · exact Or.inr h
    by_cases hk : k = dotted t
    · subst hk
      rw [addAdjuster_find?_self] at hl
      injection hl with hl
      subst hl
      rcases List.mem_append.mp hx with hx0 | hx0
      · cases hfind : S.containerAdjusters.find? (dotted t) with
        | some l0 =>
          rw [hfind] at hx0
          exact hold _ l0 hfind hx0
        | none =>
          rw [hfind] at hx0
          simp only [Option.getD_none] at hx0
          obtain ⟨k', l', h', hx'⟩ := getAncestorAdjusters_mem _ _ _ hx0
          exact hold _ l' h' hx'
      · simp only [List.mem_singleton] at hx0
        exact Or.inl (Or.inr hx0)
    · rw [addAdjuster_find?_ne _ _ _ _ hk] at hl
      cases hfind : S.containerAdjusters.find? k with
      | none => rw [hfind] at hl; cases hl
      | some l0 =>
        rw [hfind] at hl
        simp only [Option.map_some'] at hl
        injection hl with hl
        subst hl
        by_cases hsa : isStrictAncestor (dotted t) k
        · rw [if_pos hsa] at hx
          rcases List.mem_append.mp hx with hx0 | hx0
          · exact hold _ l0 hfind hx0
          · simp only [List.mem_singleton] at hx0
            exact Or.inl (Or.inr hx0)
        · rw [if_neg hsa] at hx
          exact hold _ l0 hfind hx

theorem getAncestorAdjusters_short (coll : Coll) (k : Key) (h : k.length ≤ 1) :
    getAncestorAdjusters coll k = [] := by
  rw [getAncestorAdjusters_unfold, if_pos h]


theorem directInvariant_adjWiringAfter (ops : List BOp) (S : Wiring) (t : Key)
    (b : Adjuster) (hv : isValidContainerType t) (hinv : directInvariant ops S)
    (hbca : b ∉ caIds ops) :
    directInvariant (ops ++ [.adjWiringAfter t b]) (S.adjustWiringAfter t b) := by
  obtain ⟨hI1, hI2, hI3, hI4, hI5, hI6⟩ := hinv
  have hops : ∀ t' a', BOp.adjContainer t' a' ∈ ops → isValidContainerType t' →
      dotted t' ∈ regCAKeys ops := fun t' a' h h' =>
    mem_regCAKeys_of_adjContainer ops t' a' h h'
  have htroot : t ≠ rootKey := isValidContainerType_ne_rootKey t hv
  have hdroot : dotted t ≠ rootKey := dotted_ne_rootKey t hv
  have htnil : t ≠ [] := isValidContainerType_ne_nil t hv
  have hrootlen : rootKey.length ≤ 1 := by simp [rootKey]
  have hrk : regCAKeys [BOp.adjWiringAfter t b] = [dotted t, rootKey] := by
    simp [regCAKeys, hv]
  have hca : caIds [BOp.adjWiringAfter t b] = [] := by
    simp [caIds]
  have hwa : waIds [BOp.adjWiringAfter t b] = [b] := by
    simp [waIds, hv]
  have hin : ∀ k, inlineOrder (ops ++ [BOp.adjWiringAfter t b]) k =
      inlineOrder ops k := by
    intro k
    rw [inlineOrder_append_one]
    simp [inlineOrder]
  have hgetb : (ensureSuppliedWiringKeyExists S.supplied b).get b =
      some ((S.supplied.get b).getD none) :=
    ensureSuppliedWiringKeyExists_get_self S.supplied b
  have hpb : ((ensureSuppliedWiringKeyExists S.supplied b).get b).isNone = false := by
    rw [hgetb]
    rfl
  have hpp : ∀ x, (x ∈ caIds ops ∨ x ∈ waIds ops) →
      ((ensureSuppliedWiringKeyExists S.supplied b).get x).isNone =
        (S.supplied.get x).isNone := by
    intro x hx
    by_cases hxb : x = b
    · subst hxb
      rcases hx with hx | hx
      · exact absurd hx hbca
      · have hs := (hI3 x).mpr hx
        rw [hgetb]
        cases hg : S.supplied.get x with
        | none => rw [hg] at hs; cases hs
        | some v => simp [hg]
    · rw [ensureSuppliedWiringKeyExists_get_ne _ _ _ hxb]
  have hmemD : ∀ k0, ∀ x ∈
      ((S.containerAdjusters.find? k0).getD
        (getAncestorAdjusters S.containerAdjusters k0)),
      x ∈ caIds ops ∨ x ∈ waIds ops := by
    intro k0 x hx
    cases hfind : S.containerAdjusters.find? k0 with
    | some l0 =>
      rw [hfind] at hx
      exact hI6 k0 l0 hfind x hx
    | none =>
      rw [hfind] at hx
      simp only [Option.getD_none] at hx
      obtain ⟨k', l', h', hx'⟩ := getAncestorAdjusters_mem _ _ _ hx
      exact hI6 k' l' h' x hx'
  have hfiltD : ∀ k0,
      List.filter (fun x => ((ensureSuppliedWiringKeyExists S.supplied b).get x).isNone)
        ((S.containerAdjusters.find? k0).getD
          (getAncestorAdjusters S.containerAdjusters k0)) =
      List.filter (fun x => (S.supplied.get x).isNone)
        ((S.containerAdjusters.find? k0).getD
          (getAncestorAdjusters S.containerAdjusters k0)) := by
    intro k0
    apply List.filter_congr
    intro x hx
    exact hpp x (hmemD k0 x hx)
  have hdedupD : ∀ k0,
      dedupFirst (List.filter (fun x => (S.supplied.get x).isNone)
        ((S.containerAdjusters.find? k0).getD
          (getAncestorAdjusters S.containerAdjusters k0))) =
      dedupFirst (inlineOrder ops k0) := by
    intro k0
    cases hfind : S.containerAdjusters.find? k0 with
    | some l0 => simpa [hfind] using hI2 k0 l0 hfind
    | none =>
      simpa [hfind] using
        seed_dedup ops S (fun x => (S.supplied.get x).isNone) hI1 hI2 hops k0 hfind
  have hfb : List.filter
      (fun x => ((ensureSuppliedWiringKeyExists S.supplied b).get x).isNone) [b] = [] := by
    simp [hpb]
  rw [Wiring.adjustWiringAfter_def, if_pos htroot]
  refine ⟨?_, ?_, ?_, ?_, ?_, ?_⟩
  · -- I1: known keys gain the target type key and the root key
    intro k
    simp only [Wiring.containerAdjusters_mk]
    rw [regCAKeys_append_one, hrk]
    by_cases hk : k = rootKey
    · subst hk
      rw [addAdjuster_find?_self]
      simp
    · rw [addAdjuster_find?_ne _ _ _ _ hk]
      simp only [Option.map_eq_none']
      by_cases hk2 : k = dotted t
      · subst hk2
        rw [ensureContainerTypeExists_find?_self]
        simp
      · rw [ensureContainerTypeExists_find?_ne _ _ _ hk2, hI1 k]
        simp [List.mem_append, hk, hk2]
  · -- I2: filtered dedup is the inlined order
    intro k l hl
    simp only [Wiring.containerAdjusters_mk, Wiring.supplied_mk] at *
    rw [hin k]
    by_cases hk : k = rootKey
    · subst hk
      rw [addAdjuster_find?_self,
        ensureContainerTypeExists_find?_ne _ _ _ (Ne.symm hdroot),
        getAncestorAdjusters_short _ _ hrootlen] at hl
      injection hl with hl
      subst hl
      rw [List.filter_append, hfb, List.append_nil]
      cases hfind : S.containerAdjusters.find? rootKey with
      | some l0 =>
        simp only [hfind, Option.getD_some]
        rw [List.filter_congr (fun x hx => hpp x (hI6 _ l0 hfind x hx))]
        exact hI2 _ l0 hfind
      | none =>
        simp only [hfind, Option.getD_none, List.filter_nil]
        rw [inlineOrder_short ops rootKey hrootlen]
    · rw [addAdjuster_find?_ne _ _ _ _ hk] at hl
      by_cases hk2 : k = dotted t
      · subst hk2
        rw [ensureContainerTypeExists_find?_self,
          isStrictAncestor_rootKey_dotted t htnil] at hl
        simp only [Option.map_some', if_pos] at hl
        injection hl with hl
        subst hl
        rw [List.filter_append, hfb, List.append_nil, hfiltD]
        exact hdedupD _
      · rw [ensureContainerTypeExists_find?_ne _ _ _ hk2] at hl
        cases hfind : S.containerAdjusters.find? k with
        | none => rw [hfind] at hl; cases hl
        | some l0 =>
          rw [hfind] at hl
          simp only [Option.map_some'] at hl
          injection hl with hl
          subst hl
          have hfl0 : List.filter
              (fun x => ((ensureSuppliedWiringKeyExists S.supplied b).get x).isNone) l0 =
              List.filter (fun x => (S.supplied.get x).isNone) l0 :=
            List.filter_congr (fun x hx => hpp x (hI6 _ l0 hfind x hx))
          by_cases hsa : isStrictAncestor rootKey k
          · rw [if_pos hsa, List.filter_append, hfb, List.append_nil, hfl0]
            exact hI2 k l0 hfind
          · rw [if_neg hsa, hfl0]
            exact hI2 k l0 hfind
  · -- I3: the new wiring adjuster is now a supplied-map key
    intro x
    simp only [Wiring.supplied_mk]
    rw [waIds_append_one, hwa]
    by_cases hxb : x = b
    · subst hxb
      rw [hgetb]
      simp
    · rw [ensureSuppliedWiringKeyExists_get_ne _ _ _ hxb, hI3 x]
      simp [hxb]
  · -- I4: all map values still null
    intro x v hx
    simp only [Wiring.supplied_mk] at hx
    by_cases hxb : x = b
    · subst hxb
      rw [hgetb] at hx
      injection hx with hx
      cases hg : S.supplied.get x with
      | none => rw [hg] at hx; exact hx.symm
      | some v0 =>
        rw [hg] at hx
        simp only [Option.getD_some] at hx
        rw [← hx]
        exact hI4 x v0 hg
    · rw [ensureSuppliedWiringKeyExists_get_ne _ _ _ hxb] at hx
      exact hI4 x v hx
  · -- I5: the base scope stays empty (the new adjuster is registered under `t`)
    simp only [Wiring.wiringAdjusters_mk]
    rw [addAdjuster_find?_ne _ _ _ _ (Ne.symm htroot), hI5]
    rfl
  · -- I6: stored lists mention only registered identities
    intro k l hl x hx
    simp only [Wiring.containerAdjusters_mk] at hl
    rw [caIds_append_one, hca, waIds_append_one, hwa, List.append_nil]
    simp only [List.mem_append, List.mem_singleton]
    have hold : ∀ k0 l0, S.containerAdjusters.find? k0 = some l0 → x ∈ l0 →
        x ∈ caIds ops ∨ x ∈ waIds ops ∨ x = b := by
      intro k0 l0 h0 hx0
      rcases hI6 k0 l0 h0 x hx0 with h | h
      · exact Or.inl h
      · exact Or.inr (Or.inl h)
    have holdD : ∀ k0, x ∈
        ((S.containerAdjusters.find? k0).getD
          (getAncestorAdjusters S.containerAdjusters k0)) →
        x ∈ caIds ops ∨ x ∈ waIds ops ∨ x = b := by
      intro k0 hx0
      rcases hmemD k0 x hx0 with h | h
      · exact Or.inl h
      · exact Or.inr (Or.inl h)
    by_cases hk : k = rootKey
    · subst hk
      rw [addAdjuster_find?_self,
        ensureContainerTypeExists_find?_ne _ _ _ (Ne.symm hdroot),
        getAncestorAdjusters_short _ _ hrootlen] at hl
      injection hl with hl
      subst hl
      rcases List.mem_append.mp hx with hx0 | hx0
      · cases hfind : S.containerAdjusters.find? rootKey with
        | some l0 =>
          rw [hfind] at hx0
          exact hold _ l0 hfind hx0
        | none =>
          rw [hfind] at hx0
          cases hx0
      · simp only [List.mem_singleton] at hx0
        exact Or.inr (Or.inr hx0)
    · rw [addAdjuster_find?_ne _ _ _ _ hk] at hl
      by_cases hk2 : k = dotted t
      · subst hk2
        rw [ensureContainerTypeExists_find?_self,
          isStrictAncestor_rootKey_dotted t htnil] at hl
        simp only [Option.map_some', if_pos] at hl
        injection hl with hl
        subst hl
        rcases List.mem_append.mp hx with hx0 | hx0
        · exact holdD _ hx0
        · simp only [List.mem_singleton] at hx0
          exact Or.inr (Or.inr hx0)
      · rw [ensureContainerTypeExists_find?_ne _ _ _ hk2] at hl
        cases hfind : S.containerAdjusters.find? k with
        | none => rw [hfind] at hl; cases hl
        | some l0 =>
          rw [hfind] at hl
          simp only [Option.map_some'] at hl
          injection hl with hl
          subst hl
          by_cases hsa : isStrictAncestor rootKey k
          · rw [if_pos hsa] at hx
            rcases List.mem_append.mp hx with hx0 | hx0
            · exact hold _ l0 hfind hx0
            · simp only [List.mem_singleton] at hx0
              exact Or.inr (Or.inr hx0)
          · rw [if_neg hsa] at hx
            exact hold _ l0 hfind hx

/-- After any sequence of direct registrations (`adjustContainer` /
`adjustWiringAfter`) whose container-adjuster and wiring-adjuster identities are
disjoint, the registry invariant holds. -/
theorem directInvariant_holds (tag : Nat) (ops : List BOp)
    (hdir : ∀ op ∈ ops, op.isDirectRegistration)
    (hdisj : ∀ a ∈ caIds ops, a ∉ waIds ops) :
    directInvariant ops (runOps (Wiring.empty tag) ops) := by
  induction ops using List.reverseRecOn with
  | nil => exact directInvariant_nil tag
  | append_singleton ops op ih =>
    have hdir' : ∀ o ∈ ops, o.isDirectRegistration := fun o ho =>
      hdir o (List.mem_append_left _ ho)
    have hdisj' : ∀ a ∈ caIds ops, a ∉ waIds ops := by
      intro a hca hwa
      refine hdisj a ?_ ?_
      · rw [caIds_append_one]
        exact List.mem_append_left _ hca
      · rw [waIds_append_one]
        exact List.mem_append_left _ hwa
    have hinv := ih hdir' hdisj'
    rw [runOps_append_one]
    cases op with
    | adjContainer t a =>
      by_cases hv : isValidContainerType t
      · have hfresh : a ∉ waIds ops := by
          intro hwa
          refine hdisj a ?_ ?_
          · rw [caIds_append_one]
            refine List.mem_append_right _ ?_
            simp [caIds, hv]
          · rw [waIds_append_one]
            exact List.mem_append_left _ hwa
        have := directInvariant_adjContainer ops _ t a hv hinv hfresh
        simpa [runOp, hv] using this
      · have hstep : runOp (runOps (Wiring.empty tag) ops) (.adjContainer t a) =
            runOps (Wiring.empty tag) ops := by
          simp [runOp, hv]
        rw [hstep]
        refine directInvariant_congr ops _ _ ?_ ?_ ?_ ?_ hinv
        · rw [regCAKeys_append_one]
          simp [regCAKeys, hv]
        · intro k
          rw [inlineOrder_append_one]
          simp [inlineOrder, hv]
        · rw [caIds_append_one]
          simp [caIds, hv]
        · rw [waIds_append_one]
          simp [waIds]
    | adjWiringAfter t b =>
      by_cases hv : isValidContainerType t
      · have hbca : b ∉ caIds ops := by
          intro hca
          refine hdisj b ?_ ?_
          · rw [caIds_append_one]
            exact List.mem_append_left _ hca
          · rw [waIds_append_one]
            refine List.mem_append_right _ ?_
            simp [waIds, hv]
        have := directInvariant_adjWiringAfter ops _ t b hv hinv hbca
        simpa [runOp, hv] using this
      · have hstep : runOp (runOps (Wiring.empty tag) ops) (.adjWiringAfter t b) =
            runOps (Wiring.empty tag) ops := by
          simp [runOp, hv]
        rw [hstep]
        refine directInvariant_congr ops _ _ ?_ ?_ ?_ ?_ hinv
        · rw [regCAKeys_append_one]
          simp [regCAKeys, hv]
        · intro k
          rw [inlineOrder_append_one]
          simp [inlineOrder]
        · rw [caIds_append_one]
          simp [caIds]
        · rw [waIds_append_one]
          simp [waIds, hv]
    | adjBaseWiring a =>
      have := hdir (.adjBaseWiring a) (List.mem_append_right _ (List.mem_singleton_self _))
      simp [BOp.isDirectRegistration] at this
    | addWiring src =>
      have := hdir (.addWiring src) (List.mem_append_right _ (List.mem_singleton_self _))
      simp [BOp.isDirectRegistration] at this

/-! ## Claim C1: the apply order of container adjusters -/

/-- The adjusters a creation applied, projected out of its result. -/
def appliedAdjustersOf (res : Option (Except CreateError CreateResult)) :
    Option AdjList :=
  match res with
  | some (.ok r) => some r.appliedAdjusters
  | _ => none

/-- Spec-level builder operations for stating the inlined registration order of the
ordering guarantee: a direct `adjustContainer` registration, or an import (via
`addWiring`) of a wiring built from another such sequence. -/
inductive SOp where
  | adjContainer (t : Key) (a : Adjuster)
  | importWiring (sOps : List SOp)

mutual

/-- The order obtained by inlining every registration and import top-to-bottom at
registration time: an import contributes the (recursively inlined) registration
sequence of the imported wiring at the import position. -/
def sInline : List SOp → Key → AdjList
  | [], _ => []
  | op :: rest, k => sInlineOp op k ++ sInline rest k

/-- The inlined contribution of one spec-level operation. -/
def sInlineOp : SOp → Key → AdjList
  | .adjContainer t a, k =>
      if isValidContainerType t && (dotted t).isPrefixOf k then [a] else []
  | .importWiring sOps, k => sInline sOps k

end

mutual

/-- The builder operations denoted by a spec-level sequence (an import passes the
wiring built by running the imported sequence on a fresh builder). -/
def sElab : List SOp → List BOp
  | [] => []
  | op :: rest => sElabOp op :: sElab rest

/-- The builder operation denoted by one spec-level operation. -/
def sElabOp : SOp → BOp
  | .adjContainer t a => .adjContainer t a
  | .importWiring sOps =>
      .addWiring ((WiringBuilder.mk (runOps (Wiring.empty 0) (sElab sOps))).build)

end

/-- The source wiring of the counterexample: adjuster 1 on `A`, then 2 on `A.B`, then
3 on `A`. -/
def c1SourceOps : List SOp :=
  [.adjContainer ["A"] 1, .adjContainer ["A", "B"] 2, .adjContainer ["A"] 3]

/-- The destination of the counterexample: adjuster 4 on `A.B.C`, then an import of the
source wiring. -/
def c1DestOps : List SOp :=
  [.adjContainer ["A", "B", "C"] 4, .importWiring c1SourceOps]

/-- **C1, counterexample.**  The claim states that the adjusters applied by
`createContainer(T)` are invoked in the order obtained by inlining every registration
and import top-to-bottom in the order it occurred, deduplicated at first occurrence.
For the concrete sequence `adjustContainer('A.B.C', 4)` followed by an import of a
wiring built by `adjustContainer('A', 1); adjustContainer('A.B', 2);
adjustContainer('A', 3)`, the inlined order for `A.B.C` is `4, 1, 2, 3`, but the code
applies `4, 1, 3, 2`: merging the source entry for `A` (the list `[1, 3]`) into the
destination's unknown descendant `A.B.C` inserts `3` before the source entry for `A.B`
(the list `[1, 2, 3]`) is merged, so `3` overtakes `2`. -/
theorem c1_counterexample_import_reorders :
    appliedAdjustersOf (((runOps (Wiring.empty 0) (sElab c1DestOps)).createContainer
        ⟨fun _ => []⟩ 1 ["A", "B", "C"] []).1) = some [4, 1, 3, 2] ∧
    dedupFirst (sInline c1DestOps (dotted ["A", "B", "C"])) = [4, 1, 2, 3] ∧
    appliedAdjustersOf (((runOps (Wiring.empty 0) (sElab c1DestOps)).createContainer
        ⟨fun _ => []⟩ 1 ["A", "B", "C"] []).1) ≠
      some (dedupFirst (sInline c1DestOps (dotted ["A", "B", "C"]))) := by
  refine ⟨by decide, by decide, by decide⟩

/-- **C1 (amended).**  For every sequence of *direct registrations* — `adjustContainer`
and (non-base) `adjustWiringAfter` builder calls, with no imports and with
container-adjuster identities distinct from wiring-adjuster identities — and every
registered container type `T`, the container adjusters applied by `createContainer(T)`
are exactly the inlined top-to-bottom registration sequence of the `adjustContainer`
calls targeting `T` or an ancestor of `T`, with each identity kept at its first
occurrence, regardless of ancestry depth.  (Imported wiring, and wiring supplied by
resolved wiring adjusters, is merged per source entry and can deviate from the inlined
order, as the counterexample shows.) -/
theorem c1_direct_registration_apply_order (tag : Nat) (ops : List BOp)
    (hdir : ∀ op ∈ ops, op.isDirectRegistration)
    (hdisj : ∀ a ∈ caIds ops, a ∉ waIds ops)
    (T : Key) (hvT : isValidContainerType T) (hreg : dotted T ∈ regCAKeys ops)
    (env : Env) (fuel : Nat) (args : List Nat)
    (p2 : Wiring × List (Adjuster × Bool))
    (hafter : gather env T true fuel (runOps (Wiring.empty tag) ops) = some p2) :
    appliedAdjustersOf
        (((runOps (Wiring.empty tag) ops).createContainer env fuel T args).1) =
      some (dedupFirst (inlineOrder ops (dotted T))) := by
  obtain ⟨hI1, hI2, hI3, hI4, hI5, hI6⟩ := directInvariant_holds tag ops hdir hdisj
  obtain ⟨l, hl⟩ : ∃ l,
      (runOps (Wiring.empty tag) ops).containerAdjusters.find? (dotted T) = some l := by
    cases hfind : (runOps (Wiring.empty tag) ops).containerAdjusters.find? (dotted T) with
    | none => exact absurd ((hI1 (dotted T)).mp hfind) (by simpa using hreg)
    | some l => exact ⟨l, rfl⟩
  have hgbase : gather env rootKey false fuel (runOps (Wiring.empty tag) ops) =
      some ((runOps (Wiring.empty tag) ops), []) := by
    unfold gather
    rw [hI5]
  have hflat : getFlattenedContainerAdjusters (runOps (Wiring.empty tag) ops).supplied
      fuel (runOps (Wiring.empty tag) ops).containerAdjusters (dotted T) =
      some (l.filter fun a =>
        ((runOps (Wiring.empty tag) ops).supplied.get a).isNone) := by
    unfold getFlattenedContainerAdjusters
    rw [hl]
    exact flattenGo_allNone _ fuel _ l hI4
  simp only [Wiring.createContainer, if_pos hvT, Wiring.clone_eq]
  unfold createContainerCore
  rw [hgbase]
  simp only [hl, hflat, hafter]
  simp only [appliedAdjustersOf]
  exact congrArg some (hI2 _ l hl)

/-- The concrete registration sequence of the witness: adjuster 1 on `A`, wiring
adjuster 9 after `A`, adjuster 2 on `A.B`. -/
def c1WitnessOps : List BOp :=
  [.adjContainer ["A"] 1, .adjWiringAfter ["A"] 9, .adjContainer ["A", "B"] 2]

theorem c1_direct_registration_apply_order_witness :
    (∀ op ∈ c1WitnessOps, op.isDirectRegistration) ∧
    (∀ a ∈ caIds c1WitnessOps, a ∉ waIds c1WitnessOps) ∧
    isValidContainerType ["A", "B"] = true ∧
    dotted ["A", "B"] ∈ regCAKeys c1WitnessOps ∧
    appliedAdjustersOf (((runOps (Wiring.empty 0) c1WitnessOps).createContainer
        ⟨fun _ => []⟩ 3 ["A", "B"] []).1) =
      some (dedupFirst (inlineOrder c1WitnessOps (dotted ["A", "B"]))) :=
  ⟨by decide, by decide, by decide, by decide,
    c1_direct_registration_apply_order 0 c1WitnessOps (by decide) (by decide)
      ["A", "B"] (by decide) (by decide) ⟨fun _ => []⟩ 3 [] _ rfl⟩


/-! ## Merge lemmas: `_addAdjusters` and `_addSuppliedWiring` -/

theorem Coll.find?_mem (c : Coll) (k : Key) (l : AdjList) (h : c.find? k = some l) :
    (k, l) ∈ c := by
  induction c with
  | nil => cases h
  | cons e rest ih =>
    cases e with
    | mk k1 l1 =>
      simp only [Coll.find?] at h
      split at h
      next heq =>
        injection h with h
        subst heq
        subst h
        exact List.mem_cons_self _ _
      next heq => exact List.mem_cons_of_mem _ (ih h)

theorem Coll.find?_isSome_of_mem_keys (c : Coll) (k : Key) (h : k ∈ c.keys) :
    (c.find? k).isSome := by
  induction c with
  | nil => cases h
  | cons e rest ih =>
    cases e with
    | mk k1 l1 =>
      simp only [Coll.keys, List.map_cons, List.mem_cons] at h
      simp only [Coll.find?]
      split
      next => rfl
      next hne =>
        rcases h with h | h
        · exact absurd h.symm hne
        · exact ih h

/-- One merge step only appends to existing lists. -/
theorem addAdjustersEntry_extends (c src : Coll) (e : Key × AdjList) (k : Key)
    (l0 : AdjList) (h : c.find? k = some l0) :
    ∃ l, (addAdjustersEntry c src e).find? k = some l ∧ l0 <+: l := by
  unfold addAdjustersEntry
  rw [pushAdjustersIntoUnknownDescendants_find?]
  by_cases hk : k = e.1
  · subst hk
    rw [Coll.find?_set_self, ensureContainerTypeExists_find?_self, h]
    simp only [Option.getD_some, Option.map_some']
    refine ⟨_, rfl, ?_⟩
    split
    · exact (List.prefix_append l0 e.2).trans (List.prefix_append _ _)
    · exact List.prefix_append l0 e.2
  · rw [Coll.find?_set_ne _ _ _ _ hk, ensureContainerTypeExists_find?_ne _ _ _ hk, h]
    simp only [Option.map_some']
    refine ⟨_, rfl, ?_⟩
    split
    · exact List.prefix_append l0 e.2
    · exact List.prefix_refl l0

/-- One merge step makes its own entry key known. -/
theorem addAdjustersEntry_self_isSome (c src : Coll) (e : Key × AdjList) :
    ((addAdjustersEntry c src e).find? e.1).isSome := by
  unfold addAdjustersEntry
  rw [pushAdjustersIntoUnknownDescendants_find?, Coll.find?_set_self]
  rfl

/-- One merge step appends its own entry content to the entry key's list. -/
theorem addAdjustersEntry_self_mem (c src : Coll) (e : Key × AdjList) (f : Adjuster)
    (hf : f ∈ e.2) :
    ∃ l, (addAdjustersEntry c src e).find? e.1 = some l ∧ f ∈ l := by
  unfold addAdjustersEntry
  rw [pushAdjustersIntoUnknownDescendants_find?, Coll.find?_set_self]
  simp only [Option.map_some']
  refine ⟨_, rfl, ?_⟩
  have hmem : f ∈ pushAdjusters
      ((ensureContainerTypeExists c e.1).find? e.1 |>.getD []) e.2 :=
    List.mem_append_right _ hf
  split
  · exact List.mem_append_left _ hmem
  · exact hmem

theorem addAdjustersFold_extends (src0 : Coll) (entries : List (Key × AdjList)) :
    ∀ (c : Coll) (k : Key) (l0 : AdjList), c.find? k = some l0 →
    ∃ l, (entries.foldl (fun c e => addAdjustersEntry c src0 e) c).find? k = some l ∧
      l0 <+: l := by
  induction entries with
  | nil =>
    intro c k l0 h
    exact ⟨l0, h, List.prefix_refl l0⟩
  | cons e rest ih =>
    intro c k l0 h
    obtain ⟨l1, h1, hp1⟩ := addAdjustersEntry_extends c src0 e k l0 h
    obtain ⟨l2, h2, hp2⟩ := ih (addAdjustersEntry c src0 e) k l1 h1
    exact ⟨l2, h2, hp1.trans hp2⟩

theorem addAdjustersFold_isSome (src0 : Coll) (entries : List (Key × AdjList)) :
    ∀ (c : Coll) (k : Key), (c.find? k).isSome →
    ((entries.foldl (fun c e => addAdjustersEntry c src0 e) c).find? k).isSome := by
  intro c k h
  cases hf : c.find? k with
  | none => rw [hf] at h; cases h
  | some l0 =>
    obtain ⟨l, hl, _⟩ := addAdjustersFold_extends src0 entries c k l0 hf
    rw [hl]
    rfl

theorem addAdjustersFold_key_isSome (src0 : Coll) (entries : List (Key × AdjList)) :
    ∀ (c : Coll) (e : Key × AdjList), e ∈ entries →
    ((entries.foldl (fun c e => addAdjustersEntry c src0 e) c).find? e.1).isSome := by
  induction entries with
  | nil =>
    intro c e h
    cases h
  | cons e0 rest ih =>
    intro c e h
    rcases List.mem_cons.mp h with h | h
    · subst h
      simp only [List.foldl_cons]
      exact addAdjustersFold_isSome src0 rest _ _ (addAdjustersEntry_self_isSome c src0 e)
    · exact ih _ e h

theorem addAdjustersFold_mem (src0 : Coll) (entries : List (Key × AdjList)) :
    ∀ (c : Coll) (e : Key × AdjList) (f : Adjuster), e ∈ entries → f ∈ e.2 →
    ∃ l, ((entries.foldl (fun c e => addAdjustersEntry c src0 e) c).find? e.1) = some l ∧
      f ∈ l := by
  induction entries with
  | nil =>
    intro c e f h _
    cases h
  | cons e0 rest ih =>
    intro c e f h hf
    rcases List.mem_cons.mp h with h | h
    · subst h
      simp only [List.foldl_cons]
      obtain ⟨l1, h1, hm1⟩ := addAdjustersEntry_self_mem c src0 e f hf
      obtain ⟨l2, h2, hp2⟩ := addAdjustersFold_extends src0 rest _ _ l1 h1
      exact ⟨l2, h2, hp2.subset hm1⟩
    · exact ih _ e f h hf

/-- `_addAdjusters` only appends to existing lists. -/
theorem addAdjusters_extends (c src : Coll) (k : Key) (l0 : AdjList)
    (h : c.find? k = some l0) :
    ∃ l, (addAdjusters c src).find? k = some l ∧ l0 <+: l :=
  addAdjustersFold_extends src src c k l0 h

/-- `_addAdjusters` makes every source key known in the destination. -/
theorem addAdjusters_key_isSome (c src : Coll) (k : Key) (h : (src.find? k).isSome) :
    ((addAdjusters c src).find? k).isSome := by
  cases hf : src.find? k with
  | none => rw [hf] at h; cases h
  | some ls =>
    exact addAdjustersFold_key_isSome src src c (k, ls) (Coll.find?_mem src k ls hf)

/-- `_addAdjusters` copies every stored source adjuster into the destination's list for
the same container type. -/
theorem addAdjusters_mem (c src : Coll) (k : Key) (ls : AdjList)
    (h : src.find? k = some ls) (f : Adjuster) (hf : f ∈ ls) :
    ∃ l, (addAdjusters c src).find? k = some l ∧ f ∈ l :=
  addAdjustersFold_mem src src c (k, ls) f (Coll.find?_mem src k ls h) hf

/-- An entry already present in the destination is never overwritten. -/
theorem addSuppliedWiring_get_of_some (s : SuppliedMap) :
    ∀ (d : SuppliedMap) (a : Adjuster) (v : Option Wiring), d.get a = some v →
    (addSuppliedWiring d s).get a = some v := by
  induction s with
  | nil =>
    intro d a v h
    exact h
  | cons e rest ih =>
    intro d a v h
    cases e with
    | mk k v' =>
      simp only [addSuppliedWiring, List.foldl_cons]
      have hstep : (if d.has k then d else d.set k v').get a = some v := by
        by_cases hh : d.has k
        · rw [if_pos hh]
          exact h
        · rw [if_neg hh]
          by_cases hka : a = k
          · subst hka
            unfold SuppliedMap.has at hh
            rw [h] at hh
            simp at hh
          · rw [SuppliedMap.get_set_ne d k a v' hka]
            exact h
      exact ih _ a v hstep

/-- An entry absent from the destination is looked up in the source. -/
theorem addSuppliedWiring_get_of_none (s : SuppliedMap) :
    ∀ (d : SuppliedMap) (a : Adjuster), d.get a = none →
    (addSuppliedWiring d s).get a = s.get a := by
  induction s with
  | nil =>
    intro d a h
    exact h
  | cons e rest ih =>
    intro d a h
    cases e with
    | mk k v' =>
      simp only [addSuppliedWiring, List.foldl_cons, SuppliedMap.get]
      by_cases hka : k = a
      · subst hka
        have hh : ¬ d.has k := by
          unfold SuppliedMap.has
          rw [h]
          simp
        rw [if_neg hh, if_pos rfl]
        exact addSuppliedWiring_get_of_some rest _ k v' (SuppliedMap.get_set_self d k v')
      · rw [if_neg hka]
        have hstep : (if d.has k then d else d.set k v').get a = none := by
          by_cases hh : d.has k
          · rw [if_pos hh]
            exact h
          · rw [if_neg hh, SuppliedMap.get_set_ne d k a v' (Ne.symm hka)]
            exact h
        exact ih _ a hstep

/-- `_addSuppliedWiring` reads as: existing destination entries win, otherwise the
source entry is copied. -/
theorem addSuppliedWiring_get (d s : SuppliedMap) (a : Adjuster) :
    (addSuppliedWiring d s).get a =
      if (d.get a).isSome then d.get a else s.get a := by
  cases hd : d.get a with
  | some v =>
    rw [if_pos (by simp [hd])]
    exact addSuppliedWiring_get_of_some s d a v hd
  | none =>
    rw [if_neg (by simp [hd])]
    exact addSuppliedWiring_get_of_none s d a hd

/-- The effect of one source entry of `_addAdjusters` on any lookup: the entry's
adjusters are appended to the destination entry for the source key (seeded from its
nearest ancestor if newly introduced) and to every already-known strict descendant
that is unknown to the source collection; every other list is unchanged. -/
theorem addAdjustersEntry_find? (c src : Coll) (e : Key × AdjList) (k : Key) :
    (addAdjustersEntry c src e).find? k =
      ((ensureContainerTypeExists c e.1).find? k).map
        (fun l => if k = e.1 then l ++ e.2
          else if isStrictAncestor e.1 k && (src.find? k).isNone then l ++ e.2
          else l) := by
  unfold addAdjustersEntry
  rw [pushAdjustersIntoUnknownDescendants_find?]
  by_cases hk : k = e.1
  · subst hk
    rw [Coll.find?_set_self, ensureContainerTypeExists_find?_self]
    simp [isStrictAncestor_self, pushAdjusters]
  · rw [Coll.find?_set_ne _ _ _ _ hk]
    cases (ensureContainerTypeExists c e.1).find? k with
    | none => rfl
    | some l =>
      simp only [Option.map_some']
      by_cases hcond : (isStrictAncestor e.1 k && (src.find? k).isNone : Bool) = true
      · simp [hcond, hk]
      · simp only [Bool.not_eq_true] at hcond
        simp [hcond, hk]

/-! ## Claim C7: importing a wiring -/

/-- The wiring used on both sides of the C7 counterexample: one adjuster `5` for
type `A`. -/
def c7Dup : Wiring := runOps (Wiring.empty 0) [.adjContainer ["A"] 5]

/-- **C7, counterexample.**  The claim states that importing skips duplicate
identities per list.  Importing a wiring holding adjuster `5` for type `A` into a
destination already holding the same adjuster for the same type stores `[5, 5]`
(`_pushAdjusters` appends unconditionally); the duplicate is not skipped at merge
time — only the apply loop deduplicates. -/
theorem c7_counterexample_duplicates_kept :
    (c7Dup.addWiring c7Dup).containerAdjusters.find? (dotted ["A"]) = some [5, 5] ∧
    (c7Dup.addWiring c7Dup).containerAdjusters.find? (dotted ["A"]) ≠ some [5] := by
  exact ⟨by decide, by decide⟩

/-- A source wiring whose stored lists are `.A = [1,3]` and `.A.B = [1,2,3]`, used to
exhibit mid-merge seeding: imported into an empty destination the `.A` entry is
processed first, so `.A.B` is seeded from the destination's mid-merge `.A` list
`[1,3]` and ends up `[1,3,1,2,3]` (apply order `[1,3,2]`), not `[1,2,3]`. -/
def c7Src : Wiring := runOps (Wiring.empty 0)
  [.adjContainer ["A"] 1, .adjContainer ["A","B"] 2, .adjContainer ["A"] 3]

/-- **C7 (amended).**  `_addWiring` merges into the destination only; the source
value is never modified and gains nothing.  It routes both adjuster collections
through `_addAdjusters` and the supplied map through `_addSuppliedWiring`;
`_addAdjusters` processes the source's entries one at a time in source insertion
order, and for each entry it interleaves ensure-and-append: the destination first
ensures the entry's type is known — a type newly introduced at that moment is seeded
from its nearest known ancestor's *current mid-merge* destination list — then the
source list is appended entry-wise to the destination list (duplicate identities are
kept; deduplication happens only at application time) and to every already-known
strict destination descendant unknown to the source.  Hence every type known to the
source becomes known to the destination, every stored source adjuster is copied into
the destination list of its type, existing destination lists are only appended to,
and the supplied-wiring map keeps destination entries and adopts source entries only
for adjusters the destination does not know. -/
theorem c7_addWiring_merges_into_destination (w src : Wiring) :
    ((w.addWiring src).containerAdjusters
        = addAdjusters w.containerAdjusters src.containerAdjusters ∧
      (w.addWiring src).wiringAdjusters
        = addAdjusters w.wiringAdjusters src.wiringAdjusters ∧
      (w.addWiring src).supplied = addSuppliedWiring w.supplied src.supplied) ∧
    (∀ (c s : Coll), addAdjusters c s
        = s.foldl (fun c e => addAdjustersEntry c s e) c) ∧
    (∀ (c s : Coll) (e : Key × AdjList) (k : Key),
      (addAdjustersEntry c s e).find? k =
        ((ensureContainerTypeExists c e.1).find? k).map
          (fun l => if k = e.1 then l ++ e.2
            else if isStrictAncestor e.1 k && (s.find? k).isNone then l ++ e.2
            else l)) ∧
    (∀ (c : Coll) (t : Key), c.find? t = none →
      (ensureContainerTypeExists c t).find? t = some (getAncestorAdjusters c t)) ∧
    (∀ k, (src.containerAdjusters.find? k).isSome →
      ((w.addWiring src).containerAdjusters.find? k).isSome) ∧
    (∀ k, (src.wiringAdjusters.find? k).isSome →
      ((w.addWiring src).wiringAdjusters.find? k).isSome) ∧
    (∀ k ls, src.containerAdjusters.find? k = some ls → ∀ f ∈ ls,
      ∃ l, (w.addWiring src).containerAdjusters.find? k = some l ∧ f ∈ l) ∧
    (∀ k ls, src.wiringAdjusters.find? k = some ls → ∀ f ∈ ls,
      ∃ l, (w.addWiring src).wiringAdjusters.find? k = some l ∧ f ∈ l) ∧
    (∀ k l0, w.containerAdjusters.find? k = some l0 →
      ∃ l, (w.addWiring src).containerAdjusters.find? k = some l ∧ l0 <+: l) ∧
    (∀ k l0, w.wiringAdjusters.find? k = some l0 →
      ∃ l, (w.addWiring src).wiringAdjusters.find? k = some l ∧ l0 <+: l) ∧
    (∀ a, (w.addWiring src).supplied.get a =
      if (w.supplied.get a).isSome then w.supplied.get a else src.supplied.get a) := by
  refine ⟨⟨rfl, rfl, rfl⟩, fun c s => rfl, addAdjustersEntry_find?, ?_,
    ?_, ?_, ?_, ?_, ?_, ?_, ?_⟩
  · intro c t h
    rw [ensureContainerTypeExists_find?_self, h]
    rfl
  · intro k h
    exact addAdjusters_key_isSome w.containerAdjusters src.containerAdjusters k h
  · intro k h
    exact addAdjusters_key_isSome w.wiringAdjusters src.wiringAdjusters k h
  · intro k ls h f hf
    exact addAdjusters_mem w.containerAdjusters src.containerAdjusters k ls h f hf
  · intro k ls h f hf
    exact addAdjusters_mem w.wiringAdjusters src.wiringAdjusters k ls h f hf
  · intro k l0 h
    exact addAdjusters_extends w.containerAdjusters src.containerAdjusters k l0 h
  · intro k l0 h
    exact addAdjusters_extends w.wiringAdjusters src.wiringAdjusters k l0 h
  · intro a
    exact addSuppliedWiring_get w.supplied src.supplied a

theorem c7_addWiring_merges_into_destination_witness :
    c7Src.containerAdjusters = [(dotted ["A"], [1, 3]), (dotted ["A", "B"], [1, 2, 3])] ∧
    ((Wiring.empty 0).addWiring c7Src).containerAdjusters.find? (dotted ["A", "B"])
      = some [1, 3, 1, 2, 3] ∧
    dedupFirst [1, 3, 1, 2, 3] = [1, 3, 2] ∧
    ((c7Dup.addWiring c7Dup).containerAdjusters.find? (dotted ["A"])).isSome ∧
    c7Dup.containerAdjusters.find? (dotted ["A"]) = some [5] ∧
    (∃ l, (c7Dup.addWiring c7Dup).containerAdjusters.find? (dotted ["A"]) = some l ∧
      (5 : Adjuster) ∈ l) := by
  refine ⟨by decide, by decide, by decide, ?_, by decide, ?_⟩
  · exact (c7_addWiring_merges_into_destination c7Dup c7Dup).2.2.2.2.1 (dotted ["A"]) (by decide)
  · exact (c7_addWiring_merges_into_destination c7Dup c7Dup).2.2.2.2.2.2.1 (dotted ["A"]) [5] (by decide) 5 (by decide)

/-! ## Claim C6: the not-found error -/

/-- Whether a creation attempt rejected with the not-found (`RangeError`) error. -/
def isUnknownTypeError (res : Option (Except CreateError CreateResult)) : Bool :=
  match res with
  | some (.error .unknownType) => true
  | _ => false

/-- Same projection for factory creation. -/
def isUnknownTypeFactoryError (res : Option (Except CreateError ContainerFactory)) :
    Bool :=
  match res with
  | some (.error .unknownType) => true
  | _ => false

/-- **C6, counterexample.**  The claim states that when some type `U` has been
registered and `T` is an ancestor of `U`, `createContainer(T)` does not raise
not-found.  But after registering only `A.B`, creating its ancestor `A` rejects with
the not-found error (`_createContainer` requires the exact key `.A`, which only a
registration *targeting* `A` would create); creating a descendant `A.B.C` rejects
likewise. -/
theorem c6_counterexample_ancestor_not_found :
    (["A"] : Key) <+: ["A", "B"] ∧
    isUnknownTypeError
      (((runOps (Wiring.empty 0) [.adjContainer ["A", "B"] 1]).createContainer
        ⟨fun _ => []⟩ 1 ["A"] []).1) = true ∧
    isUnknownTypeError
      (((runOps (Wiring.empty 0) [.adjContainer ["A", "B"] 1]).createContainer
        ⟨fun _ => []⟩ 1 ["A", "B", "C"] []).1) = true := by
  exact ⟨⟨["B"], rfl⟩, by decide, by decide⟩

/-- A base wiring adjuster (identity 7) supplying a container adjuster (identity 1)
for type `T`: the type becomes creatable although it was never registered directly. -/
def c6Env : Env :=
  ⟨fun a => if a = 7 then [runOps (Wiring.empty 0) [.adjContainer ["T"] 1]] else []⟩

/-- **C6 (amended).**  For a valid type string `T`, `createContainer(T)` and
`createContainerFactory(T)` reject with the not-found error exactly when, after the
pending root-scope (base) wiring adjusters have been expanded on the call's private
clone, the container-adjuster collection still has no entry for `T` itself.  The
entry can come from a registration targeting `T`, from merged imported or supplied
wiring, or from `_ensureContainerTypeExists` syncing — never merely from `T` being an
ancestor or descendant of a registered type. -/
theorem c6_not_found_iff_key_absent (env : Env) (fuel : Nat) (w : Wiring) (T : Key)
    (args : List Nat) (fargs : List Nat) (hvT : isValidContainerType T)
    (w1 : Wiring) (blog : List (Adjuster × Bool))
    (hg : gather env rootKey false fuel w.clone = some (w1, blog)) :
    (isUnknownTypeError ((w.createContainer env fuel T args).1) = true ↔
      w1.containerAdjusters.find? (dotted T) = none) ∧
    (isUnknownTypeFactoryError ((w.createContainerFactory env fuel T fargs).1) = true ↔
      w1.containerAdjusters.find? (dotted T) = none) := by
  constructor
  · rw [Wiring.createContainer, if_pos hvT]
    unfold createContainerCore
    simp only [hg]
    cases hfind : w1.containerAdjusters.find? (dotted T) with
    | none => simp [isUnknownTypeError]
    | some l =>
      simp only [isUnknownTypeError]
      cases hflat : getFlattenedContainerAdjusters w1.supplied fuel
          w1.containerAdjusters (dotted T) with
      | none => simp
      | some raw =>
        cases hafter : gather env T true fuel w1 with
        | none => simp
        | some p => simp
  · rw [Wiring.createContainerFactory, if_pos hvT]
    unfold createContainerFactoryCore
    simp only [hg]
    cases hfind : w1.containerAdjusters.find? (dotted T) with
    | none => simp [isUnknownTypeFactoryError]
    | some l => simp [isUnknownTypeFactoryError]

/-- The concrete outcome of base expansion on a wiring holding the single base wiring
adjuster 7, under `c6Env`. -/
def c6Base : Wiring × List (Adjuster × Bool) :=
  (gather c6Env rootKey false 2 (runOps (Wiring.empty 0) [.adjBaseWiring 7]).clone).getD
    (Wiring.empty 0, [])

theorem c6_not_found_iff_key_absent_witness :
    isValidContainerType ["T"] = true ∧
    ((isUnknownTypeError
        (((runOps (Wiring.empty 0) [.adjBaseWiring 7]).createContainer
          c6Env 2 ["T"] []).1) = true ↔
      c6Base.1.containerAdjusters.find? (dotted ["T"]) = none) ∧
     (isUnknownTypeFactoryError
        (((runOps (Wiring.empty 0) [.adjBaseWiring 7]).createContainerFactory
          c6Env 2 ["T"] []).1) = true ↔
      c6Base.1.containerAdjusters.find? (dotted ["T"]) = none)) :=
  ⟨by decide, c6_not_found_iff_key_absent c6Env 2
    (runOps (Wiring.empty 0) [.adjBaseWiring 7]) ["T"] [] [] (by decide)
    c6Base.1 c6Base.2 rfl⟩


/-! ## Claim C2: at-most-once application -/

/-- A true container adjuster (one with no entry in the supplied-wiring map) present
in the stored list survives flattening: it is a member of the flattened output. -/
theorem flattenGo_mem_of_direct (supplied : SuppliedMap) (fuel : Nat) (key : Key)
    (l : AdjList) (f : Adjuster) (out : AdjList) (hf : supplied.get f = none)
    (hmem : f ∈ l) (h : flattenGo supplied fuel key l = some out) : f ∈ out := by
  induction l generalizing out with
  | nil => cases hmem
  | cons a rest ih =>
    rw [flattenGo_cons] at h
    rcases List.mem_cons.mp hmem with heq | hrest
    · subst heq
      simp only [hf] at h
      rcases Option.map_eq_some'.mp h with ⟨out2, _, hout⟩
      subst hout
      exact List.mem_cons_self _ _
    · cases hga : supplied.get a with
      | none =>
        simp only [hga] at h
        rcases Option.map_eq_some'.mp h with ⟨out2, hrec, hout⟩
        subst hout
        exact List.mem_cons_of_mem _ (ih out2 hrest hrec)
      | some osw =>
        cases osw with
        | none => simp only [hga] at h; exact ih out hrest h
        | some sw =>
          simp only [hga] at h
          cases hfind : sw.containerAdjusters.find? key with
          | none => simp only [hfind] at h; exact ih out hrest h
          | some l2 =>
            simp only [hfind] at h
            cases fuel with
            | zero => simp at h
            | succ fl =>
              cases hinner : flattenGo supplied fl key l2 with
              | none => simp only [hinner] at h; simp at h
              | some inner =>
                simp only [hinner, Option.bind_eq_bind, Option.some_bind] at h
                cases htail : flattenGo supplied (fl + 1) key rest with
                | none => simp only [htail] at h; simp at h
                | some tail =>
                  simp only [htail, Option.some_bind] at h
                  cases h
                  exact List.mem_append_right _ (ih tail hrest htail)

/-- **C2.**  On a successful `createContainer(T)` call: the list of adjusters the
apply loop invokes has no duplicate identity (each adjuster function runs at most once
on the created container, however many times it was registered); the container records
exactly one application event per invoked identity; and every adjuster stored for the
created type that is a true container adjuster — not an unresolved wiring-adjuster
placeholder — is invoked exactly once.  Membership in the invoked list coincides with
membership in the flattened (placeholder-expanded) list. -/
theorem c2_adjuster_applied_once (env : Env) (fuel : Nat) (w : Wiring) (T : Key) (args : List Nat)
    (res : CreateResult)
    (hok : (w.createContainer env fuel T args).1 = some (.ok res)) :
    res.appliedAdjusters.Nodup ∧
    (∀ f : Adjuster,
      res.container.events.count (CEvent.applied f args) = res.appliedAdjusters.count f) ∧
    (∀ f : Adjuster, res.appliedAdjusters.count f ≤ 1) ∧
    (∀ (w1 : Wiring) (blog : List (Adjuster × Bool)) (raw : AdjList),
      gather env rootKey false fuel w.clone = some (w1, blog) →
      getFlattenedContainerAdjusters w1.supplied fuel w1.containerAdjusters (dotted T)
        = some raw →
      ((∀ f, f ∈ res.appliedAdjusters ↔ f ∈ raw) ∧
       ∀ l, w1.containerAdjusters.find? (dotted T) = some l →
         ∀ f ∈ l, w1.supplied.get f = none → res.appliedAdjusters.count f = 1)) := by
  by_cases hv : isValidContainerType T
  · rw [Wiring.createContainer, if_pos hv] at hok
    unfold createContainerCore at hok
    cases hg0 : gather env rootKey false fuel w.clone with
    | none => simp only [hg0] at hok; cases hok
    | some p =>
      obtain ⟨w1, blog⟩ := p
      simp only [hg0] at hok
      cases hfind : w1.containerAdjusters.find? (dotted T) with
      | none => simp only [hfind] at hok; cases hok
      | some l0 =>
        simp only [hfind] at hok
        cases hflat : getFlattenedContainerAdjusters w1.supplied fuel
            w1.containerAdjusters (dotted T) with
        | none => simp only [hflat] at hok; cases hok
        | some raw0 =>
          simp only [hflat] at hok
          cases hafter : gather env T true fuel w1 with
          | none => simp only [hafter] at hok; cases hok
          | some p2 =>
            obtain ⟨w2, alog⟩ := p2
            simp only [hafter, Option.some.injEq, Except.ok.injEq] at hok
            subst hok
            refine ⟨nodup_dedupFirst raw0, ?_, ?_, ?_⟩
            · intro f
              simp only
              rw [List.count_cons_of_ne (by simp)]
              exact List.count_map_of_injective (dedupFirst raw0)
                (fun a => CEvent.applied a args) (fun a b hab => by simpa using hab) f
            · intro f
              exact List.nodup_iff_count_le_one.mp (nodup_dedupFirst raw0) f
            · intro w1b blogb rawb hg0b hflatb
              injection hg0b with hp
              cases hp
              rw [hflat] at hflatb
              injection hflatb with hraw
              subst hraw
              refine ⟨fun f => mem_dedupFirst _ f, ?_⟩
              intro l hl f hfl hfnone
              rw [hfind] at hl
              injection hl with hl
              subst hl
              have hfraw : f ∈ raw0 := by
                apply flattenGo_mem_of_direct w1.supplied fuel (dotted T) _ f _ hfnone
                  hfl
                have hgd : (w1.containerAdjusters.find? (dotted T)).getD [] = l0 := by
                  rw [hfind]; rfl
                rw [getFlattenedContainerAdjusters, hgd] at hflat
                exact hflat
              exact List.count_eq_one_of_mem (nodup_dedupFirst raw0)
                ((mem_dedupFirst raw0 f).mpr hfraw)
  · rw [Wiring.createContainer, if_neg hv] at hok
    simp at hok

def c2Res : CreateResult :=
  match ((runOps (Wiring.empty 0) [.adjContainer ["A"] 1, .adjContainer ["A"] 1]
      ).createContainer ⟨fun _ => []⟩ 1 ["A"] []).1 with
  | some (.ok r) => r
  | _ => ⟨⟨[], Wiring.empty 0⟩, [], [], []⟩

theorem c2_adjuster_applied_once_witness :
    ((runOps (Wiring.empty 0) [.adjContainer ["A"] 1, .adjContainer ["A"] 1]
      ).createContainer ⟨fun _ => []⟩ 1 ["A"] []).1 = some (.ok c2Res) ∧
    (c2Res.appliedAdjusters.Nodup ∧
     (∀ f : Adjuster,
       c2Res.container.events.count (CEvent.applied f []) =
         c2Res.appliedAdjusters.count f) ∧
     (∀ f : Adjuster, c2Res.appliedAdjusters.count f ≤ 1) ∧
     (∀ (w1 : Wiring) (blog : List (Adjuster × Bool)) (raw : AdjList),
       gather ⟨fun _ => []⟩ rootKey false 1 (runOps (Wiring.empty 0)
         [.adjContainer ["A"] 1, .adjContainer ["A"] 1]).clone = some (w1, blog) →
       getFlattenedContainerAdjusters w1.supplied 1 w1.containerAdjusters
         (dotted ["A"]) = some raw →
       ((∀ f, f ∈ c2Res.appliedAdjusters ↔ f ∈ raw) ∧
        ∀ l, w1.containerAdjusters.find? (dotted ["A"]) = some l →
          ∀ f ∈ l, w1.supplied.get f = none →
            c2Res.appliedAdjusters.count f = 1))) :=
  ⟨rfl, c2_adjuster_applied_once ⟨fun _ => []⟩ 1
    (runOps (Wiring.empty 0) [.adjContainer ["A"] 1, .adjContainer ["A"] 1])
    ["A"] [] c2Res rfl⟩

/-! ## Claim C3: ancestor seeding and retroactive extension -/

theorem getAncestorAdjusters_nearest (coll : Coll) (key : Key) :
    (∃ m, 1 ≤ m ∧ m + 1 ≤ key.length ∧
      coll.find? (key.take m) = some (getAncestorAdjusters coll key) ∧
      ∀ n, m < n → n + 1 ≤ key.length → coll.find? (key.take n) = none) ∨
    ((∀ n, 1 ≤ n → n + 1 ≤ key.length → coll.find? (key.take n) = none) ∧
      getAncestorAdjusters coll key = []) := by
  by_cases hlen : key.length ≤ 1
  · right
    refine ⟨fun n h1 h2 => absurd (by omega : key.length ≥ 2) (by omega), ?_⟩
    rw [getAncestorAdjusters_unfold, if_pos hlen]
  · cases hd : coll.find? key.dropLast with
    | some l =>
      have hG : getAncestorAdjusters coll key = l := by
        rw [getAncestorAdjusters_unfold, if_neg hlen, hd]
      left
      refine ⟨key.length - 1, by omega, by omega, ?_, ?_⟩
      · rw [← List.dropLast_eq_take, hG]
        exact hd
      · intro n hn hn'
        omega
    | none =>
      have hG : getAncestorAdjusters coll key = getAncestorAdjusters coll key.dropLast := by
        rw [getAncestorAdjusters_unfold, if_neg hlen, hd]
      rcases getAncestorAdjusters_nearest coll key.dropLast with
        ⟨m, h1, h2, hfind, hnone⟩ | ⟨hall, hnil⟩
      · left
        rw [List.length_dropLast] at h2
        refine ⟨m, h1, by omega, ?_, ?_⟩
        · rw [hG]
          rw [show key.dropLast.take m = key.take m from by
            rw [List.dropLast_eq_take, List.take_take, Nat.min_eq_left (by omega)]]
            at hfind
          exact hfind
        · intro n hn hn'
          by_cases hcase : n + 1 ≤ key.length - 1
          · have := hnone n hn (by rw [List.length_dropLast]; omega)
            rwa [List.dropLast_eq_take, List.take_take,
              Nat.min_eq_left (by omega)] at this
          · have hn2 : n = key.length - 1 := by omega
            rw [hn2, ← List.dropLast_eq_take]
            exact hd
      · right
        constructor
        · intro n h1 h2
          by_cases hcase : n + 1 ≤ key.length - 1
          · have := hall n h1 (by rw [List.length_dropLast]; omega)
            rwa [List.dropLast_eq_take, List.take_take,
              Nat.min_eq_left (by omega)] at this
          · have hn2 : n = key.length - 1 := by omega
            rw [hn2, ← List.dropLast_eq_take]
            exact hd
        · rw [hG]
          exact hnil
termination_by key.length
decreasing_by
  simp only [List.length_dropLast]
  omega

/-- Every key in the collection has at least one segment (reachable collections are
keyed by dot-prepended container types, the root key, or scope type strings). -/
def keyLenWF (coll : Coll) : Prop :=
  ∀ k : Key, (coll.find? k).isSome → 1 ≤ k.length

/-- Ancestor-inclusiveness by membership: every adjuster stored for a known type is
also stored for every known strict descendant of that type. -/
def ancestorMemClosed (coll : Coll) : Prop :=
  ∀ j lj k lk, coll.find? j = some lj → coll.find? k = some lk →
    isStrictAncestor j k = true → ∀ x ∈ lj, x ∈ lk

theorem isStrictAncestor_trans (a b c : Key) (hab : isStrictAncestor a b = true)
    (hbc : isStrictAncestor b c = true) : isStrictAncestor a c = true := by
  rw [isStrictAncestor_iff] at hab hbc ⊢
  refine ⟨hab.1.trans hbc.1, ?_⟩
  intro hac
  subst hac
  have h1 := hab.1.length_le
  have h2 := hbc.1.length_le
  exact hab.2 (hab.1.eq_of_length (by omega))

theorem isStrictAncestor_length_lt (a b : Key) (h : isStrictAncestor a b = true) :
    a.length < b.length := by
  rw [isStrictAncestor_iff] at h
  rcases Nat.lt_or_ge a.length b.length with h' | h'
  · exact h'
  · exact absurd (h.1.eq_of_length (le_antisymm h.1.length_le h')) h.2

/-- First reference of a key of positive length preserves well-formedness and
ancestor-inclusiveness: the seed copied from the nearest known ancestor contains every
known ancestor's adjusters, and is contained in every known descendant's list. -/
theorem ensureContainerTypeExists_inv (coll : Coll) (key : Key)
    (hwf : keyLenWF coll) (hmc : ancestorMemClosed coll) (hk : 1 ≤ key.length) :
    keyLenWF (ensureContainerTypeExists coll key) ∧
    ancestorMemClosed (ensureContainerTypeExists coll key) := by
  cases hf : coll.find? key with
  | some l =>
    have he : ensureContainerTypeExists coll key = coll := by
      unfold ensureContainerTypeExists
      rw [hf]
    rw [he]
    exact ⟨hwf, hmc⟩
  | none =>
    have hself : (ensureContainerTypeExists coll key).find? key
        = some (getAncestorAdjusters coll key) := by
      rw [ensureContainerTypeExists_find?_self, hf]
      rfl
    constructor
    · intro k hsome
      by_cases hkk : k = key
      · exact hkk ▸ hk
      · rw [ensureContainerTypeExists_find?_ne _ _ _ hkk] at hsome
        exact hwf k hsome
    · intro j lj k lk hj hk2 hanc x hx
      by_cases hjk : key = j
      · subst hjk
        by_cases hkk : key = k
        · subst hkk
          rw [isStrictAncestor_self] at hanc
          cases hanc
        · rw [hself] at hj
          injection hj with hj
          subst hj
          rw [ensureContainerTypeExists_find?_ne _ _ _ (fun h => hkk h.symm)] at hk2
          rcases getAncestorAdjusters_nearest coll key with
            ⟨m, h1, h2, hfind, _⟩ | ⟨_, hnil⟩
          · have hjanck : isStrictAncestor (key.take m) k = true := by
              rw [isStrictAncestor_iff]
              refine ⟨(List.take_prefix m key).trans
                ((isStrictAncestor_iff _ _).mp hanc).1, ?_⟩
              intro heq
              have hlk : k.length = m := by
                rw [← heq, List.length_take]
                omega
              have := isStrictAncestor_length_lt _ _ hanc
              omega
            exact hmc (key.take m) _ k lk hfind hk2 hjanck x hx
          · rw [hnil] at hx
            cases hx
      · by_cases hkk : key = k
        · subst hkk
          rw [hself] at hk2
          injection hk2 with hk2
          subst hk2
          rw [ensureContainerTypeExists_find?_ne _ _ _ (fun h => hjk h.symm)] at hj
          have hjpre : j <+: key ∧ j ≠ key := (isStrictAncestor_iff _ _).mp hanc
          have hjlen : 1 ≤ j.length := hwf j (by rw [hj]; rfl)
          have hjlt : j.length < key.length := isStrictAncestor_length_lt _ _ hanc
          have hjtake : j = key.take j.length := by
            rcases hjpre.1 with ⟨t, ht⟩
            rw [← ht, List.take_left]
          rcases getAncestorAdjusters_nearest coll key with
            ⟨m, h1, h2, hfind, hnone⟩ | ⟨hall, _⟩
          · rcases Nat.lt_trichotomy j.length m with hlt | heq | hgt
            · have hancjm : isStrictAncestor j (key.take m) = true := by
                rw [isStrictAncestor_iff]
                constructor
                · rw [hjtake]
                  have hre : (key.take m).take j.length = key.take j.length := by
                    rw [List.take_take, Nat.min_eq_left (by omega)]
                  rw [← hre]
                  exact List.take_prefix _ _
                · intro heq2
                  have : j.length = m := by
                    rw [heq2, List.length_take]
                    omega
                  omega
              exact hmc j lj (key.take m) _ hj hfind hancjm x hx
            · rw [← heq, ← hjtake] at hfind
              rw [hj] at hfind
              injection hfind with hfind
              rw [← hfind]
              exact hx
            · have := hnone j.length hgt (by omega)
              rw [← hjtake, hj] at this
              cases this
          · have := hall j.length hjlen (by omega)
            rw [← hjtake, hj] at this
            cases this
        · rw [ensureContainerTypeExists_find?_ne _ _ _ (fun h => hjk h.symm)] at hj
          rw [ensureContainerTypeExists_find?_ne _ _ _ (fun h => hkk h.symm)] at hk2
          exact hmc j lj k lk hj hk2 hanc x hx

/-- The full effect of `_addAdjuster` on any lookup: relative to the state after the
target type has been ensured, the adjuster is appended to the target's list and to the
list of every strict descendant. -/
theorem addAdjuster_find?_general (c : Coll) (key : Key) (a : Adjuster) (k : Key) :
    (addAdjuster c key a).find? k =
      ((ensureContainerTypeExists c key).find? k).map
        (fun l => if k = key ∨ isStrictAncestor key k = true then l ++ [a] else l) := by
  by_cases hk : k = key
  · subst hk
    rw [addAdjuster_find?_self, ensureContainerTypeExists_find?_self]
    simp [isStrictAncestor_self]
  · rw [addAdjuster_find?_ne _ _ _ _ hk, ensureContainerTypeExists_find?_ne _ _ _ hk]
    cases c.find? k with
    | none => rfl
    | some l =>
      simp only [Option.map_some']
      by_cases hanc : isStrictAncestor key k = true
      · simp [hanc, hk]
      · simp only [Bool.not_eq_true] at hanc
        simp [hanc, hk]

/-- `_addAdjuster` preserves well-formedness and ancestor-inclusiveness. -/
theorem addAdjuster_inv (c : Coll) (key : Key) (a : Adjuster)
    (hwf : keyLenWF c) (hmc : ancestorMemClosed c) (hk : 1 ≤ key.length) :
    keyLenWF (addAdjuster c key a) ∧ ancestorMemClosed (addAdjuster c key a) := by
  obtain ⟨hwf1, hmc1⟩ := ensureContainerTypeExists_inv c key hwf hmc hk
  constructor
  · intro k hsome
    rw [addAdjuster_find?_general] at hsome
    rcases Option.isSome_iff_exists.mp hsome with ⟨v, hv⟩
    rcases Option.map_eq_some'.mp hv with ⟨l0, hl0, _⟩
    exact hwf1 k (by rw [hl0]; rfl)
  · intro j lj k lk hj hk2 hanc x hx
    rw [addAdjuster_find?_general] at hj hk2
    rcases Option.map_eq_some'.mp hj with ⟨lj0, hj0, hjv⟩
    rcases Option.map_eq_some'.mp hk2 with ⟨lk0, hk0, hkv⟩
    subst hjv
    subst hkv
    have hbase : ∀ y ∈ lj0, y ∈ lk0 := hmc1 j lj0 k lk0 hj0 hk0 hanc
    by_cases hcj : j = key ∨ isStrictAncestor key j = true
    · rw [if_pos hcj] at hx
      have hck : k = key ∨ isStrictAncestor key k = true := by
        right
        rcases hcj with rfl | hcj
        · exact hanc
        · exact isStrictAncestor_trans _ _ _ hcj hanc
      rw [if_pos hck]
      rcases List.mem_append.mp hx with hx' | hx'
      · exact List.mem_append_left _ (hbase x hx')
      · exact List.mem_append_right _ hx'
    · rw [if_neg hcj] at hx
      by_cases hck : k = key ∨ isStrictAncestor key k = true
      · rw [if_pos hck]
        exact List.mem_append_left _ (hbase x hx)
      · rw [if_neg hck]
        exact hbase x hx

/-- Direct registrations preserve the container-adjuster collection invariants. -/
theorem runOp_direct_inv (w : Wiring) (op : BOp) (hop : op.isDirectRegistration = true)
    (hwf : keyLenWF w.containerAdjusters)
    (hmc : ancestorMemClosed w.containerAdjusters) :
    keyLenWF (runOp w op).containerAdjusters ∧
    ancestorMemClosed (runOp w op).containerAdjusters := by
  cases op with
  | addWiring src => cases hop
  | adjBaseWiring a => cases hop
  | adjContainer t a =>
    simp only [runOp]
    by_cases hv : isValidContainerType t
    · rw [if_pos hv, Wiring.adjustContainer_def, Wiring.containerAdjusters_mk]
      exact addAdjuster_inv _ _ _ hwf hmc (by simp [dotted])
    · rw [if_neg hv]
      exact ⟨hwf, hmc⟩
  | adjWiringAfter t a =>
    simp only [runOp]
    by_cases hv : isValidContainerType t
    · rw [if_pos hv, Wiring.adjustWiringAfter_def, Wiring.containerAdjusters_mk]
      rw [if_pos (isValidContainerType_ne_rootKey t hv)]
      obtain ⟨hwf1, hmc1⟩ := ensureContainerTypeExists_inv w.containerAdjusters
        (dotted t) hwf hmc (by simp [dotted])
      exact addAdjuster_inv _ _ _ hwf1 hmc1 (by simp [rootKey])
    · rw [if_neg hv]
      exact ⟨hwf, hmc⟩

/-- At every point of a direct-registration definition phase both invariants hold. -/
theorem runOps_direct_inv (tag : Nat) (ops : List BOp)
    (hdir : ∀ op ∈ ops, op.isDirectRegistration = true) :
    keyLenWF (runOps (Wiring.empty tag) ops).containerAdjusters ∧
    ancestorMemClosed (runOps (Wiring.empty tag) ops).containerAdjusters := by
  induction ops using List.reverseRecOn with
  | nil =>
    constructor
    · intro k hsome
      cases hsome
    · intro j lj k lk hj
      cases hj
  | append_singleton ops op ih =>
    rw [runOps_append_one]
    obtain ⟨hwf, hmc⟩ := ih fun o ho => hdir o (List.mem_append_left _ ho)
    exact runOp_direct_inv _ op
      (hdir op (List.mem_append_right _ (List.mem_singleton_self _))) hwf hmc

/-- A destination wiring that already knows both `A.B.D` and `A.B.D.E`. -/
def c3Dest : Wiring := runOps (Wiring.empty 0)
  [.adjContainer ["A","B","D"] 9, .adjContainer ["A","B","D","E"] 7]

/-- A source wiring registering against `A`, `A.B` and `A.B.D.E`. -/
def c3Src : Wiring := runOps (Wiring.empty 0)
  [.adjContainer ["A"] 1, .adjContainer ["A","B"] 2, .adjContainer ["A","B","D","E"] 5]

/-- **C3, counterexample.**  During `addWiring`, the source entries for `A` and `A.B`
append their adjusters to the already-known descendant `A.B.D` (unknown to the source:
its list gains 1, 1, 2) but NOT to the equally already-known descendant `A.B.D.E`,
which is known to the source (`_pushAdjustersIntoUnknownDescendants` skips it): its
list gains only its own source entry `[1, 2, 5]`.  So a registration against a type
does not append to *every* already-known descendant during imports. -/
theorem c3_counterexample_merge_skips_known_descendants :
    isStrictAncestor (dotted ["A"]) (dotted ["A","B","D"]) = true ∧
    isStrictAncestor (dotted ["A"]) (dotted ["A","B","D","E"]) = true ∧
    c3Dest.containerAdjusters.find? (dotted ["A","B","D"]) = some [9] ∧
    c3Dest.containerAdjusters.find? (dotted ["A","B","D","E"]) = some [9, 7] ∧
    c3Src.containerAdjusters.find? (dotted ["A"]) = some [1] ∧
    ((c3Dest.addWiring c3Src).containerAdjusters.find?
      (dotted ["A","B","D"])).getD [] = [9, 1, 1, 2] ∧
    ((c3Dest.addWiring c3Src).containerAdjusters.find?
      (dotted ["A","B","D","E"])).getD [] = [9, 7, 1, 2, 5] := by
  refine ⟨by decide, by decide, by decide, by decide, by decide, by decide, by decide⟩

/-- **C3 (amended).**  (1) A type first referenced is seeded with a copy of the
nearest known ancestor's current list — `_ensureContainerTypeExists` stores
`_getAncestorAdjusters` for an unknown key and touches nothing else; (2) the ancestor
walk returns the list of the longest known proper prefix (empty when none is known);
(3) a direct registration (`_addAdjuster`) appends the adjuster to the target's list
and to the list of every already-known strict descendant; (4) one merge entry of
`_addAdjusters` appends the source entry's adjusters to the destination entry and to
already-known strict descendants *unknown to the source* only; (5) consequently, at
every point of a direct-registration definition phase, every adjuster stored for a
type is also stored for every known strict descendant of that type. -/
theorem c3_seed_nearest_retroactive :
    (∀ (coll : Coll) (key : Key),
      ((coll.find? key).isSome → ensureContainerTypeExists coll key = coll) ∧
      (coll.find? key = none →
        (ensureContainerTypeExists coll key).find? key
          = some (getAncestorAdjusters coll key)) ∧
      (∀ k, k ≠ key → (ensureContainerTypeExists coll key).find? k = coll.find? k)) ∧
    (∀ (coll : Coll) (key : Key),
      (∃ m, 1 ≤ m ∧ m + 1 ≤ key.length ∧
        coll.find? (key.take m) = some (getAncestorAdjusters coll key) ∧
        ∀ n, m < n → n + 1 ≤ key.length → coll.find? (key.take n) = none) ∨
      ((∀ n, 1 ≤ n → n + 1 ≤ key.length → coll.find? (key.take n) = none) ∧
        getAncestorAdjusters coll key = [])) ∧
    (∀ (c : Coll) (key : Key) (a : Adjuster) (k : Key),
      (addAdjuster c key a).find? k =
        ((ensureContainerTypeExists c key).find? k).map
          (fun l => if k = key ∨ isStrictAncestor key k = true then l ++ [a] else l)) ∧
    (∀ (c src : Coll) (e : Key × AdjList) (k : Key),
      (addAdjustersEntry c src e).find? k =
        ((ensureContainerTypeExists c e.1).find? k).map
          (fun l => if k = e.1 then l ++ e.2
            else if isStrictAncestor e.1 k && (src.find? k).isNone then l ++ e.2
            else l)) ∧
    (∀ (tag : Nat) (ops : List BOp), (∀ op ∈ ops, op.isDirectRegistration = true) →
      ancestorMemClosed (runOps (Wiring.empty tag) ops).containerAdjusters) := by
  refine ⟨?_, ?_, ?_, ?_, ?_⟩
  · intro coll key
    refine ⟨?_, ?_, fun k hk => ensureContainerTypeExists_find?_ne _ _ _ hk⟩
    · intro hsome
      unfold ensureContainerTypeExists
      rcases Option.isSome_iff_exists.mp hsome with ⟨l, hl⟩
      rw [hl]
    · intro hnone
      rw [ensureContainerTypeExists_find?_self, hnone]
      rfl
  · exact getAncestorAdjusters_nearest
  · exact addAdjuster_find?_general
  · exact addAdjustersEntry_find?
  · intro tag ops hdir
    exact (runOps_direct_inv tag ops hdir).2

theorem c3_seed_nearest_retroactive_witness :
    ((ensureContainerTypeExists [(rootKey, [3])] (dotted ["A"])).find? (dotted ["A"])
      = some (getAncestorAdjusters [(rootKey, [3])] (dotted ["A"]))) ∧
    ancestorMemClosed (runOps (Wiring.empty 0)
      [.adjContainer ["A"] 1, .adjContainer ["A","B"] 2,
       .adjContainer ["A"] 3]).containerAdjusters :=
  ⟨(c3_seed_nearest_retroactive.1 [(rootKey, [3])] (dotted ["A"])).2.1 rfl,
   c3_seed_nearest_retroactive.2.2.2.2 0
     [.adjContainer ["A"] 1, .adjContainer ["A","B"] 2, .adjContainer ["A"] 3]
     (by decide)⟩

/-! ## Claim C4: immutability of built wirings and sibling isolation -/

mutual

/-- Every adjuster identity occurring anywhere in a wiring: in a container-adjuster
list, in a wiring-adjuster list, as a key of the supplied-wiring map, or (recursively)
anywhere in a supplied wiring. -/
def Wiring.allAdjusters : Wiring → List Adjuster
  | .mk ca wa sup _ =>
    (ca.map Prod.snd).flatten ++ (wa.map Prod.snd).flatten ++ suppliedAdjusters sup

/-- The adjuster identities occurring in a supplied-wiring map. -/
def suppliedAdjusters : List (Adjuster × Option Wiring) → List Adjuster
  | [] => []
  | (a, none) :: rest => a :: suppliedAdjusters rest
  | (a, some w) :: rest => a :: (Wiring.allAdjusters w ++ suppliedAdjusters rest)

end

theorem mem_suppliedAdjusters (sup : List (Adjuster × Option Wiring)) (x : Adjuster) :
    x ∈ suppliedAdjusters sup ↔
      ∃ p ∈ sup, x = p.1 ∨ ∃ w', p.2 = some w' ∧ x ∈ w'.allAdjusters := by
  induction sup with
  | nil => simp [suppliedAdjusters]
  | cons p rest ih =>
    obtain ⟨a, v⟩ := p
    cases v with
    | none =>
      simp only [suppliedAdjusters, List.mem_cons, ih]
      constructor
      · rintro (rfl | ⟨q, hq, hx⟩)
        · exact ⟨(x, none), Or.inl rfl, Or.inl rfl⟩
        · exact ⟨q, Or.inr hq, hx⟩
      · rintro ⟨q, (rfl | hq), hx⟩
        · rcases hx with rfl | ⟨w', hw', _⟩
          · exact Or.inl rfl
          · cases hw'
        · exact Or.inr ⟨q, hq, hx⟩
    | some w =>
      simp only [suppliedAdjusters, List.mem_cons, List.mem_append, ih]
      constructor
      · rintro (rfl | hx | ⟨q, hq, hx⟩)
        · exact ⟨(x, some w), Or.inl rfl, Or.inl rfl⟩
        · exact ⟨(a, some w), Or.inl rfl, Or.inr ⟨w, rfl, hx⟩⟩
        · exact ⟨q, Or.inr hq, hx⟩
      · rintro ⟨q, (rfl | hq), hx⟩
        · rcases hx with rfl | ⟨w', hw', hxw⟩
          · exact Or.inl rfl
          · injection hw' with hw'
            subst hw'
            exact Or.inr (Or.inl hxw)
        · exact Or.inr (Or.inr ⟨q, hq, hx⟩)

theorem mem_allAdjusters (w : Wiring) (x : Adjuster) :
    x ∈ w.allAdjusters ↔
      ((∃ p ∈ w.containerAdjusters, x ∈ p.2) ∨
       (∃ p ∈ w.wiringAdjusters, x ∈ p.2) ∨
       (∃ p ∈ w.supplied, x = p.1 ∨ ∃ w', p.2 = some w' ∧ x ∈ w'.allAdjusters)) := by
  obtain ⟨ca, wa, sup, tag⟩ := w
  simp only [Wiring.allAdjusters, List.mem_append, List.mem_flatten, List.mem_map,
    mem_suppliedAdjusters, Wiring.containerAdjusters_mk, Wiring.wiringAdjusters_mk,
    Wiring.supplied_mk]
  constructor
  · rintro ((⟨l, ⟨p, hp, rfl⟩, hx⟩ | ⟨l, ⟨p, hp, rfl⟩, hx⟩) | h)
    · exact Or.inl ⟨p, hp, hx⟩
    · exact Or.inr (Or.inl ⟨p, hp, hx⟩)
    · exact Or.inr (Or.inr h)
  · rintro (⟨p, hp, hx⟩ | ⟨p, hp, hx⟩ | h)
    · exact Or.inl (Or.inl ⟨p.2, ⟨p, hp, rfl⟩, hx⟩)
    · exact Or.inl (Or.inr ⟨p.2, ⟨p, hp, rfl⟩, hx⟩)
    · exact Or.inr h

/-- `x` occurs in no stored adjuster list of the collection. -/
def collAvoids (x : Adjuster) (c : Coll) : Prop := ∀ p ∈ c, x ∉ p.2

/-- `x` is neither a key of the supplied map nor occurs in any supplied wiring. -/
def supAvoids (x : Adjuster) (m : SuppliedMap) : Prop :=
  ∀ p ∈ m, x ≠ p.1 ∧ ∀ w', p.2 = some w' → x ∉ w'.allAdjusters

theorem notMem_allAdjusters_iff (w : Wiring) (x : Adjuster) :
    x ∉ w.allAdjusters ↔
      collAvoids x w.containerAdjusters ∧ collAvoids x w.wiringAdjusters ∧
      supAvoids x w.supplied := by
  rw [mem_allAdjusters]
  push_neg
  exact Iff.rfl

theorem mem_Coll_set (c : Coll) (k : Key) (v : AdjList) (p : Key × AdjList)
    (hp : p ∈ Coll.set c k v) : p = (k, v) ∨ p ∈ c := by
  induction c with
  | nil => simpa [Coll.set] using hp
  | cons q rest ih =>
    obtain ⟨qk, ql⟩ := q
    simp only [Coll.set] at hp
    by_cases hq : qk = k
    · rw [if_pos hq] at hp
      rcases List.mem_cons.mp hp with rfl | hp'
      · exact Or.inl (by rw [hq])
      · exact Or.inr (List.mem_cons_of_mem _ hp')
    · rw [if_neg hq] at hp
      rcases List.mem_cons.mp hp with rfl | hp'
      · exact Or.inr (List.mem_cons_self _ _)
      · rcases ih hp' with h | h
        · exact Or.inl h
        · exact Or.inr (List.mem_cons_of_mem _ h)

theorem collAvoids_set (x : Adjuster) (c : Coll) (k : Key) (v : AdjList)
    (hc : collAvoids x c) (hv : x ∉ v) : collAvoids x (c.set k v) := by
  intro p hp
  rcases mem_Coll_set c k v p hp with rfl | hp'
  · exact hv
  · exact hc p hp'

theorem notMem_getAncestorAdjusters (x : Adjuster) (c : Coll) (k : Key)
    (hc : collAvoids x c) : x ∉ getAncestorAdjusters c k := by
  intro hx
  rcases getAncestorAdjusters_mem c k x hx with ⟨k', l', hfind, hxl⟩
  exact hc _ (Coll.find?_mem c k' l' hfind) hxl

theorem collAvoids_ensure (x : Adjuster) (c : Coll) (k : Key)
    (hc : collAvoids x c) : collAvoids x (ensureContainerTypeExists c k) := by
  unfold ensureContainerTypeExists
  cases c.find? k with
  | some l => exact hc
  | none => exact collAvoids_set x c k _ hc (notMem_getAncestorAdjusters x c k hc)

theorem collAvoids_ensureFold (x : Adjuster) (keys : List Key) (c : Coll)
    (hc : collAvoids x c) :
    collAvoids x (keys.foldl ensureContainerTypeExists c) := by
  induction keys generalizing c with
  | nil => exact hc
  | cons k rest ih => exact ih _ (collAvoids_ensure x c k hc)

theorem collAvoids_pushUnknown (x : Adjuster) (c : Coll) (key : Key) (adj : AdjList)
    (ref : Coll) (hc : collAvoids x c) (hadj : x ∉ adj) :
    collAvoids x (pushAdjustersIntoUnknownDescendants c key adj ref) := by
  intro p hp
  rw [pushAdjustersIntoUnknownDescendants_eq_mapVal] at hp
  rcases List.mem_map.mp hp with ⟨q, hq, rfl⟩
  by_cases hcond : (isStrictAncestor key q.1 && (ref.find? q.1).isNone : Bool) = true
  · rw [if_pos hcond]
    intro hx
    rcases List.mem_append.mp hx with hx' | hx'
    · exact hc q hq hx'
    · exact hadj hx'
  · rw [if_neg hcond]
    exact hc q hq

theorem collAvoids_addAdjustersEntry (x : Adjuster) (c src : Coll)
    (e : Key × AdjList) (hc : collAvoids x c) (he : x ∉ e.2) :
    collAvoids x (addAdjustersEntry c src e) := by
  unfold addAdjustersEntry
  apply collAvoids_pushUnknown _ _ _ _ _ _ he
  apply collAvoids_set _ _ _ _ (collAvoids_ensure x c e.1 hc)
  intro hx
  rcases List.mem_append.mp hx with hx' | hx'
  · cases hf : (ensureContainerTypeExists c e.1).find? e.1 with
    | none => rw [hf] at hx'; cases hx'
    | some l =>
      rw [hf] at hx'
      exact collAvoids_ensure x c e.1 hc _ (Coll.find?_mem _ _ _ hf) hx'
  · exact he hx'

theorem collAvoids_addAdjusters (x : Adjuster) (c src : Coll)
    (hc : collAvoids x c) (hsrc : collAvoids x src) :
    collAvoids x (addAdjusters c src) := by
  unfold addAdjusters
  have hgen : ∀ (entries : List (Key × AdjList)) (c0 : Coll),
      (∀ e ∈ entries, x ∉ e.2) → collAvoids x c0 →
      collAvoids x (entries.foldl (fun c e => addAdjustersEntry c src e) c0) := by
    intro entries
    induction entries with
    | nil => intro c0 _ hc0; exact hc0
    | cons e rest ih =>
      intro c0 hall hc0
      exact ih _ (fun q hq => hall q (List.mem_cons_of_mem _ hq))
        (collAvoids_addAdjustersEntry x c0 src e hc0
          (hall e (List.mem_cons_self _ _)))
  exact hgen src c (fun e he => hsrc e he) hc

theorem mem_SuppliedMap_set (m : SuppliedMap) (a : Adjuster) (v : Option Wiring)
    (p : Adjuster × Option Wiring) (hp : p ∈ m.set a v) : p = (a, v) ∨ p ∈ m := by
  induction m with
  | nil => simpa [SuppliedMap.set] using hp
  | cons q rest ih =>
    obtain ⟨qa, qv⟩ := q
    simp only [SuppliedMap.set] at hp
    by_cases hq : qa = a
    · rw [if_pos hq] at hp
      rcases List.mem_cons.mp hp with rfl | hp'
      · exact Or.inl (by rw [hq])
      · exact Or.inr (List.mem_cons_of_mem _ hp')
    · rw [if_neg hq] at hp
      rcases List.mem_cons.mp hp with rfl | hp'
      · exact Or.inr (List.mem_cons_self _ _)
      · rcases ih hp' with h | h
        · exact Or.inl h
        · exact Or.inr (List.mem_cons_of_mem _ h)

theorem supAvoids_set (x : Adjuster) (m : SuppliedMap) (a : Adjuster)
    (v : Option Wiring) (hm : supAvoids x m) (hxa : x ≠ a)
    (hv : ∀ w', v = some w' → x ∉ w'.allAdjusters) : supAvoids x (m.set a v) := by
  intro p hp
  rcases mem_SuppliedMap_set m a v p hp with rfl | hp'
  · exact ⟨hxa, hv⟩
  · exact hm p hp'

theorem supAvoids_addSuppliedWiring (x : Adjuster) (d s : SuppliedMap)
    (hd : supAvoids x d) (hs : supAvoids x s) :
    supAvoids x (addSuppliedWiring d s) := by
  unfold addSuppliedWiring
  have hgen : ∀ (entries : List (Adjuster × Option Wiring)) (d0 : SuppliedMap),
      (∀ e ∈ entries, x ≠ e.1 ∧ ∀ w', e.2 = some w' → x ∉ w'.allAdjusters) →
      supAvoids x d0 →
      supAvoids x (entries.foldl (fun d e => if d.has e.1 then d else d.set e.1 e.2) d0) := by
    intro entries
    induction entries with
    | nil => intro d0 _ hd0; exact hd0
    | cons e rest ih =>
      intro d0 hall hd0
      apply ih _ (fun q hq => hall q (List.mem_cons_of_mem _ hq))
      show supAvoids x (if d0.has e.1 = true then d0 else d0.set e.1 e.2)
      by_cases hhas : (d0.has e.1 : Bool) = true
      · rw [if_pos hhas]
        exact hd0
      · rw [if_neg hhas]
        exact supAvoids_set x d0 e.1 e.2 hd0 (hall e (List.mem_cons_self _ _)).1
          (hall e (List.mem_cons_self _ _)).2
  exact hgen s d (fun e he => hs e he) hd

/-- A compact restatement of avoidance through the three components. -/
theorem wiringAvoids_mk (x : Adjuster) (ca wa : Coll) (sup : SuppliedMap) (tag : Nat)
    (h1 : collAvoids x ca) (h2 : collAvoids x wa) (h3 : supAvoids x sup) :
    x ∉ (Wiring.mk ca wa sup tag).allAdjusters := by
  rw [notMem_allAdjusters_iff]
  exact ⟨h1, h2, h3⟩

theorem wiringAvoids_destruct (x : Adjuster) (w : Wiring)
    (h : x ∉ w.allAdjusters) :
    collAvoids x w.containerAdjusters ∧ collAvoids x w.wiringAdjusters ∧
      supAvoids x w.supplied := (notMem_allAdjusters_iff w x).mp h

/-- The `addWiring` callback of the gather loop preserves avoidance of `x` in both the
gathering wiring and the in-progress supplied wiring, as long as the passed wiring
avoids `x`. -/
theorem wiringAdjusterCallback_avoids (x : Adjuster) (st : Wiring × Wiring)
    (wta : Wiring) (h1 : x ∉ st.1.allAdjusters) (h2 : x ∉ st.2.allAdjusters)
    (hw : x ∉ wta.allAdjusters) :
    x ∉ (wiringAdjusterCallback st wta).1.allAdjusters ∧
    x ∉ (wiringAdjusterCallback st wta).2.allAdjusters := by
  obtain ⟨hca1, hwa1, hsup1⟩ := wiringAvoids_destruct x st.1 h1
  obtain ⟨hca2, hwa2, hsup2⟩ := wiringAvoids_destruct x st.2 h2
  obtain ⟨hcaw, hwaw, hsupw⟩ := wiringAvoids_destruct x wta hw
  unfold wiringAdjusterCallback
  constructor
  · apply wiringAvoids_mk
    · exact hca1
    · exact collAvoids_addAdjusters x _ _ hwa1 hwaw
    · exact supAvoids_addSuppliedWiring x _ _ hsup1 hsupw
  · apply wiringAvoids_mk
    · exact collAvoids_addAdjusters x _ _ hca2 hcaw
    · exact hwa2
    · exact hsup2

theorem scriptFold_avoids (x : Adjuster) (ws : List Wiring) (st : Wiring × Wiring)
    (h1 : x ∉ st.1.allAdjusters) (h2 : x ∉ st.2.allAdjusters)
    (hws : ∀ w' ∈ ws, x ∉ w'.allAdjusters) :
    x ∉ (ws.foldl wiringAdjusterCallback st).1.allAdjusters ∧
    x ∉ (ws.foldl wiringAdjusterCallback st).2.allAdjusters := by
  induction ws generalizing st with
  | nil => exact ⟨h1, h2⟩
  | cons w' rest ih =>
    obtain ⟨ha, hb⟩ := wiringAdjusterCallback_avoids x st w' h1 h2
      (hws w' (List.mem_cons_self _ _))
    exact ih _ ha hb (fun q hq => hws q (List.mem_cons_of_mem _ hq))

theorem wiringAvoids_empty (x : Adjuster) (tag : Nat) :
    x ∉ (Wiring.empty tag).allAdjusters := by
  intro hx
  cases hx

/-- The gather loop never introduces an adjuster identity that occurs neither in the
starting wiring nor in any wiring a wiring adjuster supplies. -/
theorem gatherLoop_avoids (env : Env) (x : Adjuster) (key : Key) (hasCtx : Bool)
    (henv : ∀ wa w', w' ∈ env.script wa → x ∉ w'.allAdjusters) :
    ∀ (fuel : Nat) (w : Wiring) (log : List (Adjuster × Bool))
      (out : Wiring × List (Adjuster × Bool)),
      x ∉ w.allAdjusters → gatherLoop env key hasCtx fuel w log = some out →
      x ∉ out.1.allAdjusters := by
  intro fuel
  induction fuel with
  | zero =>
    intro w log out hw hrun
    rw [gatherLoop] at hrun
    cases hf : w.wiringAdjusters.find? key with
    | none =>
      simp only [hf, Option.getD_none] at hrun
      injection hrun with hrun
      subst hrun
      exact hw
    | some l =>
      simp only [hf, Option.getD_some] at hrun
      cases l with
      | nil =>
        injection hrun with hrun
        subst hrun
        exact hw
      | cons wa rest => simp at hrun
  | succ fl ih =>
    intro w log out hw hrun
    rw [gatherLoop] at hrun
    cases hf : w.wiringAdjusters.find? key with
    | none =>
      simp only [hf, Option.getD_none] at hrun
      injection hrun with hrun
      subst hrun
      exact hw
    | some l =>
      simp only [hf, Option.getD_some] at hrun
      cases l with
      | nil =>
        injection hrun with hrun
        subst hrun
        exact hw
      | cons wa rest =>
        simp only at hrun
        obtain ⟨hca, hwa, hsup⟩ := wiringAvoids_destruct x w hw
        have hxlist : x ∉ wa :: rest := hwa _ (Coll.find?_mem _ _ _ hf)
        have hxwa : x ≠ wa := fun h => hxlist (h ▸ List.mem_cons_self _ _)
        have hxrest : x ∉ rest := fun h => hxlist (List.mem_cons_of_mem _ h)
        set w1 := w.setWiringAdjusters (w.wiringAdjusters.set key rest) with hw1def
        have hw1 : x ∉ w1.allAdjusters :=
          wiringAvoids_mk x _ _ _ _ hca (collAvoids_set x _ _ _ hwa hxrest) hsup
        obtain ⟨hca1, hwa1, hsup1⟩ := wiringAvoids_destruct x _ hw1
        cases hget : w1.supplied.get wa with
        | some v =>
          cases v with
          | some sw =>
            simp only [hget] at hrun
            exact ih _ log out hw1 hrun
          | none =>
            simp only [hget] at hrun
            set w2 := w1.setSupplied (w1.supplied.set wa (some (Wiring.empty 0)))
              with hw2def
            have hw2 : x ∉ w2.allAdjusters :=
              wiringAvoids_mk x _ _ _ _ hca1 hwa1
                (supAvoids_set x _ _ _ hsup1 hxwa
                  (fun w' hw' => by
                    injection hw' with hw'
                    exact hw' ▸ wiringAvoids_empty x 0))
            set p := (env.script wa).foldl wiringAdjusterCallback (w2, Wiring.empty 0)
              with hpdef
            obtain ⟨hp1, hp2⟩ := scriptFold_avoids x (env.script wa)
              (w2, Wiring.empty 0) hw2 (wiringAvoids_empty x 0) (henv wa)
            rw [← hpdef] at hp1 hp2
            obtain ⟨hp1ca, hp1wa, hp1sup⟩ := wiringAvoids_destruct x _ hp1
            obtain ⟨hp2ca, hp2wa, hp2sup⟩ := wiringAvoids_destruct x _ hp2
            refine ih _ _ out (wiringAvoids_mk x _ _ _ _
              (collAvoids_ensureFold x _ _ hp1ca) hp1wa
              (supAvoids_set x _ _ _ hp1sup hxwa (fun w' hw' => by
                injection hw' with hw'
                refine hw' ▸ wiringAvoids_mk x _ _ _ _
                  (collAvoids_ensureFold x _ _ hp2ca) hp2wa hp2sup))) hrun
        | none =>
          simp only [hget] at hrun
          set w2 := w1.setSupplied (w1.supplied.set wa (some (Wiring.empty 0)))
            with hw2def
          have hw2 : x ∉ w2.allAdjusters :=
            wiringAvoids_mk x _ _ _ _ hca1 hwa1
              (supAvoids_set x _ _ _ hsup1 hxwa
                (fun w' hw' => by
                  injection hw' with hw'
                  exact hw' ▸ wiringAvoids_empty x 0))
          set p := (env.script wa).foldl wiringAdjusterCallback (w2, Wiring.empty 0)
            with hpdef
          obtain ⟨hp1, hp2⟩ := scriptFold_avoids x (env.script wa)
            (w2, Wiring.empty 0) hw2 (wiringAvoids_empty x 0) (henv wa)
          rw [← hpdef] at hp1 hp2
          obtain ⟨hp1ca, hp1wa, hp1sup⟩ := wiringAvoids_destruct x _ hp1
          obtain ⟨hp2ca, hp2wa, hp2sup⟩ := wiringAvoids_destruct x _ hp2
          refine ih _ _ out (wiringAvoids_mk x _ _ _ _
            (collAvoids_ensureFold x _ _ hp1ca) hp1wa
            (supAvoids_set x _ _ _ hp1sup hxwa (fun w' hw' => by
              injection hw' with hw'
              refine hw' ▸ wiringAvoids_mk x _ _ _ _
                (collAvoids_ensureFold x _ _ hp2ca) hp2wa hp2sup))) hrun

theorem SuppliedMap.get_mem (m : SuppliedMap) (a : Adjuster) (v : Option Wiring)
    (h : m.get a = some v) : (a, v) ∈ m := by
  induction m with
  | nil => cases h
  | cons p rest ih =>
    obtain ⟨pa, pv⟩ := p
    simp only [SuppliedMap.get] at h
    by_cases hpa : pa = a
    · rw [if_pos hpa] at h
      injection h with h
      subst hpa
      subst h
      exact List.mem_cons_self _ _
    · rw [if_neg hpa] at h
      exact List.mem_cons_of_mem _ (ih h)

/-- Flattening introduces no adjuster avoided by both the raw list and the supplied
map. -/
theorem flattenGo_avoids (s : SuppliedMap) (x : Adjuster) (hs : supAvoids x s) :
    ∀ (fuel : Nat) (key : Key) (l out : AdjList), x ∉ l →
      flattenGo s fuel key l = some out → x ∉ out := by
  intro fuel
  induction fuel with
  | zero =>
    intro key l
    induction l with
    | nil =>
      intro out _ h
      rw [flattenGo_nil] at h
      injection h with h
      subst h
      simp
    | cons a rest ih =>
      intro out hx h
      rw [flattenGo_cons] at h
      have hxa : x ≠ a := fun hh => hx (hh ▸ List.mem_cons_self _ _)
      have hxr : x ∉ rest := fun hh => hx (List.mem_cons_of_mem _ hh)
      cases hga : s.get a with
      | none =>
        simp only [hga] at h
        rcases Option.map_eq_some'.mp h with ⟨out2, hrec, hout⟩
        subst hout
        intro hmem
        rcases List.mem_cons.mp hmem with rfl | hmem'
        · exact hxa rfl
        · exact ih out2 hxr hrec hmem'
      | some v =>
        cases v with
        | none =>
          simp only [hga] at h
          exact ih out hxr h
        | some sw =>
          simp only [hga] at h
          cases hfind : sw.containerAdjusters.find? key with
          | none =>
            simp only [hfind] at h
            exact ih out hxr h
          | some l2 => simp only [hfind] at h; simp at h
  | succ fl ihf =>
    intro key l
    induction l with
    | nil =>
      intro out _ h
      rw [flattenGo_nil] at h
      injection h with h
      subst h
      simp
    | cons a rest ih =>
      intro out hx h
      rw [flattenGo_cons] at h
      have hxa : x ≠ a := fun hh => hx (hh ▸ List.mem_cons_self _ _)
      have hxr : x ∉ rest := fun hh => hx (List.mem_cons_of_mem _ hh)
      cases hga : s.get a with
      | none =>
        simp only [hga] at h
        rcases Option.map_eq_some'.mp h with ⟨out2, hrec, hout⟩
        subst hout
        intro hmem
        rcases List.mem_cons.mp hmem with rfl | hmem'
        · exact hxa rfl
        · exact ih out2 hxr hrec hmem'
      | some v =>
        cases v with
        | none =>
          simp only [hga] at h
          exact ih out hxr h
        | some sw =>
          simp only [hga] at h
          cases hfind : sw.containerAdjusters.find? key with
          | none =>
            simp only [hfind] at h
            exact ih out hxr h
          | some l2 =>
            simp only [hfind] at h
            have hxsw : x ∉ sw.allAdjusters :=
              (hs (a, some sw) (SuppliedMap.get_mem s a (some sw) hga)).2 sw rfl
            have hxl2 : x ∉ l2 :=
              (wiringAvoids_destruct x sw hxsw).1 _ (Coll.find?_mem _ _ _ hfind)
            cases hinner : flattenGo s fl key l2 with
            | none => simp only [hinner] at h; simp at h
            | some inner =>
              simp only [hinner, Option.bind_eq_bind, Option.some_bind] at h
              cases htail : flattenGo s (fl + 1) key rest with
              | none => simp only [htail] at h; simp at h
              | some tail =>
                simp only [htail, Option.some_bind] at h
                injection h with h
                subst h
                intro hmem
                rcases List.mem_append.mp hmem with hmem' | hmem'
                · exact ihf key l2 inner hxl2 hinner hmem'
                · exact ih tail hxr htail hmem'

theorem gather_avoids (env : Env) (x : Adjuster) (key : Key) (hasCtx : Bool)
    (henv : ∀ wa w', w' ∈ env.script wa → x ∉ w'.allAdjusters)
    (fuel : Nat) (w : Wiring) (out : Wiring × List (Adjuster × Bool))
    (hw : x ∉ w.allAdjusters) (h : gather env key hasCtx fuel w = some out) :
    x ∉ out.1.allAdjusters := by
  unfold gather at h
  cases hf : w.wiringAdjusters.find? key with
  | none =>
    rw [hf] at h
    injection h with h
    subst h
    exact hw
  | some l =>
    rw [hf] at h
    exact gatherLoop_avoids env x key hasCtx henv fuel w [] out hw h

/-- **C4.**  (1) `build()` returns a full copy of the builder's wiring (the copy
constructor reproduces the state, so later builder mutation acts on a different
object); (2) `createContainer` returns with the public `Wiring` unchanged (the call
works on a private clone); (3) hence a sibling creation from the same instance is the
same call as on the untouched instance; (4) an adjuster identity occurring nowhere in
a built wiring nor in any wiring suppliable by the environment — e.g. one registered
on the builder only after `build()` — is never applied by a container creation from
that wiring. -/
theorem c4_immutable_artifact :
    (∀ b : WiringBuilder, b.build = b.wiring) ∧
    (∀ (w : Wiring) (env : Env) (fuel : Nat) (T : Key) (args : List Nat),
      (w.createContainer env fuel T args).2 = w) ∧
    (∀ (w : Wiring) (env : Env) (fuel : Nat) (T1 : Key) (a1 : List Nat)
      (T2 : Key) (a2 : List Nat),
      ((w.createContainer env fuel T1 a1).2).createContainer env fuel T2 a2
        = w.createContainer env fuel T2 a2) ∧
    (∀ (w : Wiring) (env : Env) (fuel : Nat) (T : Key) (args : List Nat)
      (x : Adjuster) (res : CreateResult),
      x ∉ w.allAdjusters →
      (∀ wa w', w' ∈ env.script wa → x ∉ w'.allAdjusters) →
      (w.createContainer env fuel T args).1 = some (.ok res) →
      x ∉ res.appliedAdjusters) := by
  have h2 : ∀ (w : Wiring) (env : Env) (fuel : Nat) (T : Key) (args : List Nat),
      (w.createContainer env fuel T args).2 = w := by
    intro w env fuel T args
    unfold Wiring.createContainer
    by_cases hv : isValidContainerType T
    · rw [if_pos hv]
    · rw [if_neg hv]
  refine ⟨fun b => Wiring.clone_eq b.wiring, h2, fun w env fuel T1 a1 T2 a2 => by
    rw [h2], ?_⟩
  intro w env fuel T args x res hx henv hok
  by_cases hv : isValidContainerType T
  · rw [Wiring.createContainer, if_pos hv] at hok
    unfold createContainerCore at hok
    cases hg0 : gather env rootKey false fuel w.clone with
    | none => simp only [hg0] at hok; cases hok
    | some p =>
      obtain ⟨w1, blog⟩ := p
      have hxw1 : x ∉ w1.allAdjusters := by
        have := gather_avoids env x rootKey false henv fuel w.clone (w1, blog)
          (by rw [Wiring.clone_eq]; exact hx) hg0
        exact this
      simp only [hg0] at hok
      cases hfind : w1.containerAdjusters.find? (dotted T) with
      | none => simp only [hfind] at hok; cases hok
      | some l0 =>
        simp only [hfind] at hok
        cases hflat : getFlattenedContainerAdjusters w1.supplied fuel
            w1.containerAdjusters (dotted T) with
        | none => simp only [hflat] at hok; cases hok
        | some raw0 =>
          simp only [hflat] at hok
          cases hafter : gather env T true fuel w1 with
          | none => simp only [hafter] at hok; cases hok
          | some p2 =>
            obtain ⟨w2, alog⟩ := p2
            simp only [hafter, Option.some.injEq, Except.ok.injEq] at hok
            subst hok
            simp only
            have hxl0 : x ∉ l0 :=
              (wiringAvoids_destruct x w1 hxw1).1 _ (Coll.find?_mem _ _ _ hfind)
            have hxraw : x ∉ raw0 := by
              apply flattenGo_avoids w1.supplied x
                (wiringAvoids_destruct x w1 hxw1).2.2 fuel (dotted T) l0 raw0 hxl0
              rw [getFlattenedContainerAdjusters, hfind] at hflat
              exact hflat
            intro hmem
            exact hxraw ((mem_dedupFirst raw0 x).mp hmem)
  · rw [Wiring.createContainer, if_neg hv] at hok
    simp at hok

/-- A built wiring with the single container adjuster 1 for type `A`. -/
def c4Wiring : Wiring := runOps (Wiring.empty 0) [.adjContainer ["A"] 1]

/-- The result of creating an `A` container from `c4Wiring`. -/
def c4Res : CreateResult :=
  match (c4Wiring.createContainer ⟨fun _ => []⟩ 1 ["A"] []).1 with
  | some (.ok r) => r
  | _ => ⟨⟨[], Wiring.empty 0⟩, [], [], []⟩

theorem c4_immutable_artifact_witness :
    (WiringBuilder.mk c4Wiring).build = c4Wiring ∧
    (c4Wiring.createContainer ⟨fun _ => []⟩ 1 ["A"] []).2 = c4Wiring ∧
    (99 : Adjuster) ∉ c4Wiring.allAdjusters ∧
    (c4Wiring.createContainer ⟨fun _ => []⟩ 1 ["A"] []).1 = some (.ok c4Res) ∧
    (99 : Adjuster) ∉ c4Res.appliedAdjusters :=
  ⟨c4_immutable_artifact.1 ⟨c4Wiring⟩,
   c4_immutable_artifact.2.1 c4Wiring ⟨fun _ => []⟩ 1 ["A"] [],
   by decide,
   rfl,
   c4_immutable_artifact.2.2.2 c4Wiring ⟨fun _ => []⟩ 1 ["A"] [] 99 c4Res (by decide)
     (fun wa w' h => nomatch h) rfl⟩

/-! ## Claims C10 and C8: the wiring bean, class identity, and factories -/

theorem callbackFold_tag (ws : List Wiring) (st : Wiring × Wiring) :
    (ws.foldl wiringAdjusterCallback st).1.ctorTag = st.1.ctorTag := by
  induction ws generalizing st with
  | nil => rfl
  | cons w' rest ih => rw [List.foldl_cons, ih]; rfl

/-- The gather loop preserves the concrete-class identity of the wiring it threads. -/
theorem gatherLoop_tag (env : Env) (key : Key) (hasCtx : Bool) :
    ∀ (fuel : Nat) (w : Wiring) (log : List (Adjuster × Bool))
      (out : Wiring × List (Adjuster × Bool)),
      gatherLoop env key hasCtx fuel w log = some out →
      out.1.ctorTag = w.ctorTag := by
  intro fuel
  induction fuel with
  | zero =>
    intro w log out hrun
    rw [gatherLoop] at hrun
    cases hf : w.wiringAdjusters.find? key with
    | none =>
      simp only [hf, Option.getD_none] at hrun
      injection hrun with hrun
      subst hrun
      rfl
    | some l =>
      simp only [hf, Option.getD_some] at hrun
      cases l with
      | nil =>
        injection hrun with hrun
        subst hrun
        rfl
      | cons wa rest => simp at hrun
  | succ fl ih =>
    intro w log out hrun
    rw [gatherLoop] at hrun
    cases hf : w.wiringAdjusters.find? key with
    | none =>
      simp only [hf, Option.getD_none] at hrun
      injection hrun with hrun
      subst hrun
      rfl
    | some l =>
      simp only [hf, Option.getD_some] at hrun
      cases l with
      | nil =>
        injection hrun with hrun
        subst hrun
        rfl
      | cons wa rest =>
        simp only at hrun
        cases hget : (w.setWiringAdjusters
            (w.wiringAdjusters.set key rest)).supplied.get wa with
        | some v =>
          cases v with
          | some sw =>
            simp only [hget] at hrun
            rw [ih _ log out hrun]
            rfl
          | none =>
            simp only [hget] at hrun
            rw [ih _ _ out hrun]
            show _ = w.ctorTag
            rw [show ∀ (a : Wiring) (c : Coll) (m : SuppliedMap),
              ((a.setContainerAdjusters c).setSupplied m).ctorTag = a.ctorTag
              from fun a c m => rfl]
            rw [callbackFold_tag]
            rfl
        | none =>
          simp only [hget] at hrun
          rw [ih _ _ out hrun]
          show _ = w.ctorTag
          rw [show ∀ (a : Wiring) (c : Coll) (m : SuppliedMap),
            ((a.setContainerAdjusters c).setSupplied m).ctorTag = a.ctorTag
            from fun a c m => rfl]
          rw [callbackFold_tag]
          rfl

theorem gather_tag (env : Env) (key : Key) (hasCtx : Bool) (fuel : Nat) (w : Wiring)
    (out : Wiring × List (Adjuster × Bool)) (h : gather env key hasCtx fuel w = some out) :
    out.1.ctorTag = w.ctorTag := by
  unfold gather at h
  cases hf : w.wiringAdjusters.find? key with
  | none =>
    rw [hf] at h
    injection h with h
    subst h
    rfl
  | some l =>
    rw [hf] at h
    exact gatherLoop_tag env key hasCtx fuel w [] out h

/-- The shape of a successful core creation: the `wiring` bean event is recorded
first, carrying the private instance's class tag, before any adjuster application,
and the container's wiring bean has the same class tag as the creating wiring. -/
theorem createContainerCore_shape (env : Env) (fuel : Nat) (w : Wiring) (t : Key)
    (args : List Nat) (res : CreateResult)
    (hok : createContainerCore env fuel w t args = some (.ok res)) :
    res.container.events = CEvent.wiringBean w.ctorTag ::
      res.appliedAdjusters.map (fun a => CEvent.applied a args) ∧
    res.container.wiring.ctorTag = w.ctorTag := by
  unfold createContainerCore at hok
  cases hg0 : gather env rootKey false fuel w with
  | none => simp only [hg0] at hok; cases hok
  | some p =>
    obtain ⟨w1, blog⟩ := p
    have htag1 : w1.ctorTag = w.ctorTag := gather_tag env rootKey false fuel w _ hg0
    simp only [hg0] at hok
    cases hfind : w1.containerAdjusters.find? (dotted t) with
    | none => simp only [hfind] at hok; cases hok
    | some l0 =>
      simp only [hfind] at hok
      cases hflat : getFlattenedContainerAdjusters w1.supplied fuel
          w1.containerAdjusters (dotted t) with
      | none => simp only [hflat] at hok; cases hok
      | some raw0 =>
        simp only [hflat] at hok
        cases hafter : gather env t true fuel w1 with
        | none => simp only [hafter] at hok; cases hok
        | some p2 =>
          obtain ⟨w2, alog⟩ := p2
          have htag2 : w2.ctorTag = w1.ctorTag := gather_tag env t true fuel w1 _ hafter
          simp only [hafter, Option.some.injEq, Except.ok.injEq] at hok
          subst hok
          exact ⟨by rw [htag1], by rw [htag2, htag1]⟩

/-- **C10.**  Every successful creation (direct or through a factory callable)
records the `wiring` bean registration as its first container event, before any
adjuster application; the registered wiring carries the same concrete-class tag as the
`Wiring` the creation was invoked on; and the class tag is preserved by `build`,
cloning, builder construction from an imported wiring, and every builder operation. -/
theorem c10_wiring_bean_and_class :
    (∀ (w : Wiring) (env : Env) (fuel : Nat) (T : Key) (args : List Nat)
      (res : CreateResult),
      (w.createContainer env fuel T args).1 = some (.ok res) →
      res.container.events = CEvent.wiringBean w.ctorTag ::
        res.appliedAdjusters.map (fun a => CEvent.applied a args) ∧
      res.container.wiring.ctorTag = w.ctorTag) ∧
    (∀ (env : Env) (fuel : Nat) (f : ContainerFactory) (cargs : List Nat)
      (res : CreateResult),
      f.invoke env fuel cargs = some (.ok res) →
      res.container.events = CEvent.wiringBean f.capturedWiring.ctorTag ::
        res.appliedAdjusters.map
          (fun a => CEvent.applied a (f.factoryArgs ++ cargs)) ∧
      res.container.wiring.ctorTag = f.capturedWiring.ctorTag) ∧
    (∀ b : WiringBuilder, b.build.ctorTag = b.wiring.ctorTag) ∧
    (∀ w : Wiring, w.clone.ctorTag = w.ctorTag) ∧
    (∀ (imp : Wiring), (WiringBuilder.make (some imp)).wiring.ctorTag = imp.ctorTag) ∧
    (∀ (w : Wiring) (op : BOp), (runOp w op).ctorTag = w.ctorTag) := by
  refine ⟨?_, ?_, fun b => rfl, fun w => rfl, fun imp => rfl, ?_⟩
  · intro w env fuel T args res hok
    by_cases hv : isValidContainerType T
    · rw [Wiring.createContainer, if_pos hv] at hok
      have := createContainerCore_shape env fuel w.clone T args res hok
      rwa [Wiring.clone_eq] at this
    · rw [Wiring.createContainer, if_neg hv] at hok
      simp at hok
  · intro env fuel f cargs res hok
    have := createContainerCore_shape env fuel f.capturedWiring.clone f.containerType
      (f.factoryArgs ++ cargs) res hok
    rwa [Wiring.clone_eq] at this
  · intro w op
    cases op with
    | adjContainer t a =>
      simp only [runOp]
      by_cases hv : isValidContainerType t
      · rw [if_pos hv, Wiring.adjustContainer_def]
        rfl
      · rw [if_neg hv]
    | adjBaseWiring a =>
      show (w.adjustWiringAfter rootKey a).ctorTag = w.ctorTag
      rw [Wiring.adjustWiringAfter_def]
      rfl
    | adjWiringAfter t a =>
      simp only [runOp]
      by_cases hv : isValidContainerType t
      · rw [if_pos hv, Wiring.adjustWiringAfter_def]
        rfl
      · rw [if_neg hv]
    | addWiring src => rfl

/-- A subclass wiring (class tag 7) with one registration. -/
def c10Wiring : Wiring := runOps (Wiring.empty 7) [.adjContainer ["A"] 1]

/-- The creation result from the subclass wiring. -/
def c10Res : CreateResult :=
  match (c10Wiring.createContainer ⟨fun _ => []⟩ 1 ["A"] [4]).1 with
  | some (.ok r) => r
  | _ => ⟨⟨[], Wiring.empty 0⟩, [], [], []⟩

theorem c10_wiring_bean_and_class_witness :
    (c10Wiring.createContainer ⟨fun _ => []⟩ 1 ["A"] [4]).1 = some (.ok c10Res) ∧
    (c10Res.container.events = CEvent.wiringBean c10Wiring.ctorTag ::
      c10Res.appliedAdjusters.map (fun a => CEvent.applied a [4]) ∧
     c10Res.container.wiring.ctorTag = c10Wiring.ctorTag) ∧
    c10Wiring.ctorTag = 7 :=
  ⟨rfl,
   c10_wiring_bean_and_class.1 c10Wiring ⟨fun _ => []⟩ 1 ["A"] [4] c10Res rfl,
   by decide⟩

/-- **C8.**  `createContainerFactory` expands pending base wiring adjusters and
validates the type eagerly: a callable is returned only for a valid type whose key
exists after expansion (capturing the expanded private clone, the type and the factory
arguments), an invalid type rejects immediately, and a type unknown after expansion
rejects with the not-found error before any callable exists.  Each invocation of the
callable re-clones the captured wiring afresh and runs the full creation sequence with
adjuster arguments `factoryArgs ++ callerArgs`, so no expansion state is shared
between invocations. -/
theorem c8_factory_eager_and_fresh :
    (∀ (w : Wiring) (env : Env) (fuel : Nat) (T : Key) (fargs : List Nat)
      (f : ContainerFactory),
      (w.createContainerFactory env fuel T fargs).1 = some (.ok f) →
      isValidContainerType T = true ∧
      ∃ w1 blog, gather env rootKey false fuel w.clone = some (w1, blog) ∧
        f.capturedWiring = w1 ∧ f.containerType = T ∧ f.factoryArgs = fargs ∧
        (w1.containerAdjusters.find? (dotted T)).isSome = true) ∧
    (∀ (env : Env) (fuel : Nat) (f : ContainerFactory) (cargs : List Nat),
      f.invoke env fuel cargs =
        createContainerCore env fuel f.capturedWiring.clone f.containerType
          (f.factoryArgs ++ cargs)) ∧
    (∀ (w : Wiring) (env : Env) (fuel : Nat) (T : Key) (fargs : List Nat),
      isValidContainerType T = false →
      (w.createContainerFactory env fuel T fargs).1 = some (.error .invalidType)) ∧
    (∀ (w : Wiring) (env : Env) (fuel : Nat) (T : Key) (fargs : List Nat)
      (w1 : Wiring) (blog : List (Adjuster × Bool)),
      isValidContainerType T = true →
      gather env rootKey false fuel w.clone = some (w1, blog) →
      w1.containerAdjusters.find? (dotted T) = none →
      (w.createContainerFactory env fuel T fargs).1 = some (.error .unknownType)) := by
  refine ⟨?_, fun env fuel f cargs => rfl, ?_, ?_⟩
  · intro w env fuel T fargs f hok
    by_cases hv : isValidContainerType T
    · refine ⟨hv, ?_⟩
      rw [Wiring.createContainerFactory, if_pos hv] at hok
      unfold createContainerFactoryCore at hok
      cases hg0 : gather env rootKey false fuel w.clone with
      | none => simp only [hg0] at hok; cases hok
      | some p =>
        obtain ⟨w1, blog⟩ := p
        simp only [hg0] at hok
        cases hfind : w1.containerAdjusters.find? (dotted T) with
        | none => simp only [hfind] at hok; cases hok
        | some l0 =>
          simp only [hfind, Option.some.injEq, Except.ok.injEq] at hok
          subst hok
          exact ⟨w1, blog, rfl, rfl, rfl, rfl, by rw [hfind]; rfl⟩
    · rw [Wiring.createContainerFactory, if_neg hv] at hok
      simp at hok
  · intro w env fuel T fargs hv
    rw [Wiring.createContainerFactory, if_neg (by simp [hv])]
  · intro w env fuel T fargs w1 blog hv hg hfind
    rw [Wiring.createContainerFactory, if_pos hv]
    unfold createContainerFactoryCore
    simp only [hg, hfind]

/-- A wiring with the single container adjuster 1 for type `A`. -/
def c8Wiring : Wiring := runOps (Wiring.empty 0) [.adjContainer ["A"] 1]

/-- The factory callable obtained for type `A` with factory argument 8. -/
def c8Fac : ContainerFactory :=
  match (c8Wiring.createContainerFactory ⟨fun _ => []⟩ 1 ["A"] [8]).1 with
  | some (.ok f) => f
  | _ => ⟨Wiring.empty 0, [], []⟩

/-- The base-expansion outcome on `c8Wiring`'s private clone. -/
def c8Base : Wiring × List (Adjuster × Bool) :=
  (gather ⟨fun _ => []⟩ rootKey false 1 c8Wiring.clone).getD (Wiring.empty 0, [])

theorem c8_factory_eager_and_fresh_witness :
    (c8Wiring.createContainerFactory ⟨fun _ => []⟩ 1 ["A"] [8]).1 = some (.ok c8Fac) ∧
    (isValidContainerType ["A"] = true ∧
     ∃ w1 blog, gather ⟨fun _ => []⟩ rootKey false 1 c8Wiring.clone = some (w1, blog) ∧
       c8Fac.capturedWiring = w1 ∧ c8Fac.containerType = ["A"] ∧
       c8Fac.factoryArgs = [8] ∧
       (w1.containerAdjusters.find? (dotted ["A"])).isSome = true) ∧
    (c8Fac.invoke ⟨fun _ => []⟩ 1 [9] =
      createContainerCore ⟨fun _ => []⟩ 1 c8Fac.capturedWiring.clone
        c8Fac.containerType (c8Fac.factoryArgs ++ [9])) ∧
    isValidContainerType ["B"] = true ∧
    c8Base.1.containerAdjusters.find? (dotted ["B"]) = none ∧
    (c8Wiring.createContainerFactory ⟨fun _ => []⟩ 1 ["B"] [8]).1 =
      some (.error .unknownType) :=
  ⟨rfl,
   c8_factory_eager_and_fresh.1 c8Wiring ⟨fun _ => []⟩ 1 ["A"] [8] c8Fac rfl,
   c8_factory_eager_and_fresh.2.1 ⟨fun _ => []⟩ 1 c8Fac [9],
   by decide,
   by decide,
   c8_factory_eager_and_fresh.2.2.2 c8Wiring ⟨fun _ => []⟩ 1 ["B"] [8] c8Base.1 c8Base.2 (by decide)
     rfl (by decide)⟩

/-! ## Claim C5: after-creation wiring-adjuster expansion -/

/-- The wiring adjuster `a` has been resolved on `w`: the supplied-wiring map holds an
actual wiring (not `null`) for it. -/
def Wiring.isResolved (w : Wiring) (a : Adjuster) : Prop :=
  ∃ sw, w.supplied.get a = some (some sw)

/-- The callback fold never changes an existing supplied-map entry. -/
theorem callbackFold_supplied_preserve (ws : List Wiring) (st : Wiring × Wiring)
    (a : Adjuster) (v : Option Wiring) (h : st.1.supplied.get a = some v) :
    ((ws.foldl wiringAdjusterCallback st).1).supplied.get a = some v := by
  induction ws generalizing st with
  | nil => exact h
  | cons w' rest ih =>
    rw [List.foldl_cons]
    apply ih
    show (addSuppliedWiring st.1.supplied w'.supplied).get a = some v
    exact addSuppliedWiring_get_of_some _ _ _ _ h

/-- The callback fold only appends to an existing pending list. -/
theorem callbackFold_wa_extends (ws : List Wiring) (st : Wiring × Wiring) (key : Key)
    (l0 : AdjList) (h : st.1.wiringAdjusters.find? key = some l0) :
    ∃ l, ((ws.foldl wiringAdjusterCallback st).1).wiringAdjusters.find? key = some l ∧
      l0 <+: l := by
  induction ws generalizing st l0 with
  | nil => exact ⟨l0, h, List.prefix_refl l0⟩
  | cons w' rest ih =>
    rw [List.foldl_cons]
    obtain ⟨l1, h1, hp1⟩ := addAdjusters_extends st.1.wiringAdjusters
      w'.wiringAdjusters key l0 h
    obtain ⟨l2, h2, hp2⟩ := ih (wiringAdjusterCallback st w') l1 h1
    exact ⟨l2, h2, hp1.trans hp2⟩

/-- The behaviour of one `_gatherWiringSuppliedByWiringAdjusters` consume loop:
the invocation log grows by one entry per wiring adjuster actually invoked, each
carrying the context flag of the call; an invoked adjuster was unresolved when the
loop started and is resolved when it ends; resolutions are never overwritten; a
pending adjuster whose supplied entry is `null` is invoked (it cannot be resolved by
adoption); and no adjuster is invoked twice. -/
theorem gatherLoop_spec (env : Env) (key : Key) (hasCtx : Bool) :
    ∀ (fuel : Nat) (w : Wiring) (log : List (Adjuster × Bool))
      (out : Wiring × List (Adjuster × Bool)),
      gatherLoop env key hasCtx fuel w log = some out →
      ∃ extra,
        out.2 = log ++ extra ∧
        (∀ p ∈ extra, p.2 = hasCtx) ∧
        (∀ p ∈ extra, ¬ w.isResolved p.1) ∧
        (∀ p ∈ extra, out.1.isResolved p.1) ∧
        (∀ a v, w.supplied.get a = some (some v) →
          out.1.supplied.get a = some (some v)) ∧
        (∀ a, w.supplied.get a = some none →
          out.1.supplied.get a = some none ∨ (a, hasCtx) ∈ extra) ∧
        (∀ a ∈ (w.wiringAdjusters.find? key).getD [], w.supplied.get a = some none →
          (a, hasCtx) ∈ extra) ∧
        (extra.map Prod.fst).Nodup := by
  intro fuel
  induction fuel with
  | zero =>
    intro w log out hrun
    rw [gatherLoop] at hrun
    cases hf : w.wiringAdjusters.find? key with
    | none =>
      simp only [hf, Option.getD_none] at hrun
      injection hrun with hrun
      subst hrun
      exact ⟨[], by simp, by simp, by simp, by simp, fun a v h => h,
        fun a h => Or.inl h, by simp, by simp⟩
    | some l =>
      simp only [hf, Option.getD_some] at hrun
      cases l with
      | nil =>
        injection hrun with hrun
        subst hrun
        exact ⟨[], by simp, by simp, by simp, by simp, fun a v h => h,
          fun a h => Or.inl h, by simp, by simp⟩
      | cons wa rest => simp at hrun
  | succ fl ih =>
    intro w log out hrun
    rw [gatherLoop] at hrun
    cases hfk : w.wiringAdjusters.find? key with
    | none =>
      simp only [hfk, Option.getD_none] at hrun
      injection hrun with hrun
      subst hrun
      exact ⟨[], by simp, by simp, by simp, by simp, fun a v h => h,
        fun a h => Or.inl h, by simp, by simp⟩
    | some l =>
      simp only [hfk, Option.getD_some] at hrun
      cases l with
      | nil =>
        injection hrun with hrun
        subst hrun
        exact ⟨[], by simp, by simp, by simp, by simp, fun a v h => h,
          fun a h => Or.inl h, by simp, by simp⟩
      | cons wa rest =>
        simp only at hrun
        set w1 := w.setWiringAdjusters (w.wiringAdjusters.set key rest) with hw1def
        cases hget : w1.supplied.get wa with
        | some v =>
          cases v with
          | some sw =>
            simp only [hget] at hrun
            obtain ⟨extra2, ih1, ih2, ih3, ih4, ih5, ih6, ih7, ih8⟩ :=
              ih _ log out hrun
            refine ⟨extra2, ih1, ih2, ih3, ih4, ih5, ih6, ?_, ih8⟩
            intro a ha hv
            rw [Option.getD_some] at ha
            have hane : a ≠ wa := by
              rintro rfl
              have h0 : w1.supplied.get a = some none := hv
              rw [hget] at h0
              simp at h0
            have harest : a ∈ rest := by
              rcases List.mem_cons.mp ha with h | h
              · exact absurd h hane
              · exact h
            refine ih7 a ?_ hv
            rw [show w1.wiringAdjusters.find? key = some rest from
              Coll.find?_set_self _ _ _, Option.getD_some]
            exact harest
          | none =>
            simp only [hget] at hrun
            set w2 := w1.setSupplied (w1.supplied.set wa (some (Wiring.empty 0)))
              with hw2def
            set p := (env.script wa).foldl wiringAdjusterCallback (w2, Wiring.empty 0)
              with hpdef
            obtain ⟨lext, hlext, hlpre⟩ := callbackFold_wa_extends (env.script wa)
              (w2, Wiring.empty 0) key rest (by
                show (w.wiringAdjusters.set key rest).find? key = some rest
                exact Coll.find?_set_self _ _ _)
            rw [← hpdef] at hlext
            obtain ⟨extra2, ih1, ih2, ih3, ih4, ih5, ih6, ih7, ih8⟩ :=
              ih _ (log ++ [(wa, hasCtx)]) out hrun
            have hf1 : ∀ a v, a ≠ wa → w.supplied.get a = some v →
                (p.1.supplied.set wa (some (p.2.setContainerAdjusters
                  (List.foldl ensureContainerTypeExists p.2.containerAdjusters
                    (List.foldl ensureContainerTypeExists p.1.containerAdjusters
                      p.2.containerAdjusters.keys).keys)))).get a = some v := by
              intro a v hne hv
              rw [SuppliedMap.get_set_ne _ _ _ _ hne]
              apply callbackFold_supplied_preserve (env.script wa) (w2, Wiring.empty 0)
              show (w1.supplied.set wa (some (Wiring.empty 0))).get a = some v
              rw [SuppliedMap.get_set_ne _ _ _ _ hne]
              exact hv
            have hfwa : ∀ a, a = wa → (p.1.supplied.set wa (some
                (p.2.setContainerAdjusters
                  (List.foldl ensureContainerTypeExists p.2.containerAdjusters
                    (List.foldl ensureContainerTypeExists p.1.containerAdjusters
                      p.2.containerAdjusters.keys).keys)))).get a =
                some (some (p.2.setContainerAdjusters
                  (List.foldl ensureContainerTypeExists p.2.containerAdjusters
                    (List.foldl ensureContainerTypeExists p.1.containerAdjusters
                      p.2.containerAdjusters.keys).keys)) ) := by
              intro a ha
              subst ha
              exact SuppliedMap.get_set_self _ _ _
            have hwnotres : ¬ w.isResolved wa := by
              rintro ⟨sw, hsw⟩
              have h0 : w1.supplied.get wa = some (some sw) := hsw
              rw [hget] at h0
              simp at h0
            refine ⟨(wa, hasCtx) :: extra2, ?_, ?_, ?_, ?_, ?_, ?_, ?_, ?_⟩
            · rw [ih1]; simp
            · intro q hq
              rcases List.mem_cons.mp hq with rfl | hq'
              · rfl
              · exact ih2 q hq'
            · intro q hq
              rcases List.mem_cons.mp hq with rfl | hq'
              · exact hwnotres
              · rintro ⟨sw, hsw⟩
                apply ih3 q hq'
                by_cases hqa : q.1 = wa
                · exact ⟨_, hfwa q.1 hqa⟩
                · exact ⟨sw, hf1 q.1 (some sw) hqa hsw⟩
            · intro q hq
              rcases List.mem_cons.mp hq with rfl | hq'
              · exact ⟨_, ih5 wa _ (hfwa wa rfl)⟩
              · exact ih4 q hq'
            · intro a v hv
              have hane : a ≠ wa := by
                rintro rfl
                have h0 : w1.supplied.get a = some (some v) := hv
                rw [hget] at h0
                simp at h0
              exact ih5 a v (hf1 a (some v) hane hv)
            · intro a hv
              by_cases hane : a = wa
              · exact Or.inr (hane ▸ List.mem_cons_self _ _)
              · rcases ih6 a (hf1 a none hane hv) with h | h
                · exact Or.inl h
                · exact Or.inr (List.mem_cons_of_mem _ h)
            · intro a ha hv
              rw [Option.getD_some] at ha
              by_cases hane : a = wa
              · exact hane ▸ List.mem_cons_self _ _
              · have harest : a ∈ rest := by
                  rcases List.mem_cons.mp ha with h | h
                  · exact absurd h hane
                  · exact h
                refine List.mem_cons_of_mem _ (ih7 a ?_ (hf1 a none hane hv))
                show a ∈ (p.1.wiringAdjusters.find? key).getD []
                rw [hlext, Option.getD_some]
                exact hlpre.subset harest
            · simp only [List.map_cons]
              rw [List.nodup_cons]
              constructor
              · intro hmem
                rcases List.mem_map.mp hmem with ⟨q, hq, hq1⟩
                exact ih3 q hq ⟨_, hfwa q.1 hq1⟩
              · exact ih8
        | none =>
          simp only [hget] at hrun
          set w2 := w1.setSupplied (w1.supplied.set wa (some (Wiring.empty 0)))
            with hw2def
          set p := (env.script wa).foldl wiringAdjusterCallback (w2, Wiring.empty 0)
            with hpdef
          obtain ⟨lext, hlext, hlpre⟩ := callbackFold_wa_extends (env.script wa)
            (w2, Wiring.empty 0) key rest (by
              show (w.wiringAdjusters.set key rest).find? key = some rest
              exact Coll.find?_set_self _ _ _)
          rw [← hpdef] at hlext
          obtain ⟨extra2, ih1, ih2, ih3, ih4, ih5, ih6, ih7, ih8⟩ :=
            ih _ (log ++ [(wa, hasCtx)]) out hrun
          have hf1 : ∀ a v, a ≠ wa → w.supplied.get a = some v →
              (p.1.supplied.set wa (some (p.2.setContainerAdjusters
                (List.foldl ensureContainerTypeExists p.2.containerAdjusters
                  (List.foldl ensureContainerTypeExists p.1.containerAdjusters
                    p.2.containerAdjusters.keys).keys)))).get a = some v := by
            intro a v hne hv
            rw [SuppliedMap.get_set_ne _ _ _ _ hne]
            apply callbackFold_supplied_preserve (env.script wa) (w2, Wiring.empty 0)
            show (w1.supplied.set wa (some (Wiring.empty 0))).get a = some v
            rw [SuppliedMap.get_set_ne _ _ _ _ hne]
            exact hv
          have hfwa : ∀ a, a = wa → (p.1.supplied.set wa (some
              (p.2.setContainerAdjusters
                (List.foldl ensureContainerTypeExists p.2.containerAdjusters
                  (List.foldl ensureContainerTypeExists p.1.containerAdjusters
                    p.2.containerAdjusters.keys).keys)))).get a =
              some (some (p.2.setContainerAdjusters
                (List.foldl ensureContainerTypeExists p.2.containerAdjusters
                  (List.foldl ensureContainerTypeExists p.1.containerAdjusters
                    p.2.containerAdjusters.keys).keys)) ) := by
            intro a ha
            subst ha
            exact SuppliedMap.get_set_self _ _ _
          have hwnotres : ¬ w.isResolved wa := by
            rintro ⟨sw, hsw⟩
            have h0 : w1.supplied.get wa = some (some sw) := hsw
            rw [hget] at h0
            simp at h0
          refine ⟨(wa, hasCtx) :: extra2, ?_, ?_, ?_, ?_, ?_, ?_, ?_, ?_⟩
          · rw [ih1]; simp
          · intro q hq
            rcases List.mem_cons.mp hq with rfl | hq'
            · rfl
            · exact ih2 q hq'
          · intro q hq
            rcases List.mem_cons.mp hq with rfl | hq'
            · exact hwnotres
            · rintro ⟨sw, hsw⟩
              apply ih3 q hq'
              by_cases hqa : q.1 = wa
              · exact ⟨_, hfwa q.1 hqa⟩
              · exact ⟨sw, hf1 q.1 (some sw) hqa hsw⟩
          · intro q hq
            rcases List.mem_cons.mp hq with rfl | hq'
            · exact ⟨_, ih5 wa _ (hfwa wa rfl)⟩
            · exact ih4 q hq'
          · intro a v hv
            have hane : a ≠ wa := by
              rintro rfl
              have h0 : w1.supplied.get a = some (some v) := hv
              rw [hget] at h0
              simp at h0
            exact ih5 a v (hf1 a (some v) hane hv)
          · intro a hv
            by_cases hane : a = wa
            · exact Or.inr (hane ▸ List.mem_cons_self _ _)
            · rcases ih6 a (hf1 a none hane hv) with h | h
              · exact Or.inl h
              · exact Or.inr (List.mem_cons_of_mem _ h)
          · intro a ha hv
            rw [Option.getD_some] at ha
            by_cases hane : a = wa
            · exact hane ▸ List.mem_cons_self _ _
            · have harest : a ∈ rest := by
                rcases List.mem_cons.mp ha with h | h
                · exact absurd h hane
                · exact h
              refine List.mem_cons_of_mem _ (ih7 a ?_ (hf1 a none hane hv))
              show a ∈ (p.1.wiringAdjusters.find? key).getD []
              rw [hlext, Option.getD_some]
              exact hlpre.subset harest
          · simp only [List.map_cons]
            rw [List.nodup_cons]
            constructor
            · intro hmem
              rcases List.mem_map.mp hmem with ⟨q, hq, hq1⟩
              exact ih3 q hq ⟨_, hfwa q.1 hq1⟩
            · exact ih8

/-- `gatherLoop_spec` lifted to `_gatherWiringSuppliedByWiringAdjusters` itself. -/
theorem gather_spec (env : Env) (key : Key) (hasCtx : Bool) (fuel : Nat) (w : Wiring)
    (out : Wiring × List (Adjuster × Bool)) (h : gather env key hasCtx fuel w = some out) :
    (∀ p ∈ out.2, p.2 = hasCtx) ∧
    (∀ p ∈ out.2, ¬ w.isResolved p.1) ∧
    (∀ p ∈ out.2, out.1.isResolved p.1) ∧
    (∀ a v, w.supplied.get a = some (some v) → out.1.supplied.get a = some (some v)) ∧
    (∀ a, w.supplied.get a = some none →
      out.1.supplied.get a = some none ∨ (a, hasCtx) ∈ out.2) ∧
    (∀ a ∈ (w.wiringAdjusters.find? key).getD [], w.supplied.get a = some none →
      (a, hasCtx) ∈ out.2) ∧
    (out.2.map Prod.fst).Nodup := by
  unfold gather at h
  cases hf : w.wiringAdjusters.find? key with
  | none =>
    rw [hf] at h
    injection h with h
    subst h
    exact ⟨by simp, by simp, by simp, fun a v hv => hv, fun a hv => Or.inl hv,
      by simp, by simp⟩
  | some l =>
    rw [hf] at h
    obtain ⟨extra, h1, h2, h3, h4, h5, h6, h7, h8⟩ :=
      gatherLoop_spec env key hasCtx fuel w [] out h
    rw [List.nil_append] at h1
    subst h1
    rw [hf] at h7
    exact ⟨h2, h3, h4, h5, h6, h7, h8⟩

/-- **C5.**  On a successful `createContainer(T)` call: the public instance is left
untouched (supplied container adjusters can affect neither it nor independent sibling
creations, which clone it afresh); every entry of the after-creation expansion log
carries the context flag `true` (the just-created container was passed as context);
no wiring adjuster is invoked twice; relative to the private working wiring after base
expansion, every invoked adjuster was unresolved and every pending adjuster for the
created type's scope whose supplied entry is `null` (a direct `adjustWiringAfter`
registration not resolvable by adoption) is invoked; all invoked adjusters are
resolved on the container's own wiring; and a later expansion along that same private
instance (an ensuing container) never re-invokes any of them. -/
theorem c5_after_creation_expansion (w : Wiring) (env : Env) (fuel : Nat) (T : Key) (args : List Nat)
    (res : CreateResult)
    (hok : (w.createContainer env fuel T args).1 = some (.ok res)) :
    (w.createContainer env fuel T args).2 = w ∧
    (∀ p ∈ res.afterLog, p.2 = true) ∧
    (res.afterLog.map Prod.fst).Nodup ∧
    (∀ (w1 : Wiring) (blog : List (Adjuster × Bool)),
      gather env rootKey false fuel w.clone = some (w1, blog) →
      (∀ p ∈ res.afterLog, ¬ w1.isResolved p.1) ∧
      (∀ a ∈ (w1.wiringAdjusters.find? T).getD [], w1.supplied.get a = some none →
        (a, true) ∈ res.afterLog) ∧
      (∀ p ∈ res.afterLog, res.container.wiring.isResolved p.1)) ∧
    (∀ (T' : Key) (hasCtx' : Bool) (fuel' : Nat)
      (out' : Wiring × List (Adjuster × Bool)),
      gather env T' hasCtx' fuel' res.container.wiring = some out' →
      ∀ p ∈ res.afterLog, ∀ q ∈ out'.2, q.1 ≠ p.1) := by
  have hpub : (w.createContainer env fuel T args).2 = w := by
    unfold Wiring.createContainer
    by_cases hv : isValidContainerType T
    · rw [if_pos hv]
    · rw [if_neg hv]
  by_cases hv : isValidContainerType T
  · rw [Wiring.createContainer, if_pos hv] at hok
    unfold createContainerCore at hok
    cases hg0 : gather env rootKey false fuel w.clone with
    | none => simp only [hg0] at hok; cases hok
    | some p =>
      obtain ⟨w1, blog⟩ := p
      simp only [hg0] at hok
      cases hfind : w1.containerAdjusters.find? (dotted T) with
      | none => simp only [hfind] at hok; cases hok
      | some l0 =>
        simp only [hfind] at hok
        cases hflat : getFlattenedContainerAdjusters w1.supplied fuel
            w1.containerAdjusters (dotted T) with
        | none => simp only [hflat] at hok; cases hok
        | some raw0 =>
          simp only [hflat] at hok
          cases hafter : gather env T true fuel w1 with
          | none => simp only [hafter] at hok; cases hok
          | some p2 =>
            obtain ⟨w2, alog⟩ := p2
            obtain ⟨s1, s2, s3, s4, s5, s6, s7⟩ :=
              gather_spec env T true fuel w1 (w2, alog) hafter
            simp only [hafter, Option.some.injEq, Except.ok.injEq] at hok
            subst hok
            refine ⟨hpub, s1, s7, ?_, ?_⟩
            · intro w1b blogb hgb
              injection hgb with hgb
              cases hgb
              exact ⟨s2, s6, s3⟩
            · intro T2 hasCtx2 fuel2 out2 hg2 q hq r hr
              obtain ⟨t1, t2, t3, t4, t5, t6, t7⟩ :=
                gather_spec env T2 hasCtx2 fuel2 _ out2 hg2
              intro heq
              exact t2 r hr (heq ▸ s3 q hq)
  · rw [Wiring.createContainer, if_neg hv] at hok
    simp at hok

/-- Wiring adjuster 9 supplies a wiring registering container adjuster 2 for `A`. -/
def c5Env : Env :=
  ⟨fun a => if a = 9 then [runOps (Wiring.empty 0) [.adjContainer ["A"] 2]] else []⟩

/-- Container adjuster 1 and after-`A` wiring adjuster 9. -/
def c5W : Wiring :=
  runOps (Wiring.empty 0) [.adjContainer ["A"] 1, .adjWiringAfter ["A"] 9]

/-- The creation result: adjuster 1 applied, adjuster 9 expanded with context. -/
def c5Res : CreateResult :=
  match (c5W.createContainer c5Env 2 ["A"] []).1 with
  | some (.ok r) => r
  | _ => ⟨⟨[], Wiring.empty 0⟩, [], [], []⟩

theorem c5_after_creation_expansion_witness :
    (c5W.createContainer c5Env 2 ["A"] []).1 = some (.ok c5Res) ∧
    c5Res.afterLog = [(9, true)] ∧
    ((c5W.createContainer c5Env 2 ["A"] []).2 = c5W ∧
     (∀ p ∈ c5Res.afterLog, p.2 = true) ∧
     (c5Res.afterLog.map Prod.fst).Nodup ∧
     (∀ (w1 : Wiring) (blog : List (Adjuster × Bool)),
       gather c5Env rootKey false 2 c5W.clone = some (w1, blog) →
       (∀ p ∈ c5Res.afterLog, ¬ w1.isResolved p.1) ∧
       (∀ a ∈ (w1.wiringAdjusters.find? ["A"]).getD [],
         w1.supplied.get a = some none → (a, true) ∈ c5Res.afterLog) ∧
       (∀ p ∈ c5Res.afterLog, c5Res.container.wiring.isResolved p.1)) ∧
     (∀ (T2 : Key) (hasCtx2 : Bool) (fuel2 : Nat)
       (out2 : Wiring × List (Adjuster × Bool)),
       gather c5Env T2 hasCtx2 fuel2 c5Res.container.wiring = some out2 →
       ∀ p ∈ c5Res.afterLog, ∀ q ∈ out2.2, q.1 ≠ p.1)) :=
  ⟨rfl, by decide, c5_after_creation_expansion c5W c5Env 2 ["A"] [] c5Res rfl⟩

/-! ## Claim C9: resolution marking and termination of the consume loop -/

/-- Boolean form of `Wiring.isResolved`. -/
def isResolvedB (w : Wiring) (a : Adjuster) : Bool :=
  match w.supplied.get a with
  | some (some _) => true
  | _ => false

theorem isResolvedB_iff (w : Wiring) (a : Adjuster) :
    isResolvedB w a = true ↔ w.isResolved a := by
  unfold isResolvedB Wiring.isResolved
  cases h : w.supplied.get a with
  | none => simp
  | some v =>
    cases v with
    | none => simp
    | some sw => simp

/-- The pending wiring-adjuster list of a scope key. -/
def pendingList (w : Wiring) (key : Key) : AdjList :=
  (w.wiringAdjusters.find? key).getD []

/-- The total number of wiring-adjuster entries stored in a wiring, over all scopes:
an upper bound on how many elements merging it can append to any one pending list. -/
def waSize (w' : Wiring) : Nat :=
  (w'.wiringAdjusters.map (fun p => p.2.length)).sum

/-- The total size of the wirings a wiring adjuster supplies. -/
def scriptCost (env : Env) (a : Adjuster) : Nat :=
  ((env.script a).map waSize).sum

/-- The budget of the not-yet-resolved reachable adjusters: one loop iteration each,
plus the pending-list growth their expansion can cause. -/
def unresolvedCost (env : Env) (S : Finset Adjuster) (w : Wiring) : Nat :=
  (S.filter (fun a => isResolvedB w a = false)).sum (fun a => 1 + scriptCost env a)

/-- The termination measure of the gather loop. -/
def gatherMeasure (env : Env) (S : Finset Adjuster) (key : Key) (w : Wiring) : Nat :=
  (pendingList w key).length + unresolvedCost env S w

theorem gatherLoop_nil_pending (env : Env) (key : Key) (hasCtx : Bool) (fuel : Nat)
    (w : Wiring) (log : List (Adjuster × Bool)) (h : pendingList w key = []) :
    gatherLoop env key hasCtx fuel w log = some (w, log) := by
  rw [gatherLoop]
  rw [show (w.wiringAdjusters.find? key).getD [] = [] from h]

theorem gatherLoop_cons_pending (env : Env) (key : Key) (hasCtx : Bool) (fuel : Nat)
    (w : Wiring) (log : List (Adjuster × Bool)) (wa : Adjuster) (rest : AdjList)
    (h : pendingList w key = wa :: rest) :
    gatherLoop env key hasCtx (fuel + 1) w log =
      (let w1 := w.setWiringAdjusters (w.wiringAdjusters.set key rest)
      match w1.supplied.get wa with
      | some (some _) => gatherLoop env key hasCtx fuel w1 log
      | _ =>
        let w2 := w1.setSupplied (w1.supplied.set wa (some (Wiring.empty 0)))
        let p := (env.script wa).foldl wiringAdjusterCallback (w2, Wiring.empty 0)
        let caSynced := p.2.containerAdjusters.keys.foldl ensureContainerTypeExists
          p.1.containerAdjusters
        let swSynced := p.2.setContainerAdjusters
          (caSynced.keys.foldl ensureContainerTypeExists p.2.containerAdjusters)
        let w3 := ((p.1.setContainerAdjusters caSynced).setSupplied
          (p.1.supplied.set wa (some swSynced)))
        gatherLoop env key hasCtx fuel w3 (log ++ [(wa, hasCtx)])) := by
  rw [gatherLoop]
  rw [show (w.wiringAdjusters.find? key).getD [] = wa :: rest from h]

theorem addAdjustersEntry_key_growth (c src : Coll) (e : Key × AdjList) (key : Key)
    (l0 : AdjList) (h : c.find? key = some l0) :
    ∃ l, (addAdjustersEntry c src e).find? key = some l ∧
      l.length ≤ l0.length + e.2.length ∧ ∀ b ∈ l, b ∈ l0 ∨ b ∈ e.2 := by
  rw [addAdjustersEntry_find?]
  have hens : (ensureContainerTypeExists c e.1).find? key = some l0 := by
    by_cases hke : key = e.1
    · subst hke
      rw [ensureContainerTypeExists_find?_self, h]
      rfl
    · rw [ensureContainerTypeExists_find?_ne _ _ _ hke]
      exact h
  rw [hens, Option.map_some']
  by_cases hke : key = e.1
  · rw [if_pos hke]
    exact ⟨l0 ++ e.2, rfl, by simp, fun b hb => List.mem_append.mp hb⟩
  · rw [if_neg hke]
    by_cases hcond : (isStrictAncestor e.1 key && (src.find? key).isNone : Bool) = true
    · rw [if_pos hcond]
      exact ⟨l0 ++ e.2, rfl, by simp, fun b hb => List.mem_append.mp hb⟩
    · rw [if_neg hcond]
      exact ⟨l0, rfl, by simp, fun b hb => Or.inl hb⟩

theorem addAdjustersFold_key_growth (src0 : Coll) (key : Key) :
    ∀ (entries : List (Key × AdjList)) (c : Coll) (l0 : AdjList),
      c.find? key = some l0 →
      ∃ l, ((entries.foldl (fun c e => addAdjustersEntry c src0 e) c).find? key)
          = some l ∧
        l.length ≤ l0.length + (entries.map (fun e => e.2.length)).sum ∧
        ∀ b ∈ l, b ∈ l0 ∨ ∃ e ∈ entries, b ∈ e.2 := by
  intro entries
  induction entries with
  | nil =>
    intro c l0 h
    exact ⟨l0, h, by simp, fun b hb => Or.inl hb⟩
  | cons e rest ih =>
    intro c l0 h
    obtain ⟨l1, h1, hlen1, hmem1⟩ := addAdjustersEntry_key_growth c src0 e key l0 h
    obtain ⟨l2, h2, hlen2, hmem2⟩ := ih (addAdjustersEntry c src0 e) l1 h1
    refine ⟨l2, h2, ?_, ?_⟩
    · simp only [List.map_cons, List.sum_cons]
      omega
    · intro b hb
      rcases hmem2 b hb with hb1 | ⟨e2, he2, hbe2⟩
      · rcases hmem1 b hb1 with hb0 | hbe
        · exact Or.inl hb0
        · exact Or.inr ⟨e, List.mem_cons_self _ _, hbe⟩
      · exact Or.inr ⟨e2, List.mem_cons_of_mem _ he2, hbe2⟩

theorem addAdjusters_key_growth (c src : Coll) (key : Key) (l0 : AdjList)
    (h : c.find? key = some l0) :
    ∃ l, (addAdjusters c src).find? key = some l ∧
      l.length ≤ l0.length + (src.map (fun e => e.2.length)).sum ∧
      ∀ b ∈ l, b ∈ l0 ∨ ∃ e ∈ src, b ∈ e.2 :=
  addAdjustersFold_key_growth src key src c l0 h

theorem callbackFold_key_growth (key : Key) :
    ∀ (ws : List Wiring) (st : Wiring × Wiring) (l0 : AdjList),
      st.1.wiringAdjusters.find? key = some l0 →
      ∃ l, ((ws.foldl wiringAdjusterCallback st).1).wiringAdjusters.find? key = some l ∧
        l.length ≤ l0.length + (ws.map waSize).sum ∧
        ∀ b ∈ l, b ∈ l0 ∨ ∃ w' ∈ ws, ∃ p ∈ w'.wiringAdjusters, b ∈ p.2 := by
  intro ws
  induction ws with
  | nil =>
    intro st l0 h
    exact ⟨l0, h, by simp, fun b hb => Or.inl hb⟩
  | cons w' rest ih =>
    intro st l0 h
    obtain ⟨l1, h1, hlen1, hmem1⟩ := addAdjusters_key_growth st.1.wiringAdjusters
      w'.wiringAdjusters key l0 h
    obtain ⟨l2, h2, hlen2, hmem2⟩ := ih (wiringAdjusterCallback st w') l1 h1
    refine ⟨l2, h2, ?_, ?_⟩
    · simp only [List.map_cons, List.sum_cons]
      have : waSize w' = (w'.wiringAdjusters.map (fun e => e.2.length)).sum := rfl
      omega
    · intro b hb
      rcases hmem2 b hb with hb1 | ⟨w2, hw2, hp⟩
      · rcases hmem1 b hb1 with hb0 | ⟨e, he, hbe⟩
        · exact Or.inl hb0
        · exact Or.inr ⟨w', List.mem_cons_self _ _, e, he, hbe⟩
      · exact Or.inr ⟨w2, List.mem_cons_of_mem _ hw2, hp⟩

/-- The consume loop terminates whenever the reachable wiring-adjuster identities are
finite: the pending-list length plus the budget of unresolved reachable adjusters
strictly decreases every iteration, even though expansion may append to the list. -/
theorem gatherLoop_terminates (env : Env) (key : Key) (hasCtx : Bool)
    (S : Finset Adjuster)
    (hclosed : ∀ a ∈ S, ∀ w' ∈ env.script a, ∀ p ∈ w'.wiringAdjusters, ∀ b ∈ p.2,
      b ∈ S) :
    ∀ (fuel : Nat) (w : Wiring) (log : List (Adjuster × Bool)),
      (∀ a ∈ pendingList w key, a ∈ S) →
      gatherMeasure env S key w ≤ fuel →
      ∃ out, gatherLoop env key hasCtx fuel w log = some out := by
  intro fuel
  induction fuel with
  | zero =>
    intro w log hsub hm
    have hp : pendingList w key = [] := by
      have h0 : (pendingList w key).length = 0 := by
        unfold gatherMeasure at hm
        omega
      exact List.length_eq_zero.mp h0
    exact ⟨(w, log), gatherLoop_nil_pending env key hasCtx 0 w log hp⟩
  | succ fl ih =>
    intro w log hsub hm
    cases hp : pendingList w key with
    | nil => exact ⟨(w, log), gatherLoop_nil_pending env key hasCtx _ w log hp⟩
    | cons wa rest =>
      rw [gatherLoop_cons_pending env key hasCtx fl w log wa rest hp]
      have hwaS : wa ∈ S := hsub wa (by rw [hp]; exact List.mem_cons_self _ _)
      have hrestS : ∀ a ∈ rest, a ∈ S := fun a ha =>
        hsub a (by rw [hp]; exact List.mem_cons_of_mem _ ha)
      set w1 := w.setWiringAdjusters (w.wiringAdjusters.set key rest) with hw1def
      cases hget : w1.supplied.get wa with
      | some v =>
        cases v with
        | some sw =>
          simp only [hget]
          apply ih
          · intro a ha
            apply hrestS
            have hpw1 : pendingList w1 key = rest := by
              show ((w.wiringAdjusters.set key rest).find? key).getD [] = rest
              rw [Coll.find?_set_self]
              rfl
            rwa [hpw1] at ha
          · have hue : unresolvedCost env S w1 = unresolvedCost env S w := rfl
            unfold gatherMeasure at hm ⊢
            have hpw1 : pendingList w1 key = rest := by
              show ((w.wiringAdjusters.set key rest).find? key).getD [] = rest
              rw [Coll.find?_set_self]
              rfl
            rw [hpw1, hue]
            rw [hp] at hm
            simp only [List.length_cons] at hm
            omega
        | none =>
          simp only [hget]
          obtain ⟨lext, hlex, hlen, hmem⟩ := callbackFold_key_growth key
            (env.script wa) (w1.setSupplied (w1.supplied.set wa (some (Wiring.empty 0))),
              Wiring.empty 0) rest
            (by
              show (w.wiringAdjusters.set key rest).find? key = some rest
              exact Coll.find?_set_self _ _ _)
          set w2 := w1.setSupplied (w1.supplied.set wa (some (Wiring.empty 0)))
            with hw2def
          set p := (env.script wa).foldl wiringAdjusterCallback (w2, Wiring.empty 0)
            with hpdef
          have hwresF : isResolvedB w wa = false := by
            unfold isResolvedB
            rw [show w.supplied.get wa = some none from hget]
          have h3wa : ∀ (sws : Wiring),
              isResolvedB ((p.1.setContainerAdjusters
                (List.foldl ensureContainerTypeExists p.1.containerAdjusters
                  p.2.containerAdjusters.keys)).setSupplied
                (p.1.supplied.set wa (some sws))) wa = true := by
            intro sws
            unfold isResolvedB
            rw [show ((p.1.setContainerAdjusters
                (List.foldl ensureContainerTypeExists p.1.containerAdjusters
                  p.2.containerAdjusters.keys)).setSupplied
                (p.1.supplied.set wa (some sws))).supplied.get wa
              = some (some sws) from SuppliedMap.get_set_self _ _ _]
          have hpres : ∀ (sws : Wiring) (a : Adjuster), a ≠ wa →
              isResolvedB w a = true →
              isResolvedB ((p.1.setContainerAdjusters
                (List.foldl ensureContainerTypeExists p.1.containerAdjusters
                  p.2.containerAdjusters.keys)).setSupplied
                (p.1.supplied.set wa (some sws))) a = true := by
            intro sws a hane hres
            unfold isResolvedB at hres ⊢
            cases hga : w.supplied.get a with
            | none => rw [hga] at hres; cases hres
            | some v =>
              cases v with
              | none => rw [hga] at hres; cases hres
              | some sw2 =>
                have hpa : p.1.supplied.get a = some (some sw2) := by
                  apply callbackFold_supplied_preserve (env.script wa)
                    (w2, Wiring.empty 0)
                  show (w1.supplied.set wa (some (Wiring.empty 0))).get a
                    = some (some sw2)
                  rw [SuppliedMap.get_set_ne _ _ _ _ hane]
                  exact hga
                rw [show ((p.1.setContainerAdjusters
                    (List.foldl ensureContainerTypeExists p.1.containerAdjusters
                      p.2.containerAdjusters.keys)).setSupplied
                    (p.1.supplied.set wa (some sws))).supplied.get a
                  = some (some sw2) from by
                    show (p.1.supplied.set wa (some sws)).get a = some (some sw2)
                    rw [SuppliedMap.get_set_ne _ _ _ _ hane]
                    exact hpa]
          apply ih
          · intro a ha
            have ha2 : a ∈ lext := by
              have : pendingList ((p.1.setContainerAdjusters
                  (List.foldl ensureContainerTypeExists p.1.containerAdjusters
                    p.2.containerAdjusters.keys)).setSupplied
                  (p.1.supplied.set wa (some (p.2.setContainerAdjusters
                    (List.foldl ensureContainerTypeExists p.2.containerAdjusters
                      (List.foldl ensureContainerTypeExists p.1.containerAdjusters
                        p.2.containerAdjusters.keys).keys))))) key = lext := by
                show (p.1.wiringAdjusters.find? key).getD [] = lext
                rw [hlex]
                rfl
              rwa [this] at ha
            rcases hmem a ha2 with h | ⟨w', hw', q, hq, hbq⟩
            · exact hrestS a h
            · exact hclosed wa hwaS w' hw' q hq a hbq
          · have hsubF : Finset.filter (fun a => isResolvedB
                ((p.1.setContainerAdjusters
                  (List.foldl ensureContainerTypeExists p.1.containerAdjusters
                    p.2.containerAdjusters.keys)).setSupplied
                  (p.1.supplied.set wa (some (p.2.setContainerAdjusters
                    (List.foldl ensureContainerTypeExists p.2.containerAdjusters
                      (List.foldl ensureContainerTypeExists p.1.containerAdjusters
                        p.2.containerAdjusters.keys).keys))))) a = false) S ⊆
                (Finset.filter (fun a => isResolvedB w a = false) S).erase wa := by
              intro a ha
              rw [Finset.mem_filter] at ha
              rw [Finset.mem_erase, Finset.mem_filter]
              have hane : a ≠ wa := by
                rintro rfl
                rw [h3wa] at ha
                cases ha.2
              refine ⟨hane, ha.1, ?_⟩
              by_contra hcon
              rw [Bool.not_eq_false] at hcon
              rw [hpres _ a hane hcon] at ha
              cases ha.2
            have hwamem : wa ∈ Finset.filter (fun a => isResolvedB w a = false) S :=
              Finset.mem_filter.mpr ⟨hwaS, hwresF⟩
            have hsum1 : unresolvedCost env S
                ((p.1.setContainerAdjusters
                  (List.foldl ensureContainerTypeExists p.1.containerAdjusters
                    p.2.containerAdjusters.keys)).setSupplied
                  (p.1.supplied.set wa (some (p.2.setContainerAdjusters
                    (List.foldl ensureContainerTypeExists p.2.containerAdjusters
                      (List.foldl ensureContainerTypeExists p.1.containerAdjusters
                        p.2.containerAdjusters.keys).keys))))) ≤
                ((Finset.filter (fun a => isResolvedB w a = false) S).erase wa).sum
                  (fun a => 1 + scriptCost env a) :=
              Finset.sum_le_sum_of_subset hsubF
            have hsum2 := Finset.sum_erase_add
              (Finset.filter (fun a => isResolvedB w a = false) S)
              (fun a => 1 + scriptCost env a) hwamem
            have hpl : pendingList ((p.1.setContainerAdjusters
                (List.foldl ensureContainerTypeExists p.1.containerAdjusters
                  p.2.containerAdjusters.keys)).setSupplied
                (p.1.supplied.set wa (some (p.2.setContainerAdjusters
                  (List.foldl ensureContainerTypeExists p.2.containerAdjusters
                    (List.foldl ensureContainerTypeExists p.1.containerAdjusters
                      p.2.containerAdjusters.keys).keys))))) key = lext := by
              show (p.1.wiringAdjusters.find? key).getD [] = lext
              rw [hlex]
              rfl
            unfold gatherMeasure at hm ⊢
            rw [hpl]
            rw [hp] at hm
            unfold unresolvedCost at hm hsum1 ⊢
            simp only at hsum2
            have hsc : (List.map waSize (env.script wa)).sum = scriptCost env wa := rfl
            simp only [List.length_cons] at hm
            omega
      | none =>
        simp only [hget]
        obtain ⟨lext, hlex, hlen, hmem⟩ := callbackFold_key_growth key
          (env.script wa) (w1.setSupplied (w1.supplied.set wa (some (Wiring.empty 0))),
            Wiring.empty 0) rest
          (by
            show (w.wiringAdjusters.set key rest).find? key = some rest
            exact Coll.find?_set_self _ _ _)
        set w2 := w1.setSupplied (w1.supplied.set wa (some (Wiring.empty 0)))
          with hw2def
        set p := (env.script wa).foldl wiringAdjusterCallback (w2, Wiring.empty 0)
          with hpdef
        have hwresF : isResolvedB w wa = false := by
          unfold isResolvedB
          rw [show w.supplied.get wa = none from hget]
        have h3wa : ∀ (sws : Wiring),
            isResolvedB ((p.1.setContainerAdjusters
              (List.foldl ensureContainerTypeExists p.1.containerAdjusters
                p.2.containerAdjusters.keys)).setSupplied
              (p.1.supplied.set wa (some sws))) wa = true := by
          intro sws
          unfold isResolvedB
          rw [show ((p.1.setContainerAdjusters
              (List.foldl ensureContainerTypeExists p.1.containerAdjusters
                p.2.containerAdjusters.keys)).setSupplied
              (p.1.supplied.set wa (some sws))).supplied.get wa
            = some (some sws) from SuppliedMap.get_set_self _ _ _]
        have hpres : ∀ (sws : Wiring) (a : Adjuster), a ≠ wa →
            isResolvedB w a = true →
            isResolvedB ((p.1.setContainerAdjusters
              (List.foldl ensureContainerTypeExists p.1.containerAdjusters
                p.2.containerAdjusters.keys)).setSupplied
              (p.1.supplied.set wa (some sws))) a = true := by
          intro sws a hane hres
          unfold isResolvedB at hres ⊢
          cases hga : w.supplied.get a with
          | none => rw [hga] at hres; cases hres
          | some v =>
            cases v with
            | none => rw [hga] at hres; cases hres
            | some sw2 =>
              have hpa : p.1.supplied.get a = some (some sw2) := by
                apply callbackFold_supplied_preserve (env.script wa)
                  (w2, Wiring.empty 0)
                show (w1.supplied.set wa (some (Wiring.empty 0))).get a
                  = some (some sw2)
                rw [SuppliedMap.get_set_ne _ _ _ _ hane]
                exact hga
              rw [show ((p.1.setContainerAdjusters
                  (List.foldl ensureContainerTypeExists p.1.containerAdjusters
                    p.2.containerAdjusters.keys)).setSupplied
                  (p.1.supplied.set wa (some sws))).supplied.get a
                = some (some sw2) from by
                  show (p.1.supplied.set wa (some sws)).get a = some (some sw2)
                  rw [SuppliedMap.get_set_ne _ _ _ _ hane]
                  exact hpa]
        apply ih
        · intro a ha
          have ha2 : a ∈ lext := by
            have : pendingList ((p.1.setContainerAdjusters
                (List.foldl ensureContainerTypeExists p.1.containerAdjusters
                  p.2.containerAdjusters.keys)).setSupplied
                (p.1.supplied.set wa (some (p.2.setContainerAdjusters
                  (List.foldl ensureContainerTypeExists p.2.containerAdjusters
                    (List.foldl ensureContainerTypeExists p.1.containerAdjusters
                      p.2.containerAdjusters.keys).keys))))) key = lext := by
              show (p.1.wiringAdjusters.find? key).getD [] = lext
              rw [hlex]
              rfl
            rwa [this] at ha
          rcases hmem a ha2 with h | ⟨w', hw', q, hq, hbq⟩
          · exact hrestS a h
          · exact hclosed wa hwaS w' hw' q hq a hbq
        · have hsubF : Finset.filter (fun a => isResolvedB
              ((p.1.setContainerAdjusters
                (List.foldl ensureContainerTypeExists p.1.containerAdjusters
                  p.2.containerAdjusters.keys)).setSupplied
                (p.1.supplied.set wa (some (p.2.setContainerAdjusters
                  (List.foldl ensureContainerTypeExists p.2.containerAdjusters
                    (List.foldl ensureContainerTypeExists p.1.containerAdjusters
                      p.2.containerAdjusters.keys).keys))))) a = false) S ⊆
              (Finset.filter (fun a => isResolvedB w a = false) S).erase wa := by
            intro a ha
            rw [Finset.mem_filter] at ha
            rw [Finset.mem_erase, Finset.mem_filter]
            have hane : a ≠ wa := by
              rintro rfl
              rw [h3wa] at ha
              cases ha.2
            refine ⟨hane, ha.1, ?_⟩
            by_contra hcon
            rw [Bool.not_eq_false] at hcon
            rw [hpres _ a hane hcon] at ha
            cases ha.2
          have hwamem : wa ∈ Finset.filter (fun a => isResolvedB w a = false) S :=
            Finset.mem_filter.mpr ⟨hwaS, hwresF⟩
          have hsum1 : unresolvedCost env S
              ((p.1.setContainerAdjusters
                (List.foldl ensureContainerTypeExists p.1.containerAdjusters
                  p.2.containerAdjusters.keys)).setSupplied
                (p.1.supplied.set wa (some (p.2.setContainerAdjusters
                  (List.foldl ensureContainerTypeExists p.2.containerAdjusters
                    (List.foldl ensureContainerTypeExists p.1.containerAdjusters
                      p.2.containerAdjusters.keys).keys))))) ≤
              ((Finset.filter (fun a => isResolvedB w a = false) S).erase wa).sum
                (fun a => 1 + scriptCost env a) :=
            Finset.sum_le_sum_of_subset hsubF
          have hsum2 := Finset.sum_erase_add
            (Finset.filter (fun a => isResolvedB w a = false) S)
            (fun a => 1 + scriptCost env a) hwamem
          have hpl : pendingList ((p.1.setContainerAdjusters
              (List.foldl ensureContainerTypeExists p.1.containerAdjusters
                p.2.containerAdjusters.keys)).setSupplied
              (p.1.supplied.set wa (some (p.2.setContainerAdjusters
                (List.foldl ensureContainerTypeExists p.2.containerAdjusters
                  (List.foldl ensureContainerTypeExists p.1.containerAdjusters
                    p.2.containerAdjusters.keys).keys))))) key = lext := by
            show (p.1.wiringAdjusters.find? key).getD [] = lext
            rw [hlex]
            rfl
          unfold gatherMeasure at hm ⊢
          rw [hpl]
          rw [hp] at hm
          unfold unresolvedCost at hm hsum1 ⊢
          simp only at hsum2
          have hsc : (List.map waSize (env.script wa)).sum = scriptCost env wa := rfl
          simp only [List.length_cons] at hm
          omega

/-- **C9.**  Because the loop records an (initially empty) resolution for a wiring
adjuster before invoking it, no adjuster is invoked twice in one expansion even if it
becomes reachable again during its own execution (the invocation log has no duplicate
identity); every invoked adjuster ends the expansion resolved and was unresolved at
its start, so a later expansion on the same `Wiring` instance — where a supplied
wiring may transitively contain the adjuster itself — never re-invokes it.  And the
loop terminates whenever only finitely many distinct wiring-adjuster identities are
reachable: the pending-list length plus the budget of unresolved reachable
identities decreases every iteration, although the list may grow while consumed. -/
theorem c9_mark_before_invoke_terminates :
    (∀ (env : Env) (key : Key) (hasCtx : Bool) (fuel : Nat) (w : Wiring)
      (out : Wiring × List (Adjuster × Bool)),
      gather env key hasCtx fuel w = some out →
      (out.2.map Prod.fst).Nodup ∧
      (∀ p ∈ out.2, ¬ w.isResolved p.1 ∧ out.1.isResolved p.1) ∧
      (∀ (hasCtx2 : Bool) (fuel2 : Nat) (out2 : Wiring × List (Adjuster × Bool)),
        gather env key hasCtx2 fuel2 out.1 = some out2 →
        ∀ p ∈ out.2, ∀ q ∈ out2.2, q.1 ≠ p.1)) ∧
    (∀ (env : Env) (key : Key) (hasCtx : Bool) (S : Finset Adjuster),
      (∀ a ∈ S, ∀ w' ∈ env.script a, ∀ p ∈ w'.wiringAdjusters, ∀ b ∈ p.2, b ∈ S) →
      ∀ (w : Wiring) (log : List (Adjuster × Bool)) (fuel : Nat),
        (∀ a ∈ pendingList w key, a ∈ S) →
        gatherMeasure env S key w ≤ fuel →
        ∃ out, gatherLoop env key hasCtx fuel w log = some out) := by
  constructor
  · intro env key hasCtx fuel w out hg
    obtain ⟨s1, s2, s3, s4, s5, s6, s7⟩ := gather_spec env key hasCtx fuel w out hg
    refine ⟨s7, fun q hq => ⟨s2 q hq, s3 q hq⟩, ?_⟩
    intro hasCtx2 fuel2 out2 hg2 q hq r hr heq
    obtain ⟨t1, t2, t3, t4, t5, t6, t7⟩ := gather_spec env key hasCtx2 fuel2 _ out2 hg2
    exact t2 r hr (heq ▸ s3 q hq)
  · intro env key hasCtx S hclosed w log fuel hsub hm
    exact gatherLoop_terminates env key hasCtx S hclosed fuel w log hsub hm

/-- A self-referential wiring adjuster: identity 9 supplies a wiring that registers
identity 9 again for the same scope. -/
def c9Self : Wiring := runOps (Wiring.empty 0) [.adjWiringAfter ["A"] 9]

/-- The environment under which adjuster 9 supplies `c9Self` — reaching itself. -/
def c9Env : Env := ⟨fun a => if a = 9 then [c9Self] else []⟩

/-- The expansion outcome: 9 is invoked exactly once, then skipped as resolved. -/
def c9Out : Wiring × List (Adjuster × Bool) :=
  (gather c9Env ["A"] false 3 c9Self).getD (Wiring.empty 0, [])

theorem c9_mark_before_invoke_terminates_witness :
    gather c9Env ["A"] false 3 c9Self = some (c9Out.1, c9Out.2) ∧
    c9Out.2 = [(9, false)] ∧
    ((c9Out.2.map Prod.fst).Nodup ∧
     (∀ p ∈ c9Out.2, ¬ c9Self.isResolved p.1 ∧ c9Out.1.isResolved p.1) ∧
     (∀ (hasCtx2 : Bool) (fuel2 : Nat) (out2 : Wiring × List (Adjuster × Bool)),
       gather c9Env ["A"] hasCtx2 fuel2 c9Out.1 = some out2 →
       ∀ p ∈ c9Out.2, ∀ q ∈ out2.2, q.1 ≠ p.1)) ∧
    (∀ a ∈ pendingList c9Self ["A"], a ∈ ({9} : Finset Adjuster)) ∧
    gatherMeasure c9Env {9} ["A"] c9Self ≤ 3 ∧
    (∃ out, gatherLoop c9Env ["A"] false 3 c9Self [] = some out) :=
  ⟨rfl, by decide,
   c9_mark_before_invoke_terminates.1 c9Env ["A"] false 3 c9Self (c9Out.1, c9Out.2) rfl,
   by decide, by decide,
   c9_mark_before_invoke_terminates.2 c9Env ["A"] false {9} (by decide) c9Self [] 3 (by decide) (by decide)⟩

end ModularAsyncDI

